import Mathlib

/-! # The invisible pool allocator (`src/InvisiblePoolAllocator.cpp`, `.h`)

A shallow embedding of the first-fit circular free-list allocator.
Memory is a map from byte addresses to block headers; pointers are byte
addresses (`0` is `nullptr`); `std::size_t` arithmetic is taken modulo
`2 ^ wbits`.  The two unbounded `for` loops carry a fuel argument and answer
`none` when the fuel runs out before the loop exits.
-/

namespace InvisiblePool

/-- The constant `INVISIBLE_POOL_SIZE` of the header file: 128 MiB. -/
def INVISIBLE_POOL_SIZE : Nat := 128 * 1024 * 1024

/-- The constant `MIN_INVISIBLE_POOL_ALLOC_QUANTAS`. -/
def MIN_INVISIBLE_POOL_ALLOC_QUANTAS : Nat := 16

/-- What the platform and the linker decide: `Q` is
`sizeof(invisible_mem_header_t)`, `wbits` the width of `std::size_t`, `base`
the address of `invisible_mem_base` and `pool` the address of
`invisible_pool[0]`. -/
structure Layout where
  Q : Nat
  wbits : Nat
  base : Nat
  pool : Nat

/-- The two fields of `invisible_mem_header_t::s`. -/
structure Hdr where
  next : Nat
  size : Nat

/-- Memory seen as headers: the header stored at each byte address. -/
abbrev Mem := Nat → Hdr

/-- The mutable statics: header memory, `invisible_free_p` and
`invisible_pool_free_pos`. -/
structure State where
  mem : Mem
  invisible_free_p : Nat
  invisible_pool_free_pos : Nat

/-- A store of one header. -/
def upd (m : Mem) (a : Nat) (h : Hdr) : Mem := fun x => if x = a then h else m x

/-- The modulus of `std::size_t` arithmetic. -/
def wordMod (L : Layout) : Nat := 2 ^ L.wbits

/-- The zero-initialised statics at process start. -/
def zeroState : State :=
  { mem := fun _ => { next := 0, size := 0 }, invisible_free_p := 0, invisible_pool_free_pos := 0 }

/-- The insertion-point loop of `invisible_pool_free` (lines 127-133), started
at `p`: the node after which `block` is linked. -/
def free_find (m : Mem) (block : Nat) : Nat → Nat → Option Nat
  | 0, _ => none
  | fuel + 1, p =>
    if block > p ∧ block < (m p).next then some p
    else if p ≥ (m p).next ∧ (block > p ∨ block < (m p).next) then some p
    else free_find m block fuel (m p).next

/-- The first coalescing step of `invisible_pool_free` (lines 135-144): join
`block` with the node after the insertion point `p`, or link it in front. -/
def free_upper (L : Layout) (m0 : Mem) (block p : Nat) : Mem :=
  if block + (m0 block).size * L.Q = (m0 p).next then
    let ma := upd m0 block
      { m0 block with size := ((m0 block).size + (m0 (m0 p).next).size) % wordMod L }
    upd ma block { ma block with next := (ma (ma p).next).next }
  else upd m0 block { m0 block with next := (m0 p).next }

/-- The second coalescing step of `invisible_pool_free` (lines 146-155): join
`p` with `block`, or link `block` behind it. -/
def free_lower (L : Layout) (m1 : Mem) (block p : Nat) : Mem :=
  if p + (m1 p).size * L.Q = block then
    let mb := upd m1 p { m1 p with size := ((m1 p).size + (m1 block).size) % wordMod L }
    upd mb p { mb p with next := (mb block).next }
  else upd m1 p { m1 p with next := block }

/-- The two coalescing steps of `invisible_pool_free` (lines 135-155), once the
insertion point `p` is known. -/
def free_link (L : Layout) (m0 : Mem) (block p : Nat) : Mem :=
  free_lower L (free_upper L m0 block p) block p

/-- The function `invisible_pool_free(ap)`. -/
def invisible_pool_free (L : Layout) (fuel : Nat) (s : State) (ap : Nat) : Option State :=
  let block := ap - L.Q
  match free_find s.mem block fuel s.invisible_free_p with
  | none => none
  | some p => some { s with mem := free_link L s.mem block p, invisible_free_p := p }

/-- The function `get_invisible_mem_from_pool(num_quantas)`; the pointer it
returns is the second component (`0` for `nullptr`). -/
def get_invisible_mem_from_pool (L : Layout) (fuel : Nat) (s : State) (num_quantas : Nat) :
    Option (State × Nat) :=
  let nq := if num_quantas < MIN_INVISIBLE_POOL_ALLOC_QUANTAS then
    MIN_INVISIBLE_POOL_ALLOC_QUANTAS else num_quantas
  let total_req_size := (nq * L.Q) % wordMod L
  if (s.invisible_pool_free_pos + total_req_size) % wordMod L ≤ INVISIBLE_POOL_SIZE then
    let h := L.pool + s.invisible_pool_free_pos
    let s1 : State := { s with mem := upd s.mem h { s.mem h with size := nq } }
    match invisible_pool_free L fuel s1 (h + L.Q) with
    | none => none
    | some s2 =>
      let s3 : State := { s2 with
        invisible_pool_free_pos := (s2.invisible_pool_free_pos + total_req_size) % wordMod L }
      some (s3, s3.invisible_free_p)
  else some (s, 0)

/-- The body of `if (p->s.size >= num_quantas)` (lines 85-99): unlink the
block at `p`, or split its tail off, and return the payload pointer. -/
def alloc_take (L : Layout) (num_quantas : Nat) (s : State) (prev_p p : Nat) : State × Nat :=
  if (s.mem p).size = num_quantas then
    let m := upd s.mem prev_p { s.mem prev_p with next := (s.mem p).next }
    ({ s with mem := m, invisible_free_p := prev_p }, p + L.Q)
  else
    let m1 := upd s.mem p { s.mem p with size := ((s.mem p).size - num_quantas) % wordMod L }
    let p2 := p + (m1 p).size * L.Q
    let m2 := upd m1 p2 { m1 p2 with size := num_quantas }
    ({ s with mem := m2, invisible_free_p := prev_p }, p2 + L.Q)

/-- The search loop of `invisible_pool_alloc` (lines 80-112) with the loop
variables `prev_p` and `p`. -/
def alloc_loop (L : Layout) (num_quantas : Nat) : Nat → State → Nat → Nat → Option (State × Nat)
  | 0, _, _, _ => none
  | fuel + 1, s, prev_p, p =>
    if (s.mem p).size ≥ num_quantas then some (alloc_take L num_quantas s prev_p p)
    else if p = s.invisible_free_p then
      match get_invisible_mem_from_pool L (fuel + 1) s num_quantas with
      | none => none
      | some (s2, r) =>
        if r = 0 then some (s2, 0) else alloc_loop L num_quantas fuel s2 r (s2.mem r).next
    else alloc_loop L num_quantas fuel s p (s.mem p).next

/-- The size computation of line 70, in `std::size_t` arithmetic. -/
def num_quantas_of (L : Layout) (num_bytes : Nat) : Nat :=
  (((num_bytes + L.Q - 1) % wordMod L) / L.Q + 1) % wordMod L

/-- The first-call initialisation of lines 74-78. -/
def alloc_init (L : Layout) (s : State) : State :=
  if s.invisible_free_p = 0 then
    let m1 := upd s.mem L.base { s.mem L.base with next := L.base }
    { s with
      mem := upd m1 L.base { m1 L.base with size := 0 }
      invisible_free_p := L.base }
  else s

/-- The function `invisible_pool_alloc(num_bytes)`: the new statics and the
returned pointer (`0` for `nullptr`). -/
def invisible_pool_alloc (L : Layout) (fuel : Nat) (s : State) (num_bytes : Nat) :
    Option (State × Nat) :=
  let s0 := alloc_init L s
  alloc_loop L (num_quantas_of L num_bytes) fuel s0 s0.invisible_free_p
    (s0.mem s0.invisible_free_p).next

/-- A 64-bit layout with the sentinel below the pool. -/
def layout64 : Layout := { Q := 32, wbits := 64, base := 4096, pool := 8192 }

/-! ## Stores and links -/

/-- The link relation of a memory: the header at `x` points at `y`. -/
def NextRel (m : Mem) (x y : Nat) : Prop := (m x).next = y

/-- The nodes `u`, `v` stand next to each other, in this order, in `l`. -/
def AdjIn (l : List Nat) (u v : Nat) : Prop := ∃ s t, l = s ++ u :: v :: t

/-! ## Blocks and the heap invariant -/

/-- Address of the header that starts `o` quanta into the pool. -/
def addr (L : Layout) (o : Nat) : Nat := L.pool + L.Q * o

/-- A block: its offset into the pool and its size, both in quanta. -/
abbrev Blk := Nat × Nat

/-- Two blocks share no quantum. -/
def Disj (a b : Blk) : Prop := a.1 + a.2 ≤ b.1 ∨ b.1 + b.2 ≤ a.1

/-- Header addresses of a list of blocks. -/
def nodes (L : Layout) (fr : List Blk) : List Nat := fr.map (fun b => addr L b.1)

/-- The header at offset `o` compares with the sentinel the way every pool
header does: the sentinel lies below the pool, or above this header. -/
def StartOK (L : Layout) (o : Nat) : Prop := L.base < L.pool ∨ addr L o < L.base

/-- The sentinel does not start at offset `e`. -/
def EndOK (L : Layout) (e : Nat) : Prop := addr L e ≠ L.base

/-- The structural invariant of the allocator: `fr` lists the free blocks in
address order, `live` the allocated ones, and `r` is the rover. -/
structure Heap (L : Layout) (m : Mem) (r : Nat) (fr live : List Blk) : Prop where
  base_size : (m L.base).size = 0
  links : List.Chain' (NextRel m) (L.base :: nodes L fr ++ [L.base])
  sizes : ∀ b ∈ fr ++ live, (m (addr L b.1)).size = b.2
  pos : ∀ b ∈ fr ++ live, 1 ≤ b.2
  small : ∀ b ∈ fr ++ live, b.1 + b.2 < wordMod L
  startOK : ∀ b ∈ fr ++ live, StartOK L b.1
  endOK : ∀ b ∈ fr ++ live, EndOK L (b.1 + b.2)
  gaps : List.Pairwise (fun a b : Blk => a.1 + a.2 < b.1) fr
  disj : List.Pairwise Disj (fr ++ live)
  rover : r ∈ L.base :: nodes L fr

/-- The exit test of the insertion-point loop at a node `u` whose link is `v`. -/
def stopc (B u v : Nat) : Prop := (B > u ∧ B < v) ∨ (u ≥ v ∧ (B > u ∨ B < v))

instance (B u v : Nat) : Decidable (stopc B u v) := by
  unfold stopc
  infer_instance

/-- The node that precedes a block whose lower free neighbours are `F1`. -/
def predNode (L : Layout) (F1 : List Blk) : Nat := ((nodes L F1).getLast?).getD L.base

/-- The node that follows a block whose upper free neighbours are `F2`. -/
def succNode (L : Layout) (F2 : List Blk) : Nat := ((nodes L F2).head?).getD L.base

/-- A node on the left of a link: the sentinel, or the header at an offset. -/
def lnode (L : Layout) : Option Nat → Nat
  | none => L.base
  | some o => addr L o

/-! ## The effect of `invisible_pool_free` on the heap -/

/-- Joining a freed block with the free block right above it, if any. -/
def mergeUp (B : Blk) : List Blk → Blk × List Blk
  | [] => (B, [])
  | c :: t => if B.1 + B.2 = c.1 then ((B.1, B.2 + c.2), t) else (B, c :: t)

/-- Joining a freed block with the free block right below it, if any, or
putting it behind the lower free blocks. -/
def mergeDown (F1 : List Blk) (B : Blk) : List Blk :=
  match F1.getLast? with
  | none => [B]
  | some a => if a.1 + a.2 = B.1 then F1.dropLast ++ [(a.1, a.2 + B.2)] else F1 ++ [B]

/-- The free list after the block `B`, lying between `F1` and `F2`, is freed. -/
def freeIns (F1 : List Blk) (B : Blk) (F2 : List Blk) : List Blk :=
  mergeDown F1 (mergeUp B F2).1 ++ (mergeUp B F2).2

/-! ## The effect of taking a block out of the free list -/

/-- The free list and the new live block after a block `b` that is large
enough is taken: unlinked when it fits exactly, its tail split off otherwise. -/
def allocTake (nq : Nat) (F1 : List Blk) (b : Blk) (F2 : List Blk) : List Blk × Blk :=
  if b.2 = nq then (F1 ++ F2, b) else (F1 ++ (b.1, b.2 - nq) :: F2, (b.1 + (b.2 - nq), nq))

/-- The continuation of the search loop once the walk is back at the rover
without a fit: ask the pool for a fresh block and go on from what it returns. -/
def alloc_refill (L : Layout) (nq fuel : Nat) (s : State) : Option (State × Nat) :=
  match get_invisible_mem_from_pool L (fuel + 1) s nq with
  | none => none
  | some (s2, r) =>
    if r = 0 then some (s2, 0) else alloc_loop L nq fuel s2 r (s2.mem r).next

/-! ## Arithmetic of the free list -/

/-- Total size, in quanta, of a list of blocks. -/
def sizes (l : List Blk) : Nat := (l.map Prod.snd).sum

/-- The quantum at offset `q` lies in one of the blocks of `l`. -/
def Cov (l : List Blk) (q : Nat) : Prop := ∃ b ∈ l, b.1 ≤ q ∧ q < b.1 + b.2

/-! ## The allocator state and its accounting -/

/-- What the embedding asks of platform and linker: headers have a size, the
two statics are not at address zero, and the sizes that occur for requests of
at most `INVISIBLE_POOL_SIZE` bytes do not wrap a `std::size_t`. -/
def LayoutOK (L : Layout) : Prop :=
  0 < L.Q ∧ 0 < L.base ∧ 0 < L.pool ∧ 2 * INVISIBLE_POOL_SIZE + 18 * L.Q < 2 ^ L.wbits

/-- The sentinel `invisible_mem_base` lies outside the backing region
`invisible_pool`. -/
def SentinelOutside (L : Layout) : Prop :=
  L.base + L.Q ≤ L.pool ∨ L.pool + INVISIBLE_POOL_SIZE ≤ L.base

/-- The sentinel lies outside the backing region and does not start at the
first byte after it. -/
def SentinelApart (L : Layout) : Prop :=
  L.base + L.Q ≤ L.pool ∨ L.pool + INVISIBLE_POOL_SIZE < L.base

instance (L : Layout) : Decidable (LayoutOK L) := by
  unfold LayoutOK
  infer_instance

instance (L : Layout) : Decidable (SentinelOutside L) := by
  unfold SentinelOutside
  infer_instance

instance (L : Layout) : Decidable (SentinelApart L) := by
  unfold SentinelApart
  infer_instance

/-- The invariant of the allocator once the sentinel is set up: the heap
invariant, and the blocks account for the `N` quanta below the high-water
cursor. -/
structure Rep (L : Layout) (s : State) (fr live : List Blk) (N : Nat) : Prop where
  heap : Heap L s.mem s.invisible_free_p fr live
  fpos : s.invisible_pool_free_pos = L.Q * N
  cap : L.Q * N ≤ INVISIBLE_POOL_SIZE
  within : ∀ b ∈ fr ++ live, b.1 + b.2 ≤ N
  total : sizes fr + sizes live = N

/-- The minimum of `get_invisible_mem_from_pool` applied to a request. -/
def minted (nq : Nat) : Nat :=
  if nq < MIN_INVISIBLE_POOL_ALLOC_QUANTAS then MIN_INVISIBLE_POOL_ALLOC_QUANTAS else nq

/-! ## Call sequences -/

/-- Fuel that lets both loops finish in every well-formed state: the free list
never has more nodes than the pool has bytes. -/
def FUEL : Nat := 2 * INVISIBLE_POOL_SIZE + 8

/-- A call of the primitive interface. -/
inductive Op where
  | alloc (num_bytes : Nat)
  | free (ap : Nat)

/-- The precondition of a call, given the pointers handed out and not yet
freed: a request of at most `INVISIBLE_POOL_SIZE` bytes, or the release of
such a pointer. -/
def legal (lv : List Nat) : Op → Prop
  | Op.alloc n => n ≤ INVISIBLE_POOL_SIZE
  | Op.free p => p ∈ lv

instance (lv : List Nat) (op : Op) : Decidable (legal lv op) := by
  cases op <;> unfold legal <;> infer_instance

/-- One call: the new statics and the pointers then live. -/
def step (L : Layout) (fuel : Nat) (st : State × List Nat) : Op → Option (State × List Nat)
  | Op.alloc n =>
    match invisible_pool_alloc L fuel st.1 n with
    | none => none
    | some (s2, p) => some (s2, if p = 0 then st.2 else p :: st.2)
  | Op.free p =>
    match invisible_pool_free L fuel st.1 p with
    | none => none
    | some s2 => some (s2, st.2.filter (fun x => x ≠ p))

/-- A sequence of calls, each one legal when it is made; `none` when a call
is not legal or a loop runs out of fuel. -/
def run (L : Layout) (fuel : Nat) : State × List Nat → List Op → Option (State × List Nat)
  | st, [] => some st
  | st, op :: ops =>
    if legal st.2 op then
      match step L fuel st op with
      | none => none
      | some st2 => run L fuel st2 ops
    else none

/-- The payload pointer of a block. -/
def payload (L : Layout) (b : Blk) : Nat := addr L b.1 + L.Q

/-- Header addresses met when following `next` from `p` until the sentinel. -/
def walk (m : Mem) (base : Nat) : Nat → Nat → List Nat
  | 0, _ => []
  | fuel + 1, p => if p = base then [] else p :: walk m base fuel (m p).next

/-- The free blocks of a state, by header address, in list order after the
sentinel; none before the first call, when `invisible_free_p` is null. -/
def freeNodes (L : Layout) (fuel : Nat) (s : State) : List Nat :=
  if s.invisible_free_p = 0 then [] else walk s.mem L.base fuel (s.mem L.base).next

/-- A well-formed allocator state: the zero-initialised cursor and rover
before the first call, or a state that satisfies the allocator invariant for
some free and live blocks. -/
def WF (L : Layout) (s : State) : Prop :=
  (s.invisible_free_p = 0 ∧ s.invisible_pool_free_pos = 0) ∨
    ∃ fr live N, Rep L s fr live N

/-- The invariant of call sequences: the state is well formed and the live
pointers are the payloads of its live blocks. -/
def RunInv (L : Layout) (st : State × List Nat) : Prop :=
  (st.1.invisible_free_p = 0 ∧ st.1.invisible_pool_free_pos = 0 ∧ st.2 = []) ∨
    ∃ fr live N, Rep L st.1 fr live N ∧ st.2 = live.map (payload L)

/-- The three ways a call of `invisible_pool_alloc` for `nq` quanta ends in a
well-formed state `s0` with free blocks `fr`, live blocks `live` and `N`
quanta handed out by the pool: `nullptr` with nothing changed; a block taken
from the free list; a block taken after the pool minted a fresh one. -/
def AllocOutcome (L : Layout) (s0 : State) (fr live : List Blk) (N nq : Nat) (s2 : State)
    (p : Nat) : Prop :=
  (p = 0 ∧ s2 = s0 ∧ (∀ b ∈ fr, b.2 < nq) ∧
      INVISIBLE_POOL_SIZE < L.Q * N + minted nq * L.Q) ∨
    (∃ fr2 o, p = addr L o + L.Q ∧ Rep L s2 fr2 ((o, nq) :: live) N ∧
      (∃ b ∈ fr, nq ≤ b.2)) ∨
    (∃ fr2 o, p = addr L o + L.Q ∧ Rep L s2 fr2 ((o, nq) :: live) (N + minted nq) ∧
      (∀ b ∈ fr, b.2 < nq) ∧ L.Q * N + minted nq * L.Q ≤ INVISIBLE_POOL_SIZE)

/-- A call sequence used as a concrete instance: two requests, then the
release of the first block. -/
def exOps : List Op := [Op.alloc 100, Op.alloc 32, Op.free 8576]

/-- The state and live pointers after `exOps` in the layout `layout64`. -/
def exState : State × List Nat :=
  (run layout64 FUEL (zeroState, []) exOps).getD (zeroState, [])

/-- Number of links `u → v` with `u ≥ v` along a list of nodes. -/
def wrapEdges : List Nat → Nat
  | a :: b :: l => (if a ≥ b then 1 else 0) + wrapEdges (b :: l)
  | _ => 0

/-- The free list seen from the sentinel: following `next` from the sentinel
comes back to it after the free blocks, these are met in strictly increasing
address order, and exactly one link of the round goes from a node to one
that is not above it. -/
def SortedCycle (L : Layout) (fuel : Nat) (s : State) : Prop :=
  List.Chain' (NextRel s.mem) (L.base :: freeNodes L fuel s ++ [L.base]) ∧
    L.base ∉ freeNodes L fuel s ∧ List.Pairwise (fun a b => a < b) (freeNodes L fuel s) ∧
    wrapEdges (L.base :: freeNodes L fuel s ++ [L.base]) = 1

/-- No free block ends where a node of the free list starts. -/
def NoAdjacent (L : Layout) (fuel : Nat) (s : State) : Prop :=
  ∀ a ∈ freeNodes L fuel s, a + (s.mem a).size * L.Q ∉ L.base :: freeNodes L fuel s

/-- A 64-bit layout in which the sentinel starts at the first byte after the
pool. -/
def abutLayout : Layout :=
  { Q := 32, wbits := 64, base := 8192 + INVISIBLE_POOL_SIZE, pool := 8192 }

/-- Two requests that together use the whole pool, then both releases. -/
def abutOps : List Op :=
  [Op.alloc (2 ^ 26 - 32), Op.alloc (2 ^ 26 - 32), Op.free (8192 + 32),
    Op.free (8192 + 2 ^ 26 + 32)]

/-- The state and live pointers after `abutOps` in the layout `abutLayout`. -/
def abutState : State × List Nat :=
  (run abutLayout FUEL (zeroState, []) abutOps).getD (zeroState, [])

/-- How `InvisiblePoolAllocator<T>::allocate` ends: one of the two exceptions
it throws, or the pointer it returns. -/
inductive AllocResult where
  | bad_array_new_length
  | bad_alloc
  | ok (p : Nat)
  deriving DecidableEq

/-- The member function `InvisiblePoolAllocator<T>::allocate(n)`, with
`sizeofT = sizeof(T)`: the statics afterwards and how the call ends. -/
def allocate (L : Layout) (fuel : Nat) (sizeofT : Nat) (s : State) (n : Nat) :
    Option (State × AllocResult) :=
  if n > INVISIBLE_POOL_SIZE / sizeofT then some (s, AllocResult.bad_array_new_length)
  else
    match invisible_pool_alloc L fuel s ((n * sizeofT) % wordMod L) with
    | none => none
    | some (s2, p) =>
      if p = 0 then some (s2, AllocResult.bad_alloc) else some (s2, AllocResult.ok p)

/-- The member function `InvisiblePoolAllocator<T>::deallocate(p, n)`. -/
def deallocate (L : Layout) (fuel : Nat) (s : State) (p : Nat) (_n : Nat) : Option State :=
  invisible_pool_free L fuel s p

/-! ## Requests of any size -/

/-- The result of `invisible_pool_alloc(64)` in the state after `exOps`. -/
def rtAlloc : State × Nat :=
  (invisible_pool_alloc layout64 FUEL exState.1 64).getD (zeroState, 0)

/-! ## Freeing several blocks -/

/-- Freeing the pointers of a list, one call after the other. -/
def freeAll (L : Layout) (fuel : Nat) : State → List Nat → Option State
  | s, [] => some s
  | s, p :: ps =>
    match invisible_pool_free L fuel s p with
    | none => none
    | some s2 => freeAll L fuel s2 ps

/-- The free blocks of a state as pairs of header address and `size` field, in
list order after the sentinel. -/
def freeBlocks (L : Layout) (fuel : Nat) (s : State) : List (Nat × Nat) :=
  (freeNodes L fuel s).map (fun a => (a, (s.mem a).size))

/-- Combined `size` fields of the blocks behind a list of payload pointers. -/
def sizeSum (L : Layout) (s : State) (ps : List Nat) : Nat :=
  (ps.map (fun p => (s.mem (p - L.Q)).size)).sum

/-- The block behind `p` ends where the block behind `q` starts. -/
def Abuts (L : Layout) (s : State) (p q : Nat) : Prop :=
  p + (s.mem (p - L.Q)).size * L.Q = q

/-- The quantum at offset `q` lies in a live block whose payload pointer is
in `ps`. -/
def CovP (L : Layout) (live : List Blk) (ps : List Nat) (q : Nat) : Prop :=
  ∃ B ∈ live, payload L B ∈ ps ∧ B.1 ≤ q ∧ q < B.1 + B.2

/-- Three requests of `Q = 32` bytes on a fresh pool. -/
def abcOps : List Op := [Op.alloc 32, Op.alloc 32, Op.alloc 32]

/-- The state and the live pointers `[c, b, a]` after `abcOps`. -/
def abcState : State × List Nat :=
  (run layout64 FUEL (zeroState, []) abcOps).getD (zeroState, [])

/-! ## Repeated requests, the search order and the call counter -/

/-- The same request made `k` times with no call of `invisible_pool_free` in
between: the last state and the returned pointers, the latest first. -/
def allocN (L : Layout) (fuel n : Nat) : Nat → State → Option (State × List Nat)
  | 0, s => some (s, [])
  | k + 1, s =>
    match allocN L fuel n k s with
    | none => none
    | some (s1, ps) =>
      match invisible_pool_alloc L fuel s1 n with
      | none => none
      | some (s2, p) => some (s2, p :: ps)

/-- The nodes of the free list in the order in which the search loop of
`invisible_pool_alloc` examines them: from the node after the rover around the
list, the rover itself last. -/
def roverRound (fuel : Nat) (s : State) : List Nat :=
  walk s.mem s.invisible_free_p fuel (s.mem s.invisible_free_p).next ++ [s.invisible_free_p]

/-- Two requests of 64 MiB less a header: together they use the whole pool. -/
def fullOps : List Op := [Op.alloc (2 ^ 26 - 32), Op.alloc (2 ^ 26 - 32)]

/-- The state and live pointers after `fullOps` in the layout `layout64`. -/
def fullState : State × List Nat :=
  (run layout64 FUEL (zeroState, []) fullOps).getD (zeroState, [])

/-- The search loop of `invisible_pool_alloc` with a counter: the third
component of the result is the number of calls of
`get_invisible_mem_from_pool` made before the loop was left. -/
def alloc_loop_calls (L : Layout) (num_quantas : Nat) :
    Nat → State → Nat → Nat → Option (State × Nat × Nat)
  | 0, _, _, _ => none
  | fuel + 1, s, prev_p, p =>
    if (s.mem p).size ≥ num_quantas then
      some ((alloc_take L num_quantas s prev_p p).1, (alloc_take L num_quantas s prev_p p).2, 0)
    else if p = s.invisible_free_p then
      match get_invisible_mem_from_pool L (fuel + 1) s num_quantas with
      | none => none
      | some (s2, r) =>
        if r = 0 then some (s2, 0, 1)
        else (alloc_loop_calls L num_quantas fuel s2 r (s2.mem r).next).map
          (fun x => (x.1, x.2.1, x.2.2 + 1))
    else alloc_loop_calls L num_quantas fuel s p (s.mem p).next

/-- The function `invisible_pool_alloc(num_bytes)` with the counter of
`alloc_loop_calls`. -/
def invisible_pool_alloc_calls (L : Layout) (fuel : Nat) (s : State) (num_bytes : Nat) :
    Option (State × Nat × Nat) :=
  let s0 := alloc_init L s
  alloc_loop_calls L (num_quantas_of L num_bytes) fuel s0 s0.invisible_free_p
    (s0.mem s0.invisible_free_p).next

/-- The counting loop after the walk has come back to the rover. -/
def calls_refill (L : Layout) (nq fuel : Nat) (s : State) : Option (State × Nat × Nat) :=
  match get_invisible_mem_from_pool L (fuel + 1) s nq with
  | none => none
  | some (s2, r) =>
    if r = 0 then some (s2, 0, 1)
    else (alloc_loop_calls L nq fuel s2 r (s2.mem r).next).map
      (fun x => (x.1, x.2.1, x.2.2 + 1))

/-- The calls of `abutOps`, then one request for the whole pool. -/
def abutOps2 : List Op := abutOps ++ [Op.alloc (INVISIBLE_POOL_SIZE - 32)]

/-- The state and live pointers after `abutOps2` in the layout `abutLayout`. -/
def abutState2 : State × List Nat :=
  (run abutLayout FUEL (zeroState, []) abutOps2).getD (zeroState, [])

/-- A request that leaves 8 quanta of the pool, a request that takes these 8
quanta, the release of both, and the second request and its release again. -/
def adjOps : List Op :=
  [Op.alloc (INVISIBLE_POOL_SIZE - 544), Op.alloc 200, Op.free 134225696, Op.free 8224,
    Op.alloc 200, Op.free 134225696]

/-- The state and live pointers after `adjOps` in the layout `abutLayout`. -/
def adjState : State × List Nat :=
  (run abutLayout FUEL (zeroState, []) adjOps).getD (zeroState, [])

/-- A 32-bit layout whose header size of 48 bytes does not divide the pool
size. -/
def layout48 : Layout :=
  { Q := 48, wbits := 32, base := 4096, pool := 8192 }

/-! # Lemmas -/

/-! ## Stores and links -/

@[simp] theorem upd_same (m : Mem) (a : Nat) (h : Hdr) : upd m a h a = h := by
  simp [upd]

theorem upd_other (m : Mem) {a x : Nat} (h : Hdr) (hx : x ≠ a) : upd m a h x = m x := by
  simp [upd, hx]

theorem chain_adj_aux (l : List Nat) :
    ∀ pre : List Nat, List.Chain' (fun u v => AdjIn (pre ++ l) u v) l := by
  induction l with
  | nil => intro pre; exact List.chain'_nil
  | cons a t ih =>
    intro pre
    cases t with
    | nil => exact List.chain'_singleton a
    | cons b t2 =>
      refine List.chain'_cons.2 ⟨⟨pre, t2, rfl⟩, ?_⟩
      have h := ih (pre ++ [a])
      simpa using h

theorem chain_adj (l : List Nat) : List.Chain' (AdjIn l) l := by
  simpa using chain_adj_aux l []

/-- A chain that closes a cycle through `c` can be read once around from any
of its nodes. -/
theorem cyc_round {α : Type} {R : α → α → Prop} {c r : α} {A : List α}
    (hch : List.Chain' R (c :: A ++ [c])) (hr : r ∈ c :: A) :
    ∃ V, List.Chain' R (r :: V ++ [r]) ∧ List.Perm (r :: V) (c :: A) := by
  obtain ⟨X, Y, hXY⟩ := List.append_of_mem hr
  cases X with
  | nil =>
    simp at hXY
    obtain ⟨rfl, rfl⟩ := hXY
    exact ⟨A, hch, List.Perm.refl _⟩
  | cons x X2 =>
    simp at hXY
    obtain ⟨rfl, rfl⟩ := hXY
    have h1 : List.Chain' R ((c :: X2) ++ r :: (Y ++ [c])) := by simpa using hch
    rw [List.chain'_split] at h1
    refine ⟨Y ++ c :: X2, ?_, ?_⟩
    · have h2 : List.Chain' R ((r :: Y) ++ c :: (X2 ++ [r])) :=
        List.chain'_split.2 ⟨by simpa using h1.2, by simpa using h1.1⟩
      simpa using h2
    · have h3 : List.Perm ((r :: Y) ++ (c :: X2)) ((c :: X2) ++ (r :: Y)) :=
        List.perm_append_comm
      simpa using h3

/-- Changing headers outside the nodes whose link is read keeps a chain. -/
theorem chain_congr {m m2 : Mem} :
    ∀ {l : List Nat} {z : Nat}, List.Chain' (NextRel m) (l ++ [z]) →
      (∀ x ∈ l, (m2 x).next = (m x).next) → List.Chain' (NextRel m2) (l ++ [z]) := by
  intro l
  induction l with
  | nil => intro z _ _; exact List.chain'_singleton z
  | cons a t ih =>
    intro z h hx
    rw [List.cons_append, List.chain'_cons'] at h ⊢
    refine ⟨?_, ih h.2 (fun x hxt => hx x (List.mem_cons_of_mem _ hxt))⟩
    intro y hy
    have := h.1 y hy
    unfold NextRel at this ⊢
    rw [hx a (List.mem_cons_self _ _)]
    exact this

/-! ## Blocks and the heap invariant -/

theorem addr_lt {L : Layout} (hQ : 0 < L.Q) {a b : Nat} : addr L a < addr L b ↔ a < b := by
  unfold addr
  constructor
  · intro h
    by_contra hc
    have : L.Q * b ≤ L.Q * a := Nat.mul_le_mul_left _ (by omega)
    omega
  · intro h
    have : L.Q * a < L.Q * b := Nat.mul_lt_mul_of_pos_left h hQ
    omega

theorem addr_inj {L : Layout} (hQ : 0 < L.Q) {a b : Nat} : addr L a = addr L b ↔ a = b := by
  constructor
  · intro h
    rcases Nat.lt_trichotomy a b with h1 | h1 | h1
    · have := (addr_lt hQ).2 h1; omega
    · exact h1
    · have := (addr_lt hQ).2 h1; omega
  · intro h; rw [h]

theorem addr_add (L : Layout) (o k : Nat) : addr L o + k * L.Q = addr L (o + k) := by
  unfold addr
  rw [Nat.mul_add, Nat.mul_comm k]
  omega

theorem StartOK.ne {L : Layout} {o : Nat} (h : StartOK L o) : addr L o ≠ L.base := by
  rcases h with h | h
  · unfold addr; omega
  · omega

theorem free_find_succ (m : Mem) (B fuel p : Nat) :
    free_find m B (fuel + 1) p =
      if stopc B p (m p).next then some p else free_find m B fuel (m p).next := by
  by_cases h1 : B > p ∧ B < (m p).next
  · simp [free_find, stopc, h1]
  · by_cases h2 : p ≥ (m p).next ∧ (B > p ∨ B < (m p).next)
    · simp [free_find, stopc, h1, h2]
    · simp only [free_find, stopc, h1, h2, if_false, or_self]

theorem stopc_mid {L : Layout} (hQ : 0 < L.Q) {oB o1 o2 : Nat} (h12 : o1 < o2) :
    stopc (addr L oB) (addr L o1) (addr L o2) ↔ o1 < oB ∧ oB < o2 := by
  have h := (addr_lt hQ (a := o1) (b := o2)).2 h12
  unfold stopc
  rw [gt_iff_lt, addr_lt hQ, addr_lt hQ]
  constructor
  · rintro (h1 | h1)
    · exact h1
    · omega
  · intro h1; exact Or.inl h1

theorem stopc_right {L : Layout} (hQ : 0 < L.Q) {oB o1 : Nat} (hB : StartOK L oB)
    (h1 : StartOK L o1) : stopc (addr L oB) (addr L o1) L.base ↔ o1 < oB := by
  unfold stopc
  rw [gt_iff_lt, addr_lt hQ]
  have p1 : L.pool ≤ addr L o1 := by unfold addr; omega
  have p2 : L.pool ≤ addr L oB := by unfold addr; omega
  rcases hB with hB | hB <;> rcases h1 with h1 | h1 <;>
    constructor <;> intro h <;> omega

theorem stopc_left {L : Layout} (hQ : 0 < L.Q) {oB o2 : Nat} (hB : StartOK L oB)
    (h2 : StartOK L o2) : stopc (addr L oB) L.base (addr L o2) ↔ oB < o2 := by
  unfold stopc
  rw [addr_lt hQ]
  have p1 : L.pool ≤ addr L o2 := by unfold addr; omega
  have p2 : L.pool ≤ addr L oB := by unfold addr; omega
  rcases hB with hB | hB <;> rcases h2 with h2 | h2 <;>
    constructor <;> intro h <;> omega

theorem stopc_base {L : Layout} {oB : Nat} (hB : StartOK L oB) :
    stopc (addr L oB) L.base L.base := by
  have := hB.ne
  unfold stopc
  omega

@[simp] theorem predNode_nil (L : Layout) : predNode L [] = L.base := rfl

@[simp] theorem predNode_concat (L : Layout) (F : List Blk) (a : Blk) :
    predNode L (F ++ [a]) = addr L a.1 := by
  simp [predNode, nodes]

@[simp] theorem succNode_nil (L : Layout) : succNode L [] = L.base := rfl

@[simp] theorem succNode_cons (L : Layout) (F : List Blk) (a : Blk) :
    succNode L (a :: F) = addr L a.1 := by
  simp [succNode, nodes]

@[simp] theorem nodes_nil (L : Layout) : nodes L [] = [] := rfl

@[simp] theorem nodes_cons (L : Layout) (a : Blk) (F : List Blk) :
    nodes L (a :: F) = addr L a.1 :: nodes L F := rfl

@[simp] theorem nodes_append (L : Layout) (F G : List Blk) :
    nodes L (F ++ G) = nodes L F ++ nodes L G := by
  simp [nodes]

theorem chain_above {L : Layout} (hQ : 0 < L.Q) {oB : Nat} (hB : StartOK L oB) :
    ∀ F2 : List Blk, (∀ b ∈ F2, oB < b.1) → (∀ b ∈ F2, StartOK L b.1) →
      List.Pairwise (fun a b : Blk => a.1 + a.2 < b.1) F2 →
      List.Chain' (fun u v => ¬ stopc (addr L oB) u v) (nodes L F2 ++ [L.base]) := by
  intro F2
  induction F2 with
  | nil => intro _ _ _; exact List.chain'_singleton _
  | cons c t ih =>
    intro h1 h2 h3
    rw [List.pairwise_cons] at h3
    rw [nodes_cons, List.cons_append, List.chain'_cons']
    refine ⟨?_, ih (fun b hb => h1 b (List.mem_cons_of_mem _ hb))
      (fun b hb => h2 b (List.mem_cons_of_mem _ hb)) h3.2⟩
    intro y hy
    have hc1 := h1 c (List.mem_cons_self _ _)
    cases t with
    | nil =>
      simp at hy
      subst hy
      rw [stopc_right hQ hB (h2 c (List.mem_cons_self _ _))]
      omega
    | cons d t2 =>
      simp at hy
      subst hy
      have hd := h3.1 d (List.mem_cons_self _ _)
      rw [stopc_mid hQ (by omega)]
      omega

theorem chain_below {L : Layout} (hQ : 0 < L.Q) {oB : Nat} (hB : StartOK L oB)
    (F2 : List Blk) (h21 : ∀ b ∈ F2, oB < b.1) (h22 : ∀ b ∈ F2, StartOK L b.1)
    (h23 : List.Pairwise (fun a b : Blk => a.1 + a.2 < b.1) F2) :
    ∀ (F1 : List Blk) (h : Option Nat),
      (∀ o, h = some o → o < oB ∧ ∀ b ∈ F1, o < b.1) →
      (∀ b ∈ F1, b.1 < oB ∧ StartOK L b.1) →
      List.Pairwise (fun a b : Blk => a.1 + a.2 < b.1) F1 →
      List.Chain' (fun u v => u ≠ ((nodes L F1).getLast?).getD (lnode L h) →
          ¬ stopc (addr L oB) u v)
        (lnode L h :: nodes L F1 ++ (nodes L F2 ++ [L.base])) := by
  intro F1
  induction F1 with
  | nil =>
    intro h _ _ _
    simp only [nodes_nil, List.getLast?_nil, Option.getD_none, List.append_nil,
      List.cons_append, List.nil_append]
    rw [List.chain'_cons']
    refine ⟨fun y _ hne => absurd rfl hne, ?_⟩
    exact List.Chain'.imp (S := fun u v => u ≠ lnode L h → ¬ stopc (addr L oB) u v)
      (fun _ _ hn _ => hn) (chain_above hQ hB F2 h21 h22 h23)
  | cons a t ih =>
    intro h hh h1 h3
    rw [List.pairwise_cons] at h3
    have ha := h1 a (List.mem_cons_self _ _)
    have hlast : ((nodes L (a :: t)).getLast?).getD (lnode L h)
        = ((nodes L t).getLast?).getD (lnode L (some a.1)) := by
      simp only [nodes_cons, List.getLast?_cons, Option.getD_some, lnode]
    rw [hlast]
    simp only [nodes_cons, List.cons_append]
    refine List.chain'_cons.2 ⟨?_, ?_⟩
    · intro _
      cases h with
      | none =>
        simp only [lnode]
        rw [stopc_left hQ hB ha.2]
        omega
      | some o =>
        simp only [lnode]
        have := (hh o rfl).2 a (List.mem_cons_self _ _)
        rw [stopc_mid hQ this]
        omega
    · have := ih (some a.1)
        (fun o ho => by
          cases ho
          exact ⟨ha.1, fun b hb => by have := h3.1 b hb; omega⟩)
        (fun b hb => h1 b (List.mem_cons_of_mem _ hb)) h3.2
      simpa [lnode] using this

theorem chain_and {α : Type} {R S : α → α → Prop} :
    ∀ {l : List α}, List.Chain' R l → List.Chain' S l →
      List.Chain' (fun u v => R u v ∧ S u v) l := by
  intro l
  induction l with
  | nil => intro _ _; exact List.chain'_nil
  | cons a t ih =>
    intro h1 h2
    rw [List.chain'_cons'] at h1 h2 ⊢
    exact ⟨fun y hy => ⟨h1.1 y hy, h2.1 y hy⟩, ih h1.2 h2.2⟩

theorem nodes_nodup {L : Layout} (hQ : 0 < L.Q) {fr : List Blk}
    (hg : List.Pairwise (fun a b : Blk => a.1 + a.2 < b.1) fr)
    (hs : ∀ b ∈ fr, StartOK L b.1) : (L.base :: nodes L fr).Nodup := by
  rw [List.nodup_cons]
  constructor
  · intro hmem
    unfold nodes at hmem
    rw [List.mem_map] at hmem
    obtain ⟨b, hb, hbe⟩ := hmem
    exact (hs b hb).ne hbe
  · unfold nodes List.Nodup
    rw [List.pairwise_map]
    refine hg.imp ?_
    intro a b hab he
    have := (addr_inj hQ).1 he
    omega

theorem free_find_stop {m : Mem} {B d : Nat} (hd : stopc B d (m d).next) (k : Nat) :
    free_find m B (k + 1) d = some d := by
  rw [free_find_succ, if_pos hd]

theorem free_find_walk {m : Mem} {B d : Nat} {P : Nat → Nat → Prop}
    (hP : ∀ u v, P u v → u ≠ d → ¬ stopc B u v) (hd : stopc B d (m d).next) :
    ∀ (xs : List Nat) (r : Nat),
      List.Chain' (fun u v => NextRel m u v ∧ P u v) (r :: xs ++ [d]) → d ∉ r :: xs →
      ∀ k, free_find m B (xs.length + 2 + k) r = some d := by
  intro xs
  induction xs with
  | nil =>
    intro r hch hnd k
    have h := List.chain'_pair.1 hch
    have hne : r ≠ d := fun e => hnd (by simp [e])
    have h1 : (m r).next = d := h.1
    have e : ([] : List Nat).length + 2 + k = (k + 1) + 1 := by simp; omega
    rw [e, free_find_succ, h1, if_neg (hP r d h.2 hne)]
    exact free_find_stop hd k
  | cons x t ih =>
    intro r hch hnd k
    rw [List.cons_append, List.cons_append, List.chain'_cons] at hch
    have hne : r ≠ d := fun e => hnd (by simp [e])
    have h1 : (m r).next = x := hch.1.1
    have e : (x :: t).length + 2 + k = (t.length + 2 + k) + 1 := by simp; omega
    rw [e, free_find_succ, h1, if_neg (hP r x hch.1.2 hne)]
    exact ih x hch.2 (fun hm => hnd (List.mem_cons_of_mem _ hm)) k

theorem pred_next {L : Layout} {m : Mem} {F1 F2 : List Blk}
    (hlinks : List.Chain' (NextRel m) (L.base :: nodes L (F1 ++ F2) ++ [L.base])) :
    (m (predNode L F1)).next = succNode L F2 := by
  have h : List.Chain' (NextRel m) ((L.base :: nodes L F1) ++ (nodes L F2 ++ [L.base])) := by
    simpa using hlinks
  rw [List.chain'_append] at h
  have h3 := h.2.2 (predNode L F1) (by simp [predNode, List.getLast?_cons])
    (succNode L F2) (by cases F2 <;> simp [succNode])
  exact h3

theorem stopc_pred {L : Layout} (hQ : 0 < L.Q) {oB : Nat} (hB : StartOK L oB)
    {F1 F2 : List Blk} (hs : ∀ b ∈ F1 ++ F2, StartOK L b.1)
    (h1 : ∀ b ∈ F1, b.1 < oB) (h2 : ∀ b ∈ F2, oB < b.1) :
    stopc (addr L oB) (predNode L F1) (succNode L F2) := by
  rcases List.eq_nil_or_concat F1 with e1 | ⟨G, a, e1⟩
  · subst e1
    cases F2 with
    | nil => simpa using stopc_base hB
    | cons c t =>
      have := h2 c (List.mem_cons_self _ _)
      simp only [predNode_nil, succNode_cons]
      rw [stopc_left hQ hB (hs c (by simp))]
      exact this
  · rw [List.concat_eq_append] at e1
    subst e1
    have ha := h1 a (by simp)
    have hsa := hs a (by simp)
    cases F2 with
    | nil =>
      simp only [predNode_concat, succNode_nil]
      rw [stopc_right hQ hB hsa]
      exact ha
    | cons c t =>
      have hc := h2 c (List.mem_cons_self _ _)
      simp only [predNode_concat, succNode_cons]
      rw [stopc_mid hQ (by omega)]
      exact ⟨ha, hc⟩

theorem predNode_mem (L : Layout) (F1 F2 : List Blk) :
    predNode L F1 ∈ L.base :: nodes L (F1 ++ F2) := by
  rcases List.eq_nil_or_concat F1 with e1 | ⟨G, a, e1⟩
  · subst e1; simp
  · rw [List.concat_eq_append] at e1
    subst e1
    simp

/-- The insertion-point loop finds the free neighbour below the block. -/
theorem free_find_heap {L : Layout} {m : Mem} {r oB : Nat} {F1 F2 : List Blk}
    (hQ : 0 < L.Q) (hB : StartOK L oB)
    (hlinks : List.Chain' (NextRel m) (L.base :: nodes L (F1 ++ F2) ++ [L.base]))
    (hs : ∀ b ∈ F1 ++ F2, StartOK L b.1)
    (hg : List.Pairwise (fun a b : Blk => a.1 + a.2 < b.1) (F1 ++ F2))
    (hr : r ∈ L.base :: nodes L (F1 ++ F2))
    (h1 : ∀ b ∈ F1, b.1 < oB) (h2 : ∀ b ∈ F2, oB < b.1) :
    ∀ fuel, (F1 ++ F2).length + 1 ≤ fuel →
      free_find m (addr L oB) fuel r = some (predNode L F1) := by
  intro fuel hfuel
  have hg2 := List.pairwise_append.1 hg
  have hT := chain_below hQ hB F2 h2 (fun b hb => hs b (by simp [hb])) hg2.2.1 F1 none
    (by simp) (fun b hb => ⟨h1 b hb, hs b (by simp [hb])⟩) hg2.1
  have hlin : L.base :: nodes L (F1 ++ F2) ++ [L.base]
      = lnode L none :: nodes L F1 ++ (nodes L F2 ++ [L.base]) := by
    simp [lnode]
  rw [← hlin] at hT
  have hc := chain_and hlinks hT
  have hnext := pred_next hlinks
  have hstop : stopc (addr L oB) (predNode L F1) (m (predNode L F1)).next := by
    rw [hnext]; exact stopc_pred hQ hB hs h1 h2
  obtain ⟨V, hV, hperm⟩ := cyc_round hc hr
  have hnd : (r :: V).Nodup := (hperm.nodup_iff).2 (nodes_nodup hQ hg hs)
  have hdm : predNode L F1 ∈ r :: V := (hperm.mem_iff).2 (predNode_mem L F1 F2)
  have hlen : (r :: V).length = (L.base :: nodes L (F1 ++ F2)).length := hperm.length_eq
  have hlen2 : V.length = (F1 ++ F2).length := by
    simp [nodes] at hlen
    simp [hlen]
  rcases List.mem_cons.1 hdm with hd | hd
  · obtain ⟨k, rfl⟩ : ∃ k, fuel = k + 1 := ⟨fuel - 1, by omega⟩
    rw [← hd]
    exact free_find_stop (hd ▸ hstop) k
  · obtain ⟨xs, ys, hxy⟩ := List.append_of_mem hd
    subst hxy
    have hch2 : List.Chain' (fun u v => NextRel m u v ∧
        (u ≠ predNode L F1 → ¬ stopc (addr L oB) u v))
        ((r :: xs) ++ predNode L F1 :: (ys ++ [r])) := by
      simpa using hV
    rw [List.chain'_split] at hch2
    have hnd2 : predNode L F1 ∉ r :: xs := by
      intro hm
      have : (r :: xs ++ predNode L F1 :: ys).Nodup := by simpa using hnd
      rw [List.nodup_append] at this
      exact this.2.2 hm (List.mem_cons_self _ _)
    obtain ⟨k, rfl⟩ : ∃ k, fuel = xs.length + 2 + k := ⟨fuel - (xs.length + 2), by
      simp at hlen2 hfuel; omega⟩
    exact free_find_walk (P := fun u v => u ≠ predNode L F1 → ¬ stopc (addr L oB) u v)
      (fun u v h hne => h hne) hstop xs r hch2.1 hnd2 k

/-! ## The effect of `invisible_pool_free` on the heap -/

theorem succ_next {L : Layout} {m : Mem} {X : List Nat} {c : Blk} {t : List Blk}
    (hlinks : List.Chain' (NextRel m) (X ++ nodes L (c :: t) ++ [L.base])) :
    (m (addr L c.1)).next = succNode L t := by
  have h : List.Chain' (NextRel m) (X ++ addr L c.1 :: (nodes L t ++ [L.base])) := by
    simpa using hlinks
  rw [List.chain'_split] at h
  have h3 := h.2
  rw [List.chain'_cons'] at h3
  exact h3.1 (succNode L t) (by cases t <;> simp [succNode])

/-- What the first coalescing step stores. -/
theorem free_upper_spec {L : Layout} {m : Mem} {B : Blk} {F1 F2 : List Blk} {p : Nat}
    (hQ : 0 < L.Q)
    (hlinks : List.Chain' (NextRel m) (L.base :: nodes L (F1 ++ F2) ++ [L.base]))
    (hp : p = predNode L F1) (hpB : p ≠ addr L B.1)
    (hsB : (m (addr L B.1)).size = B.2)
    (hs2 : ∀ b ∈ F2, (m (addr L b.1)).size = b.2)
    (hsm : ∀ b ∈ F2, b.1 + b.2 < wordMod L)
    (hab : ∀ b ∈ F2, B.1 + B.2 ≤ b.1)
    (hpos : 1 ≤ B.2)
    (hend : EndOK L (B.1 + B.2)) :
    (∀ x, x ≠ addr L B.1 → free_upper L m (addr L B.1) p x = m x) ∧
    (free_upper L m (addr L B.1) p (addr L B.1)).size = (mergeUp B F2).1.2 ∧
    (free_upper L m (addr L B.1) p (addr L B.1)).next = succNode L (mergeUp B F2).2 := by
  have hnext : (m p).next = succNode L F2 := hp ▸ pred_next hlinks
  cases F2 with
  | nil =>
    have hne : ¬ (addr L B.1 + B.2 * L.Q = L.base) := by
      rw [addr_add]; exact hend
    simp only [free_upper, hsB, hnext, succNode_nil, hne, if_false, mergeUp]
    refine ⟨fun x hx => upd_other _ _ hx, by simp, by simp⟩
  | cons c t =>
    have hc := hab c (List.mem_cons_self _ _)
    have hcs := hs2 c (List.mem_cons_self _ _)
    have hcw := hsm c (List.mem_cons_self _ _)
    have hcn : (m (addr L c.1)).next = succNode L t := by
      have h : List.Chain' (NextRel m) ((L.base :: nodes L F1) ++ nodes L (c :: t) ++ [L.base]) := by
        simpa using hlinks
      exact succ_next h
    have hcB : addr L c.1 ≠ addr L B.1 := by
      intro h; have := (addr_inj hQ).1 h; omega
    by_cases hadj : B.1 + B.2 = c.1
    · have he : addr L B.1 + B.2 * L.Q = addr L c.1 := by rw [addr_add, hadj]
      have hmod : (B.2 + c.2) % wordMod L = B.2 + c.2 := Nat.mod_eq_of_lt (by omega)
      simp only [free_upper, hsB, hnext, succNode_cons, he, if_true, mergeUp, hadj, hcs, hmod]
      refine ⟨fun x hx => by rw [upd_other _ _ hx, upd_other _ _ hx], by simp, ?_⟩
      simp only [upd_same]
      rw [upd_other _ _ hpB, hnext, succNode_cons, upd_other _ _ hcB, hcn]
    · have hne : ¬ (addr L B.1 + B.2 * L.Q = addr L c.1) := by
        rw [addr_add, addr_inj hQ]; exact hadj
      simp only [free_upper, hsB, hnext, succNode_cons, hne, if_false, mergeUp, hadj]
      refine ⟨fun x hx => upd_other _ _ hx, by simp [hsB], by simp⟩

theorem mergeDown_nil (B : Blk) : mergeDown [] B = [B] := rfl

theorem mergeDown_concat (G : List Blk) (a B : Blk) :
    mergeDown (G ++ [a]) B =
      if a.1 + a.2 = B.1 then G ++ [(a.1, a.2 + B.2)] else G ++ [a] ++ [B] := by
  simp [mergeDown]

/-- What the second coalescing step stores. -/
theorem free_lower_spec {L : Layout} {m1 : Mem} {B : Blk} {F1 : List Blk} {p s2 nx : Nat}
    (hQ : 0 < L.Q) (hp : p = predNode L F1) (hpB : p ≠ addr L B.1)
    (hbase : (m1 L.base).size = 0)
    (hs1 : ∀ b ∈ F1, (m1 (addr L b.1)).size = b.2)
    (hBs : (m1 (addr L B.1)).size = s2) (hBn : (m1 (addr L B.1)).next = nx)
    (hw : B.1 + s2 < wordMod L) (hbelow : ∀ b ∈ F1, b.1 + b.2 ≤ B.1) :
    (∀ x, x ≠ p → free_lower L m1 (addr L B.1) p x = m1 x) ∧
    ((mergeDown F1 (B.1, s2) = F1 ++ [(B.1, s2)] ∧
        (∀ G a, F1 = G ++ [a] → a.1 + a.2 ≠ B.1) ∧
        (free_lower L m1 (addr L B.1) p p).next = addr L B.1 ∧
        (free_lower L m1 (addr L B.1) p p).size = (m1 p).size) ∨
      (∃ G a, F1 = G ++ [a] ∧ a.1 + a.2 = B.1 ∧
        mergeDown F1 (B.1, s2) = G ++ [(a.1, a.2 + s2)] ∧
        (free_lower L m1 (addr L B.1) p p).next = nx ∧
        (free_lower L m1 (addr L B.1) p p).size = a.2 + s2)) := by
  rcases List.eq_nil_or_concat F1 with e1 | ⟨G, a, e1⟩
  · subst e1
    simp only [predNode_nil] at hp
    subst hp
    have hne : ¬ (L.base + (m1 L.base).size * L.Q = addr L B.1) := by
      rw [hbase]; simpa using hpB
    simp only [free_lower, hne, if_false]
    refine ⟨fun x hx => upd_other _ _ hx, Or.inl ⟨by simp [mergeDown_nil], ?_, by simp, by simp⟩⟩
    intro G a h
    simp at h
  · rw [List.concat_eq_append] at e1
    subst e1
    simp only [predNode_concat] at hp
    subst hp
    have has := hs1 a (by simp)
    have hab := hbelow a (by simp)
    by_cases hadj : a.1 + a.2 = B.1
    · have he : addr L a.1 + a.2 * L.Q = addr L B.1 := by
        rw [addr_add, hadj]
      have hmod : (a.2 + s2) % wordMod L = a.2 + s2 := Nat.mod_eq_of_lt (by omega)
      have hBp : addr L B.1 ≠ addr L a.1 := fun h => hpB h.symm
      simp only [free_lower, he, if_true, has, hBs, hmod]
      refine ⟨fun x hx => by rw [upd_other _ _ hx, upd_other _ _ hx], Or.inr ⟨G, a, rfl, hadj,
        by simp [mergeDown_concat, hadj], ?_, by simp⟩⟩
      simp only [upd_same]
      rw [upd_other _ _ hBp, hBn]
    · have hne : ¬ (addr L a.1 + a.2 * L.Q = addr L B.1) := by
        rw [addr_add, addr_inj hQ]; exact hadj
      simp only [free_lower, has, hne, if_false]
      refine ⟨fun x hx => upd_other _ _ hx, Or.inl ⟨by simp [mergeDown_concat, hadj],
        ?_, by simp, by simp⟩⟩
      intro G2 a2 h
      have h3 := List.append_inj_right' h rfl
      simp at h3
      rw [← h3]
      exact hadj

theorem pred_split (L : Layout) (F1 : List Blk) :
    ∃ X, L.base :: nodes L F1 = X ++ [predNode L F1] := by
  rcases List.eq_nil_or_concat F1 with e1 | ⟨G, a, e1⟩
  · subst e1; exact ⟨[], by simp⟩
  · rw [List.concat_eq_append] at e1
    subst e1
    exact ⟨L.base :: nodes L G, by simp⟩

theorem head_succ (L : Layout) (F : List Blk) :
    (nodes L F ++ [L.base]).head? = some (succNode L F) := by
  cases F <;> simp [succNode]

theorem mem_nodes {L : Layout} {F : List Blk} {x : Nat} :
    x ∈ nodes L F ↔ ∃ b ∈ F, addr L b.1 = x := by
  simp [nodes]

/-- The links of the free list after the block at `B` is put between the lower
free blocks `F1` and the upper free blocks `F2`, when only the headers at `B`
and at the node below it were written. -/
theorem links_ins {L : Layout} {m m2 : Mem} {F1 Fd F2 : List Blk} {oB : Nat}
    (hQ : 0 < L.Q) (hB : StartOK L oB)
    (hlinks : List.Chain' (NextRel m) (L.base :: nodes L (F1 ++ (Fd ++ F2)) ++ [L.base]))
    (hs : ∀ b ∈ F1 ++ (Fd ++ F2), StartOK L b.1)
    (hg : List.Pairwise (fun a b : Blk => a.1 + a.2 < b.1) (F1 ++ (Fd ++ F2)))
    (h1 : ∀ b ∈ F1, b.1 < oB) (h2 : ∀ b ∈ F2, oB < b.1)
    (hm : ∀ x, x ≠ addr L oB → x ≠ predNode L F1 → (m2 x).next = (m x).next) :
    List.Chain' (NextRel m2) (L.base :: nodes L F1) ∧
    List.Chain' (NextRel m2) (nodes L F2 ++ [L.base]) := by
  obtain ⟨X, hX⟩ := pred_split L F1
  have hnd := nodes_nodup hQ hg hs
  have e : L.base :: nodes L (F1 ++ (Fd ++ F2)) ++ [L.base]
      = (X ++ [predNode L F1]) ++ (nodes L Fd ++ (nodes L F2 ++ [L.base])) := by
    rw [← hX]; simp
  rw [e] at hlinks
  have c1 := hlinks.left_of_append
  have c2 := hlinks.right_of_append.right_of_append
  have hnd2 : ((X ++ [predNode L F1]) ++ (nodes L Fd ++ nodes L F2)).Nodup := by
    rw [← hX]; simpa using hnd
  have hBne : ∀ x ∈ X ++ [predNode L F1], x ≠ addr L oB := by
    intro x hx
    rw [← hX] at hx
    rcases List.mem_cons.1 hx with hx | hx
    · rw [hx]; exact fun h => hB.ne h.symm
    · obtain ⟨b, hb, rfl⟩ := mem_nodes.1 hx
      intro h
      have := (addr_inj hQ).1 h
      have := h1 b hb
      omega
  constructor
  · rw [hX]
    refine chain_congr c1 ?_
    intro x hx
    refine hm x (hBne x (by simp [hx])) ?_
    intro h
    have h3 := (List.nodup_append.1 hnd2).1
    rw [List.nodup_append] at h3
    exact h3.2.2 hx (h ▸ List.mem_singleton_self _)
  · refine chain_congr c2 ?_
    intro x hx
    obtain ⟨b, hb, rfl⟩ := mem_nodes.1 hx
    refine hm _ ?_ ?_
    · intro h
      have := (addr_inj hQ).1 h
      have := h2 b hb
      omega
    · intro h
      have h3 := (List.nodup_append.1 hnd2).2.2
      have hpm : predNode L F1 ∈ nodes L Fd ++ nodes L F2 :=
        h ▸ List.mem_append_right _ hx
      exact h3 (List.mem_append_right _ (List.mem_singleton_self _)) hpm

theorem predNode_cases (L : Layout) (F1 : List Blk) :
    predNode L F1 = L.base ∨ ∃ b ∈ F1, predNode L F1 = addr L b.1 := by
  rcases List.eq_nil_or_concat F1 with e1 | ⟨G, a, e1⟩
  · subst e1; exact Or.inl rfl
  · rw [List.concat_eq_append] at e1
    subst e1
    exact Or.inr ⟨a, by simp, by simp⟩

/-- The heap after a freed block is linked behind its lower neighbour without
being joined to it. -/
theorem heap_free_ins {L : Layout} {m m2 : Mem} {r s2 : Nat} {F1 Fd F2 lv : List Blk} {B : Blk}
    (hQ : 0 < L.Q) (H : Heap L m r (F1 ++ (Fd ++ F2)) (B :: lv))
    (h1 : ∀ b ∈ F1, b.1 + b.2 < B.1) (h2 : ∀ c ∈ F2, B.1 + s2 < c.1)
    (hs : B.2 ≤ s2) (hw : B.1 + s2 < wordMod L) (he : EndOK L (B.1 + s2))
    (hcov : ∀ x ∈ lv, Disj (B.1, s2) x)
    (hm : ∀ x, x ≠ addr L B.1 → x ≠ predNode L F1 → m2 x = m x)
    (hBs : (m2 (addr L B.1)).size = s2) (hBn : (m2 (addr L B.1)).next = succNode L F2)
    (hpn : (m2 (predNode L F1)).next = addr L B.1)
    (hps : (m2 (predNode L F1)).size = (m (predNode L F1)).size) :
    Heap L m2 (predNode L F1) (F1 ++ (B.1, s2) :: F2) lv := by
  have hBst : StartOK L B.1 := H.startOK B (by simp)
  have hBpos : 1 ≤ B.2 := H.pos B (by simp)
  have hdisj := H.disj
  simp only [List.pairwise_append, List.pairwise_cons, List.mem_append, List.mem_cons] at hdisj
  obtain ⟨⟨dF1, ⟨_, dF2, _⟩, dF1x⟩, ⟨dBlv, dlv⟩, dxl⟩ := hdisj
  have hgaps := H.gaps
  simp only [List.pairwise_append, List.mem_append] at hgaps
  obtain ⟨gF1, ⟨_, gF2, _⟩, gF1x⟩ := hgaps
  have hpB : predNode L F1 ≠ addr L B.1 := by
    rcases predNode_cases L F1 with h | ⟨b, hb, h⟩
    · rw [h]; exact fun h => hBst.ne h.symm
    · rw [h]; intro h3
      have := (addr_inj hQ).1 h3
      have := h1 b hb
      omega
  have hsz : ∀ x, x ≠ addr L B.1 → (m2 x).size = (m x).size := by
    intro x hx
    by_cases hxp : x = predNode L F1
    · rw [hxp]; exact hps
    · rw [hm x hx hxp]
  have hold : ∀ b ∈ F1 ++ (Fd ++ F2) ++ B :: lv, b.1 ≠ B.1 → (m2 (addr L b.1)).size = b.2 := by
    intro b hb hne
    rw [hsz _ (fun h => hne ((addr_inj hQ).1 h))]
    exact H.sizes b hb
  have hF1ne : ∀ b ∈ F1, b.1 ≠ B.1 := fun b hb => by have := h1 b hb; omega
  have hF2ne : ∀ b ∈ F2, b.1 ≠ B.1 := fun b hb => by have := h2 b hb; omega
  have hlvne : ∀ b ∈ lv, b.1 ≠ B.1 := by
    intro b hb
    have h3 := dBlv b hb
    have h4 := H.pos b (by simp [hb])
    unfold Disj at h3
    omega
  have hch := @links_ins L m m2 F1 Fd F2 B.1 hQ hBst H.links
    (fun b hb => H.startOK b (List.mem_append_left _ hb)) H.gaps
    (fun b hb => by have := h1 b hb; have := H.pos b (by simp [hb]); omega)
    (fun b hb => by have := h2 b hb; omega)
    (fun x hx hxp => by rw [hm x hx hxp])
  refine ⟨?_, ?_, ?_, ?_, ?_, ?_, ?_, ?_, ?_, ?_⟩
  · rw [hsz _ (fun h => hBst.ne h.symm)]; exact H.base_size
  · obtain ⟨X, hX⟩ := pred_split L F1
    have e : L.base :: nodes L (F1 ++ (B.1, s2) :: F2) ++ [L.base]
        = (L.base :: nodes L F1) ++ (addr L B.1 :: (nodes L F2 ++ [L.base])) := by simp
    rw [e, List.chain'_append]
    refine ⟨hch.1, ?_, ?_⟩
    · rw [List.chain'_cons']
      refine ⟨?_, hch.2⟩
      intro y hy
      rw [head_succ] at hy
      cases hy
      exact hBn
    · intro x hx y hy
      rw [hX] at hx
      simp at hx hy
      subst hx hy
      exact hpn
  · intro b hb
    simp only [List.mem_append, List.mem_cons] at hb
    rcases hb with (hb | hb | hb) | hb
    · exact hold b (by simp [hb]) (hF1ne b hb)
    · subst hb; exact hBs
    · exact hold b (by simp [hb]) (hF2ne b hb)
    · exact hold b (by simp [hb]) (hlvne b hb)
  · intro b hb
    simp only [List.mem_append, List.mem_cons] at hb
    rcases hb with (hb | hb | hb) | hb
    · exact H.pos b (by simp [hb])
    · subst hb; simp only; omega
    · exact H.pos b (by simp [hb])
    · exact H.pos b (by simp [hb])
  · intro b hb
    simp only [List.mem_append, List.mem_cons] at hb
    rcases hb with (hb | hb | hb) | hb
    · exact H.small b (by simp [hb])
    · subst hb; exact hw
    · exact H.small b (by simp [hb])
    · exact H.small b (by simp [hb])
  · intro b hb
    simp only [List.mem_append, List.mem_cons] at hb
    rcases hb with (hb | hb | hb) | hb
    · exact H.startOK b (by simp [hb])
    · subst hb; exact hBst
    · exact H.startOK b (by simp [hb])
    · exact H.startOK b (by simp [hb])
  · intro b hb
    simp only [List.mem_append, List.mem_cons] at hb
    rcases hb with (hb | hb | hb) | hb
    · exact H.endOK b (by simp [hb])
    · subst hb; exact he
    · exact H.endOK b (by simp [hb])
    · exact H.endOK b (by simp [hb])
  · simp only [List.pairwise_append, List.pairwise_cons, List.mem_cons]
    refine ⟨gF1, ⟨fun c hc => h2 c hc, gF2⟩, ?_⟩
    intro a ha b hb
    rcases hb with hb | hb
    · subst hb; exact h1 a ha
    · exact gF1x a ha b (Or.inr hb)
  · simp only [List.pairwise_append, List.pairwise_cons, List.mem_append, List.mem_cons]
    refine ⟨⟨dF1, ⟨?_, dF2⟩, ?_⟩, dlv, ?_⟩
    · intro c hc
      have := h2 c hc
      unfold Disj; simp only; omega
    · intro a ha b hb
      rcases hb with hb | hb
      · subst hb
        have := h1 a ha
        unfold Disj; simp only; omega
      · exact dF1x a ha b (Or.inr hb)
    · intro a ha b hb
      rcases ha with ha | ha | ha
      · exact dxl a (Or.inl ha) b (Or.inr hb)
      · subst ha
        exact hcov b hb
      · exact dxl a (Or.inr (Or.inr ha)) b (Or.inr hb)
  · exact predNode_mem L F1 _

/-- The heap after a freed block is joined to its lower neighbour `a`. -/
theorem heap_free_join {L : Layout} {m m2 : Mem} {r s2 : Nat} {G Fd F2 lv : List Blk}
    {a B : Blk} (hQ : 0 < L.Q) (H : Heap L m r ((G ++ [a]) ++ (Fd ++ F2)) (B :: lv))
    (ha : a.1 + a.2 = B.1) (h2 : ∀ c ∈ F2, B.1 + s2 < c.1)
    (hw : B.1 + s2 < wordMod L) (he : EndOK L (B.1 + s2))
    (hcov : ∀ x ∈ lv, Disj (B.1, s2) x)
    (hm : ∀ x, x ≠ addr L B.1 → x ≠ addr L a.1 → m2 x = m x)
    (hpn : (m2 (addr L a.1)).next = succNode L F2)
    (hps : (m2 (addr L a.1)).size = a.2 + s2) :
    Heap L m2 (addr L a.1) (G ++ (a.1, a.2 + s2) :: F2) lv := by
  have hBst : StartOK L B.1 := H.startOK B (by simp)
  have hast : StartOK L a.1 := H.startOK a (by simp)
  have hapos : 1 ≤ a.2 := H.pos a (by simp)
  have hdisj := H.disj
  simp only [List.pairwise_append, List.pairwise_cons, List.mem_append, List.mem_cons,
    List.not_mem_nil, or_false] at hdisj
  obtain ⟨⟨⟨dG, _, dGa⟩, ⟨_, dF2, _⟩, dF1x⟩, ⟨dBlv, dlv⟩, dxl⟩ := hdisj
  have hgaps := H.gaps
  simp only [List.pairwise_append, List.mem_append, List.pairwise_cons, List.mem_cons,
    List.not_mem_nil, or_false] at hgaps
  obtain ⟨⟨gG, _, gGa⟩, ⟨_, gF2, _⟩, gF1x⟩ := hgaps
  have hold : ∀ b ∈ (G ++ [a]) ++ (Fd ++ F2) ++ B :: lv, b.1 ≠ B.1 → b.1 ≠ a.1 →
      (m2 (addr L b.1)).size = b.2 := by
    intro b hb hne hne2
    rw [hm _ (fun h => hne ((addr_inj hQ).1 h)) (fun h => hne2 ((addr_inj hQ).1 h))]
    exact H.sizes b hb
  have hGlt : ∀ b ∈ G, b.1 + b.2 < a.1 := fun b hb => gGa b hb a rfl
  have hF2gt : ∀ b ∈ F2, a.1 + (a.2 + s2) < b.1 := fun b hb => by have := h2 b hb; omega
  have hlvB : ∀ b ∈ lv, b.1 ≠ B.1 ∧ b.1 ≠ a.1 ∧ Disj (a.1, a.2 + s2) b := by
    intro b hb
    have h3 := dBlv b hb
    have h4 := H.pos b (by simp [hb])
    have h5 := dxl a (Or.inl (Or.inr rfl)) b (Or.inr hb)
    have h6 := hcov b hb
    have h7 := H.pos B (by simp)
    unfold Disj at h3 h5 h6 ⊢
    simp only at h6 ⊢
    omega
  have hch := @links_ins L m m2 (G ++ [a]) Fd F2 B.1 hQ hBst H.links
    (fun b hb => H.startOK b (List.mem_append_left _ hb)) H.gaps
    (fun b hb => by
      rcases List.mem_append.1 hb with hb | hb
      · have := hGlt b hb; omega
      · simp at hb; subst hb; omega)
    (fun b hb => by have := h2 b hb; omega)
    (fun x hx hxp => by rw [hm x hx (by simpa using hxp)])
  refine ⟨?_, ?_, ?_, ?_, ?_, ?_, ?_, ?_, ?_, ?_⟩
  · rw [hm _ (fun h => hBst.ne h.symm) (fun h => hast.ne h.symm)]; exact H.base_size
  · have e : L.base :: nodes L (G ++ (a.1, a.2 + s2) :: F2) ++ [L.base]
        = (L.base :: nodes L (G ++ [a])) ++ (nodes L F2 ++ [L.base]) := by simp
    rw [e, List.chain'_append]
    refine ⟨hch.1, hch.2, ?_⟩
    intro x hx y hy
    rw [head_succ] at hy
    have e2 : L.base :: nodes L (G ++ [a]) = (L.base :: nodes L G) ++ [addr L a.1] := by simp
    rw [e2, Option.mem_def, List.getLast?_concat] at hx
    simp at hx hy
    subst hx hy
    exact hpn
  · intro b hb
    simp only [List.mem_append, List.mem_cons] at hb
    rcases hb with (hb | hb | hb) | hb
    · have := hGlt b hb
      have := H.pos b (by simp [hb])
      exact hold b (by simp [hb]) (by omega) (by omega)
    · subst hb; exact hps
    · have := hF2gt b hb
      exact hold b (by simp [hb]) (by omega) (by omega)
    · exact hold b (by simp [hb]) (hlvB b hb).1 (hlvB b hb).2.1
  · intro b hb
    simp only [List.mem_append, List.mem_cons] at hb
    rcases hb with (hb | hb | hb) | hb
    · exact H.pos b (by simp [hb])
    · subst hb; simp only; omega
    · exact H.pos b (by simp [hb])
    · exact H.pos b (by simp [hb])
  · intro b hb
    simp only [List.mem_append, List.mem_cons] at hb
    rcases hb with (hb | hb | hb) | hb
    · exact H.small b (by simp [hb])
    · subst hb; simp only; omega
    · exact H.small b (by simp [hb])
    · exact H.small b (by simp [hb])
  · intro b hb
    simp only [List.mem_append, List.mem_cons] at hb
    rcases hb with (hb | hb | hb) | hb
    · exact H.startOK b (by simp [hb])
    · subst hb; exact hast
    · exact H.startOK b (by simp [hb])
    · exact H.startOK b (by simp [hb])
  · intro b hb
    simp only [List.mem_append, List.mem_cons] at hb
    rcases hb with (hb | hb | hb) | hb
    · exact H.endOK b (by simp [hb])
    · subst hb
      have e : a.1 + (a.2 + s2) = B.1 + s2 := by omega
      simp only [e]; exact he
    · exact H.endOK b (by simp [hb])
    · exact H.endOK b (by simp [hb])
  · simp only [List.pairwise_append, List.pairwise_cons, List.mem_cons]
    refine ⟨gG, ⟨fun c hc => hF2gt c hc, gF2⟩, ?_⟩
    intro g hg b hb
    rcases hb with hb | hb
    · subst hb; exact hGlt g hg
    · exact gF1x g (Or.inl hg) b (Or.inr hb)
  · simp only [List.pairwise_append, List.pairwise_cons, List.mem_append, List.mem_cons]
    refine ⟨⟨dG, ⟨?_, dF2⟩, ?_⟩, dlv, ?_⟩
    · intro c hc
      have := hF2gt c hc
      unfold Disj; simp only; omega
    · intro g hg b hb
      rcases hb with hb | hb
      · subst hb
        have := hGlt g hg
        unfold Disj; simp only; omega
      · exact dF1x g (Or.inl hg) b (Or.inr hb)
    · intro g hg b hb
      rcases hg with hg | hg | hg
      · exact dxl g (Or.inl (Or.inl hg)) b (Or.inr hb)
      · subst hg
        exact (hlvB b hb).2.2
      · exact dxl g (Or.inr (Or.inr hg)) b (Or.inr hb)
  · simp

/-- What joining with the upper neighbour does to the freed block. -/
theorem mergeUp_heap {L : Layout} {m : Mem} {r : Nat} {F1 F2 lv : List Blk} {B : Blk}
    (H : Heap L m r (F1 ++ F2) (B :: lv)) (h2 : ∀ b ∈ F2, B.1 + B.2 ≤ b.1) :
    ∃ Fd F3 s2, F2 = Fd ++ F3 ∧ mergeUp B F2 = ((B.1, s2), F3) ∧ B.2 ≤ s2 ∧
      B.1 + s2 < wordMod L ∧ EndOK L (B.1 + s2) ∧ (∀ c ∈ F3, B.1 + s2 < c.1) ∧
      (∀ x ∈ lv, Disj (B.1, s2) x) ∧ s2 = B.2 + (Fd.map Prod.snd).sum := by
  have hdisj := H.disj
  simp only [List.pairwise_append, List.pairwise_cons, List.mem_append, List.mem_cons] at hdisj
  obtain ⟨_, ⟨dBlv, _⟩, dxl⟩ := hdisj
  have hgaps := H.gaps
  simp only [List.pairwise_append, List.mem_append] at hgaps
  obtain ⟨_, gF2, _⟩ := hgaps
  cases F2 with
  | nil =>
    exact ⟨[], [], B.2, rfl, rfl, le_refl _, H.small B (by simp), H.endOK B (by simp),
      by simp, dBlv, by simp⟩
  | cons c t =>
    rw [List.pairwise_cons] at gF2
    have hc := h2 c (List.mem_cons_self _ _)
    by_cases hadj : B.1 + B.2 = c.1
    · refine ⟨[c], t, B.2 + c.2, rfl, by simp [mergeUp, hadj], by omega, ?_, ?_, ?_, ?_, by simp⟩
      · have := H.small c (by simp); omega
      · have := H.endOK c (by simp)
        have e : B.1 + (B.2 + c.2) = c.1 + c.2 := by omega
        rw [e]; exact this
      · intro x hx
        have := gF2.1 x hx
        omega
      · intro x hx
        have h3 := dBlv x hx
        have h4 := dxl c (Or.inr (List.mem_cons_self _ _)) x (Or.inr hx)
        have h5 := H.pos x (by simp [hx])
        unfold Disj at h3 h4 ⊢
        simp only
        omega
    · refine ⟨[], c :: t, B.2, rfl, by simp [mergeUp, hadj], le_refl _, H.small B (by simp),
        H.endOK B (by simp), ?_, dBlv, by simp⟩
      intro x hx
      rcases List.mem_cons.1 hx with hx | hx
      · subst hx; omega
      · have := gF2.1 x hx
        omega

theorem below_strict {F1 : List Blk} {oB : Nat}
    (hg : List.Pairwise (fun a b : Blk => a.1 + a.2 < b.1) F1)
    (h1 : ∀ b ∈ F1, b.1 + b.2 ≤ oB)
    (hne : ∀ G a, F1 = G ++ [a] → a.1 + a.2 ≠ oB) : ∀ b ∈ F1, b.1 + b.2 < oB := by
  rcases List.eq_nil_or_concat F1 with e1 | ⟨G, a, e1⟩
  · subst e1; simp
  · rw [List.concat_eq_append] at e1
    subst e1
    have h3 := hne G a rfl
    have h4 := h1 a (by simp)
    simp only [List.pairwise_append, List.mem_singleton] at hg
    intro b hb
    rcases List.mem_append.1 hb with hb | hb
    · have := hg.2.2 b hb a rfl
      omega
    · simp at hb; subst hb; omega

/-- Freeing a live block `B` whose free neighbours are `F1` below and `F2`
above keeps the heap invariant, with the free list `freeIns F1 B F2` and the
rover on the node below `B`. -/
theorem heap_free {L : Layout} {m : Mem} {r : Nat} {F1 F2 lv : List Blk} {B : Blk}
    (hQ : 0 < L.Q) (H : Heap L m r (F1 ++ F2) (B :: lv))
    (h1 : ∀ b ∈ F1, b.1 + b.2 ≤ B.1) (h2 : ∀ b ∈ F2, B.1 + B.2 ≤ b.1) :
    Heap L (free_link L m (addr L B.1) (predNode L F1)) (predNode L F1) (freeIns F1 B F2) lv := by
  have hBst : StartOK L B.1 := H.startOK B (by simp)
  have hBpos : 1 ≤ B.2 := H.pos B (by simp)
  have hgaps := H.gaps
  simp only [List.pairwise_append, List.mem_append] at hgaps
  obtain ⟨gF1, _, _⟩ := hgaps
  have hpB : predNode L F1 ≠ addr L B.1 := by
    rcases predNode_cases L F1 with h | ⟨b, hb, h⟩
    · rw [h]; exact fun h => hBst.ne h.symm
    · rw [h]; intro h3
      have := (addr_inj hQ).1 h3
      have := h1 b hb
      have := H.pos b (by simp [hb])
      omega
  obtain ⟨hu1, hu2, hu3⟩ := @free_upper_spec L m B F1 F2 (predNode L F1) hQ H.links rfl hpB
    (H.sizes B (by simp)) (fun b hb => H.sizes b (by simp [hb]))
    (fun b hb => H.small b (by simp [hb])) h2 hBpos (H.endOK B (by simp))
  obtain ⟨Fd, F3, s2, hF2, hmu, hs, hw, he, h3, hcov, _⟩ := mergeUp_heap H h2
  rw [hmu] at hu2 hu3
  simp only at hu2 hu3
  have hF1a : ∀ b ∈ F1, addr L b.1 ≠ addr L B.1 := by
    intro b hb h
    have := (addr_inj hQ).1 h
    have := h1 b hb
    have := H.pos b (by simp [hb])
    omega
  obtain ⟨hl1, hl2⟩ := @free_lower_spec L (free_upper L m (addr L B.1) (predNode L F1))
    B F1 (predNode L F1) s2 (succNode L F3) hQ rfl hpB
    (by rw [hu1 _ (fun h => hBst.ne h.symm)]; exact H.base_size)
    (fun b hb => by rw [hu1 _ (hF1a b hb)]; exact H.sizes b (by simp [hb]))
    hu2 hu3 hw h1
  have hfi : freeIns F1 B F2 = mergeDown F1 (B.1, s2) ++ F3 := by
    simp only [freeIns, hmu]
  rw [hfi]
  subst hF2
  have hmm : ∀ x, x ≠ addr L B.1 → x ≠ predNode L F1 →
      free_link L m (addr L B.1) (predNode L F1) x = m x := by
    intro x hx hxp
    unfold free_link
    rw [hl1 x hxp, hu1 x hx]
  rcases hl2 with ⟨e, hne, hn, hsz⟩ | ⟨G, a, hF1, hadj, e, hn, hsz⟩
  · rw [e, List.append_assoc, List.singleton_append]
    refine heap_free_ins hQ H (below_strict gF1 h1 hne) h3 hs hw he hcov hmm ?_ ?_ hn ?_
    · unfold free_link; rw [hl1 _ hpB.symm]; exact hu2
    · unfold free_link; rw [hl1 _ hpB.symm]; exact hu3
    · unfold free_link; rw [hsz, hu1 _ hpB]
  · subst hF1
    rw [e, List.append_assoc, List.singleton_append]
    have hp : predNode L (G ++ [a]) = addr L a.1 := by simp
    rw [hp] at hn hsz hmm ⊢
    exact heap_free_join hQ H hadj h3 hw he hcov hmm hn hsz

/-! ## The effect of taking a block out of the free list -/

theorem disj_symm {a b : Blk} (h : Disj a b) : Disj b a := Or.symm h

theorem heap_take_exact {L : Layout} {m : Mem} {r : Nat} {F1 F2 live : List Blk} {b : Blk}
    (hQ : 0 < L.Q) (H : Heap L m r (F1 ++ b :: F2) live) :
    Heap L (upd m (predNode L F1)
        { m (predNode L F1) with next := (m (addr L b.1)).next })
      (predNode L F1) (F1 ++ F2) (b :: live) := by
  have hbst : StartOK L b.1 := H.startOK b (by simp)
  have hgaps := H.gaps
  simp only [List.pairwise_append, List.pairwise_cons, List.mem_cons] at hgaps
  obtain ⟨gF1, ⟨gb, gF2⟩, gx⟩ := hgaps
  have hnext : (m (addr L b.1)).next = succNode L F2 := by
    have h : List.Chain' (NextRel m) ((L.base :: nodes L F1) ++ nodes L (b :: F2) ++ [L.base]) := by
      simpa using H.links
    exact succ_next h
  have hperm : List.Perm ((F1 ++ F2) ++ b :: live) ((F1 ++ b :: F2) ++ live) := by
    have h1 : List.Perm (F1 ++ b :: F2) (b :: (F1 ++ F2)) := List.perm_middle
    have h2 : List.Perm ((F1 ++ F2) ++ b :: live) (b :: ((F1 ++ F2) ++ live)) :=
      List.perm_middle
    have h3 : List.Perm ((F1 ++ b :: F2) ++ live) (b :: (F1 ++ F2) ++ live) :=
      h1.append_right live
    exact h2.trans (by simpa using h3.symm)
  have hmem : ∀ x, x ∈ (F1 ++ F2) ++ b :: live → x ∈ (F1 ++ b :: F2) ++ live :=
    fun x hx => (hperm.mem_iff).1 hx
  have hsz : ∀ x, (upd m (predNode L F1)
      { m (predNode L F1) with next := (m (addr L b.1)).next } x).size = (m x).size := by
    intro x
    by_cases hx : x = predNode L F1
    · rw [hx]; simp
    · rw [upd_other _ _ hx]
  have hch := @links_ins L m
    (upd m (predNode L F1) { m (predNode L F1) with next := (m (addr L b.1)).next })
    F1 [b] F2 b.1 hQ hbst (by simpa using H.links)
    (fun x hx => H.startOK x (by simp at hx ⊢; tauto))
    (by simpa using H.gaps)
    (fun x hx => by have := gx x hx b (Or.inl rfl); have := H.pos x (by simp [hx]); omega)
    (fun x hx => by have := gb x hx; have := H.pos b (by simp); omega)
    (fun x _ hxp => by rw [upd_other _ _ hxp])
  refine ⟨?_, ?_, ?_, ?_, ?_, ?_, ?_, ?_, ?_, ?_⟩
  · rw [hsz]; exact H.base_size
  · have e : L.base :: nodes L (F1 ++ F2) ++ [L.base]
        = (L.base :: nodes L F1) ++ (nodes L F2 ++ [L.base]) := by simp
    rw [e, List.chain'_append]
    refine ⟨hch.1, hch.2, ?_⟩
    intro x hx y hy
    obtain ⟨X, hX⟩ := pred_split L F1
    rw [head_succ] at hy
    rw [hX, Option.mem_def, List.getLast?_concat] at hx
    simp at hx hy
    subst hx hy
    unfold NextRel
    rw [upd_same]
    exact hnext
  · intro x hx; rw [hsz]; exact H.sizes x (hmem x hx)
  · intro x hx; exact H.pos x (hmem x hx)
  · intro x hx; exact H.small x (hmem x hx)
  · intro x hx; exact H.startOK x (hmem x hx)
  · intro x hx; exact H.endOK x (hmem x hx)
  · simp only [List.pairwise_append]
    exact ⟨gF1, gF2, fun x hx y hy => gx x hx y (Or.inr hy)⟩
  · exact (hperm.pairwise_iff (fun h => disj_symm h)).2 H.disj
  · exact predNode_mem L F1 F2

theorem heap_take_split {L : Layout} {m m2 : Mem} {r r2 nq : Nat} {F1 F2 live : List Blk}
    {b : Blk} (hQ : 0 < L.Q) (H : Heap L m r (F1 ++ b :: F2) live)
    (hnq : 1 ≤ nq) (hlt : nq < b.2) (hsp : StartOK L (b.1 + (b.2 - nq)))
    (hr2 : r2 ∈ L.base :: nodes L (F1 ++ b :: F2))
    (hnx : ∀ x, (m2 x).next = (m x).next)
    (hm : ∀ x, x ≠ addr L b.1 → x ≠ addr L (b.1 + (b.2 - nq)) → (m2 x).size = (m x).size)
    (hs1 : (m2 (addr L b.1)).size = b.2 - nq)
    (hs2 : (m2 (addr L (b.1 + (b.2 - nq)))).size = nq) :
    Heap L m2 r2 (F1 ++ (b.1, b.2 - nq) :: F2) ((b.1 + (b.2 - nq), nq) :: live) := by
  have hbst : StartOK L b.1 := H.startOK b (by simp)
  have hbsm := H.small b (by simp)
  have hgaps := H.gaps
  simp only [List.pairwise_append, List.pairwise_cons, List.mem_cons] at hgaps
  obtain ⟨gF1, ⟨gb, gF2⟩, gx⟩ := hgaps
  have hdisj := H.disj
  simp only [List.pairwise_append, List.pairwise_cons, List.mem_append, List.mem_cons] at hdisj
  obtain ⟨⟨dF1, ⟨db, dF2⟩, dF1x⟩, dlv, dxl⟩ := hdisj
  have hother : ∀ x ∈ (F1 ++ b :: F2) ++ live, x ≠ b →
      x.1 ≠ b.1 ∧ x.1 ≠ b.1 + (b.2 - nq) ∧ Disj (b.1, b.2 - nq) x ∧
        Disj x (b.1 + (b.2 - nq), nq) := by
    intro x hx hne
    have hd : Disj x b := by
      have hsym : Symmetric Disj := fun _ _ h => disj_symm h
      exact H.disj.forall hsym hx (by simp) hne
    have := H.pos x hx
    unfold Disj at hd ⊢
    simp only
    omega
  have hF1 : ∀ x ∈ F1, x ≠ b := by
    intro x hx h
    have := gx x hx b (Or.inl rfl)
    rw [h] at this
    omega
  have hF2 : ∀ x ∈ F2, x ≠ b := by
    intro x hx h
    have := gb x hx
    rw [h] at this
    omega
  have hlv : ∀ x ∈ live, x ≠ b := by
    intro x hx h
    have h3 := dxl b (Or.inr (Or.inl rfl)) x hx
    have := H.pos b (by simp)
    rw [h] at h3
    unfold Disj at h3
    omega
  have hold : ∀ x ∈ (F1 ++ b :: F2) ++ live, x ≠ b → (m2 (addr L x.1)).size = x.2 := by
    intro x hx hne
    obtain ⟨h1, h2, _, _⟩ := hother x hx hne
    rw [hm _ (fun h => h1 ((addr_inj hQ).1 h)) (fun h => h2 ((addr_inj hQ).1 h))]
    exact H.sizes x hx
  refine ⟨?_, ?_, ?_, ?_, ?_, ?_, ?_, ?_, ?_, ?_⟩
  · rw [hm _ (fun h => hbst.ne h.symm) (fun h => hsp.ne h.symm)]; exact H.base_size
  · have e : nodes L (F1 ++ (b.1, b.2 - nq) :: F2) = nodes L (F1 ++ b :: F2) := by simp
    rw [e]
    exact H.links.imp (fun x y h => by unfold NextRel at h ⊢; rw [hnx]; exact h)
  · intro x hx
    simp only [List.mem_append, List.mem_cons] at hx
    rcases hx with (hx | hx | hx) | hx | hx
    · exact hold x (by simp [hx]) (hF1 x hx)
    · subst hx; exact hs1
    · exact hold x (by simp [hx]) (hF2 x hx)
    · subst hx; exact hs2
    · exact hold x (by simp [hx]) (hlv x hx)
  · intro x hx
    simp only [List.mem_append, List.mem_cons] at hx
    rcases hx with (hx | hx | hx) | hx | hx
    · exact H.pos x (by simp [hx])
    · subst hx; simp only; omega
    · exact H.pos x (by simp [hx])
    · subst hx; exact hnq
    · exact H.pos x (by simp [hx])
  · intro x hx
    simp only [List.mem_append, List.mem_cons] at hx
    rcases hx with (hx | hx | hx) | hx | hx
    · exact H.small x (by simp [hx])
    · subst hx; simp only; omega
    · exact H.small x (by simp [hx])
    · subst hx; simp only; omega
    · exact H.small x (by simp [hx])
  · intro x hx
    simp only [List.mem_append, List.mem_cons] at hx
    rcases hx with (hx | hx | hx) | hx | hx
    · exact H.startOK x (by simp [hx])
    · subst hx; exact hbst
    · exact H.startOK x (by simp [hx])
    · subst hx; exact hsp
    · exact H.startOK x (by simp [hx])
  · intro x hx
    simp only [List.mem_append, List.mem_cons] at hx
    rcases hx with (hx | hx | hx) | hx | hx
    · exact H.endOK x (by simp [hx])
    · subst hx; exact hsp.ne
    · exact H.endOK x (by simp [hx])
    · subst hx
      have e : b.1 + (b.2 - nq) + nq = b.1 + b.2 := by omega
      simp only [e]
      exact H.endOK b (by simp)
    · exact H.endOK x (by simp [hx])
  · simp only [List.pairwise_append, List.pairwise_cons, List.mem_cons]
    refine ⟨gF1, ⟨fun c hc => by
      have := gb c hc
      show b.1 + (b.2 - nq) < c.1
      omega, gF2⟩, ?_⟩
    intro a ha c hc
    rcases hc with hc | hc
    · subst hc; exact gx a ha b (Or.inl rfl)
    · exact gx a ha c (Or.inr hc)
  · simp only [List.pairwise_append, List.pairwise_cons, List.mem_append, List.mem_cons]
    refine ⟨⟨dF1, ⟨?_, dF2⟩, ?_⟩, ⟨?_, dlv⟩, ?_⟩
    · intro c hc
      exact (hother c (by simp [hc]) (hF2 c hc)).2.2.1
    · intro a ha c hc
      rcases hc with hc | hc
      · subst hc
        exact disj_symm (hother a (by simp [ha]) (hF1 a ha)).2.2.1
      · exact dF1x a ha c (Or.inr hc)
    · intro c hc
      exact disj_symm (hother c (by simp [hc]) (hlv c hc)).2.2.2
    · intro a ha c hc
      rcases ha with ha | ha | ha <;> rcases hc with hc | hc
      · subst hc; exact (hother a (by simp [ha]) (hF1 a ha)).2.2.2
      · exact dxl a (Or.inl ha) c hc
      · subst ha hc; unfold Disj; simp only; omega
      · subst ha; exact (hother c (by simp [hc]) (hlv c hc)).2.2.1
      · subst hc; exact (hother a (by simp [ha]) (hF2 a ha)).2.2.2
      · exact dxl a (Or.inr (Or.inr ha)) c hc
  · simpa using hr2

/-- Taking a block that is large enough keeps the heap invariant. -/
theorem heap_take {L : Layout} {s : State} {r nq : Nat} {F1 F2 live : List Blk} {b : Blk}
    (hQ : 0 < L.Q) (H : Heap L s.mem r (F1 ++ b :: F2) live) (hnq : 1 ≤ nq) (hle : nq ≤ b.2)
    (hsp : b.2 ≠ nq → StartOK L (b.1 + (b.2 - nq))) :
    Heap L (alloc_take L nq s (predNode L F1) (addr L b.1)).1.mem (predNode L F1)
      (allocTake nq F1 b F2).1 ((allocTake nq F1 b F2).2 :: live) ∧
    (alloc_take L nq s (predNode L F1) (addr L b.1)).1.invisible_free_p = predNode L F1 ∧
    (alloc_take L nq s (predNode L F1) (addr L b.1)).1.invisible_pool_free_pos
      = s.invisible_pool_free_pos ∧
    (alloc_take L nq s (predNode L F1) (addr L b.1)).2
      = addr L (allocTake nq F1 b F2).2.1 + L.Q := by
  have hsz : (s.mem (addr L b.1)).size = b.2 := H.sizes b (by simp)
  by_cases he : b.2 = nq
  · have e1 : alloc_take L nq s (predNode L F1) (addr L b.1)
        = ({ s with
              mem := upd s.mem (predNode L F1)
                { s.mem (predNode L F1) with next := (s.mem (addr L b.1)).next }
              invisible_free_p := predNode L F1 }, addr L b.1 + L.Q) := by
      simp [alloc_take, hsz, he]
    have e2 : allocTake nq F1 b F2 = (F1 ++ F2, b) := by simp [allocTake, he]
    rw [e1, e2]
    exact ⟨heap_take_exact hQ H, rfl, rfl, rfl⟩
  · have hlt : nq < b.2 := by omega
    have hsm := H.small b (by simp)
    have hmod : (b.2 - nq) % wordMod L = b.2 - nq := Nat.mod_eq_of_lt (by omega)
    have e2 : allocTake nq F1 b F2 = (F1 ++ (b.1, b.2 - nq) :: F2, (b.1 + (b.2 - nq), nq)) := by
      simp [allocTake, he]
    have hp2 : addr L b.1 + (b.2 - nq) * L.Q = addr L (b.1 + (b.2 - nq)) := addr_add _ _ _
    have hne : addr L (b.1 + (b.2 - nq)) ≠ addr L b.1 := by
      intro h; have := (addr_inj hQ).1 h; omega
    have e1 : alloc_take L nq s (predNode L F1) (addr L b.1)
        = ({ s with
              mem := upd (upd s.mem (addr L b.1)
                { s.mem (addr L b.1) with size := b.2 - nq }) (addr L (b.1 + (b.2 - nq)))
                { next := (s.mem (addr L (b.1 + (b.2 - nq)))).next, size := nq }
              invisible_free_p := predNode L F1 }, addr L (b.1 + (b.2 - nq)) + L.Q) := by
      simp [alloc_take, hsz, he, hmod, hp2, upd_other _ _ hne]
    rw [e1, e2]
    refine ⟨?_, rfl, rfl, rfl⟩
    refine heap_take_split hQ H hnq hlt (hsp he) (predNode_mem L F1 _) ?_ ?_ ?_ ?_
    · intro x
      by_cases h2 : x = addr L (b.1 + (b.2 - nq))
      · subst h2; simp
      · by_cases h1 : x = addr L b.1
        · subst h1; simp [upd_other _ _ h2]
        · simp [upd_other _ _ h2, upd_other _ _ h1]
    · intro x h1 h2
      simp [upd_other _ _ h2, upd_other _ _ h1]
    · simp [upd_other _ _ hne.symm]
    · simp

theorem alloc_loop_fit {L : Layout} {nq : Nat} {s : State} {prev p : Nat} (fuel : Nat)
    (h : nq ≤ (s.mem p).size) :
    alloc_loop L nq (fuel + 1) s prev p = some (alloc_take L nq s prev p) := by
  simp [alloc_loop, h]

theorem alloc_loop_next {L : Layout} {nq : Nat} {s : State} {prev p : Nat} (fuel : Nat)
    (h : (s.mem p).size < nq) (hp : p ≠ s.invisible_free_p) :
    alloc_loop L nq (fuel + 1) s prev p = alloc_loop L nq fuel s p (s.mem p).next := by
  have h2 : ¬ nq ≤ (s.mem p).size := by omega
  simp [alloc_loop, h2, hp]

theorem alloc_loop_mint {L : Layout} {nq : Nat} {s : State} {prev p : Nat} (fuel : Nat)
    (h : (s.mem p).size < nq) (hp : p = s.invisible_free_p) :
    alloc_loop L nq (fuel + 1) s prev p =
      match get_invisible_mem_from_pool L (fuel + 1) s nq with
      | none => none
      | some (s2, r) =>
        if r = 0 then some (s2, 0) else alloc_loop L nq fuel s2 r (s2.mem r).next := by
  have h2 : ¬ nq ≤ (s.mem p).size := by omega
  subst hp
  simp [alloc_loop, h2]

/-- The search loop walks over nodes that are too small and are not the rover. -/
theorem alloc_skip {L : Layout} {nq : Nat} {s : State} {P : Nat → Nat → Prop} {x : Nat}
    (fuel : Nat) :
    ∀ (ys : List Nat) (prev p : Nat),
      List.Chain' (fun u v => NextRel s.mem u v ∧ P u v) (p :: ys ++ [x]) →
      (∀ y ∈ p :: ys, (s.mem y).size < nq ∧ y ≠ s.invisible_free_p) →
      alloc_loop L nq (fuel + (ys.length + 1)) s prev p
        = alloc_loop L nq fuel s ((ys.getLast?).getD p) x := by
  intro ys
  induction ys with
  | nil =>
    intro prev p hch hy
    have h := (List.chain'_pair.1 hch).1
    have h2 := hy p (by simp)
    simp only [List.length_nil, Nat.zero_add, List.getLast?_nil, Option.getD_none]
    rw [alloc_loop_next fuel h2.1 h2.2, h]
  | cons y t ih =>
    intro prev p hch hy
    rw [List.cons_append, List.cons_append, List.chain'_cons] at hch
    have h := hch.1.1
    have h2 := hy p (by simp)
    have e : fuel + ((y :: t).length + 1) = (fuel + (t.length + 1)) + 1 := by simp; omega
    rw [e, alloc_loop_next _ h2.1 h2.2, h, ih p y hch.2 (fun z hz => hy z (by simp at hz ⊢; tauto))]
    simp [List.getLast?_cons]

theorem first_split {α : Type} (P : α → Prop) :
    ∀ l : List α, (∀ y ∈ l, ¬ P y) ∨
      ∃ ys x zs, l = ys ++ x :: zs ∧ (∀ y ∈ ys, ¬ P y) ∧ P x := by
  intro l
  induction l with
  | nil => exact Or.inl (by simp)
  | cons a t ih =>
    by_cases ha : P a
    · exact Or.inr ⟨[], a, t, rfl, by simp, ha⟩
    · rcases ih with h | ⟨ys, x, zs, e, h1, h2⟩
      · exact Or.inl (by
          intro y hy
          rcases List.mem_cons.1 hy with h3 | h3
          · rw [h3]; exact ha
          · exact h y h3)
      · refine Or.inr ⟨a :: ys, x, zs, by rw [e]; rfl, ?_, h2⟩
        intro y hy
        rcases List.mem_cons.1 hy with h3 | h3
        · rw [h3]; exact ha
        · exact h1 y h3

theorem adj_split_aux {L : Layout} {prev x : Nat} (hx : x ≠ L.base) :
    ∀ (fr : List Blk) (h : Nat) (s1 t1 : List Nat),
      h :: nodes L fr ++ [L.base] = s1 ++ prev :: x :: t1 →
      ∃ F1 b F2, fr = F1 ++ b :: F2 ∧ x = addr L b.1 ∧
        prev = ((nodes L F1).getLast?).getD h := by
  intro fr
  induction fr with
  | nil =>
    intro h s1 t1 e
    cases s1 with
    | nil =>
      simp at e
      exact absurd e.2.1.symm hx
    | cons s0 s2 =>
      cases s2 with
      | nil => simp at e
      | cons s3 s4 => simp at e
  | cons a t ih =>
    intro h s1 t1 e
    cases s1 with
    | nil =>
      simp at e
      exact ⟨[], a, t, rfl, e.2.1.symm, e.1.symm⟩
    | cons s0 s2 =>
      simp only [nodes_cons, List.cons_append, List.cons.injEq] at e
      obtain ⟨F1, b, F2, e1, e2, e3⟩ := ih (addr L a.1) s2 t1 (by simpa using e.2)
      refine ⟨a :: F1, b, F2, by rw [e1]; rfl, e2, ?_⟩
      rw [e3]
      simp [List.getLast?_cons]

/-- Two nodes that follow each other on the list, the second not the sentinel,
are a free block and the node before it. -/
theorem adj_split {L : Layout} {fr : List Blk} {prev x : Nat}
    (hadj : AdjIn (L.base :: nodes L fr ++ [L.base]) prev x) (hx : x ≠ L.base) :
    ∃ F1 b F2, fr = F1 ++ b :: F2 ∧ x = addr L b.1 ∧ prev = predNode L F1 := by
  obtain ⟨s1, t1, e⟩ := hadj
  exact adj_split_aux hx fr L.base s1 t1 e

theorem chain_last_rel {α : Type} {R : α → α → Prop} :
    ∀ (ys : List α) (p x : α) (zs : List α), List.Chain' R (p :: ys ++ x :: zs) →
      R ((ys.getLast?).getD p) x := by
  intro ys
  induction ys with
  | nil =>
    intro p x zs h
    exact (List.chain'_cons.1 h).1
  | cons y t ih =>
    intro p x zs h
    rw [List.cons_append, List.cons_append, List.chain'_cons] at h
    have := ih y x zs h.2
    simpa [List.getLast?_cons] using this

/-- The search of `invisible_pool_alloc` in a heap: either it takes a free
block that is large enough, together with the node before it, or no free
block is large enough and it turns to the pool. -/
theorem alloc_search {L : Layout} {s : State} {nq : Nat} {fr live : List Blk}
    (H : Heap L s.mem s.invisible_free_p fr live) (hQ : 0 < L.Q) (hnq : 1 ≤ nq) :
    (∃ F1 b F2, fr = F1 ++ b :: F2 ∧ nq ≤ b.2 ∧ ∀ fuel, fr.length + 1 ≤ fuel →
        alloc_loop L nq fuel s s.invisible_free_p (s.mem s.invisible_free_p).next
          = some (alloc_take L nq s (predNode L F1) (addr L b.1))) ∨
    ((∀ b ∈ fr, b.2 < nq) ∧ ∀ fuel,
        alloc_loop L nq (fuel + 1 + fr.length) s s.invisible_free_p
          (s.mem s.invisible_free_p).next = alloc_refill L nq fuel s) := by
  obtain ⟨R, hR, hc⟩ : ∃ R : Nat → Nat → Prop,
      (∀ u v, R u v → NextRel s.mem u v ∧ AdjIn (L.base :: nodes L fr ++ [L.base]) u v) ∧
      List.Chain' R (L.base :: nodes L fr ++ [L.base]) :=
    ⟨_, fun _ _ h => h, chain_and H.links (chain_adj (L.base :: nodes L fr ++ [L.base]))⟩
  obtain ⟨V, hV, hperm⟩ := cyc_round hc H.rover
  have hnd : (s.invisible_free_p :: V).Nodup :=
    (hperm.nodup_iff).2 (nodes_nodup hQ H.gaps (fun b hb => H.startOK b (by simp [hb])))
  have hlen : V.length = fr.length := by
    have := hperm.length_eq
    simp [nodes] at this
    exact this
  have hrV : s.invisible_free_p ∉ V := (List.nodup_cons.1 hnd).1
  rcases first_split (fun y => nq ≤ (s.mem y).size) (V ++ [s.invisible_free_p]) with
    hall | ⟨ys, x, zs, e, hys, hx⟩
  · right
    have hsmall : ∀ y ∈ V ++ [s.invisible_free_p], (s.mem y).size < nq := by
      intro y hy; have := hall y hy; omega
    constructor
    · intro b hb
      have h1 : addr L b.1 ∈ L.base :: nodes L fr :=
        List.mem_cons_of_mem _ (mem_nodes.2 ⟨b, hb, rfl⟩)
      have h2 := (hperm.mem_iff).2 h1
      have h3 := hsmall (addr L b.1) (by simp at h2 ⊢; tauto)
      rw [H.sizes b (by simp [hb])] at h3
      exact h3
    · intro fuel
      unfold alloc_refill
      cases V with
      | nil =>
        have h1 : (s.mem s.invisible_free_p).next = s.invisible_free_p :=
          (hR _ _ (List.chain'_pair.1 hV)).1
        simp only [List.length_nil] at hlen
        rw [← hlen, h1]
        exact alloc_loop_mint fuel (hsmall _ (by simp)) rfl
      | cons p ys =>
        have h1 : (s.mem s.invisible_free_p).next = p := by
          rw [List.cons_append, List.cons_append, List.chain'_cons] at hV
          exact (hR _ _ hV.1).1
        have hV2 : List.Chain' (fun u v => NextRel s.mem u v ∧
            AdjIn (L.base :: nodes L fr ++ [L.base]) u v) (p :: ys ++ [s.invisible_free_p]) := by
          rw [List.cons_append, List.chain'_cons'] at hV
          exact hV.2.imp hR
        have h2 := @alloc_skip L nq s _ _ (fuel + 1) ys s.invisible_free_p p hV2
          (fun y hy => ⟨hsmall y (by simp at hy ⊢; tauto), fun h => hrV (h ▸ hy)⟩)
        simp only [List.length_cons] at hlen
        rw [← hlen, h1, h2]
        exact alloc_loop_mint fuel (hsmall _ (by simp)) rfl
  · left
    have hVe : V = ys ++ (x :: zs).dropLast := by
      have := congrArg List.dropLast e
      simpa using this
    have hysr : ∀ y ∈ ys, y ≠ s.invisible_free_p := by
      intro y hy h
      exact hrV (by rw [hVe, ← h]; exact List.mem_append_left _ hy)
    have hV3 : List.Chain' R (s.invisible_free_p :: ys ++ x :: zs) := by
      have e2 : s.invisible_free_p :: V ++ [s.invisible_free_p]
          = s.invisible_free_p :: ys ++ x :: zs := by
        rw [List.cons_append, e, List.cons_append]
      rw [← e2]; exact hV
    have hrel := chain_last_rel ys s.invisible_free_p x zs hV3
    have hxb : x ≠ L.base := by
      intro h
      rw [h, H.base_size] at hx
      omega
    obtain ⟨F1, b, F2, hfr, hxa, hprev⟩ := adj_split (hR _ _ hrel).2 hxb
    have hb2 : (s.mem x).size = b.2 := by
      rw [hxa]; exact H.sizes b (by rw [hfr]; simp)
    refine ⟨F1, b, F2, hfr, by rw [← hb2]; exact hx, ?_⟩
    intro fuel hfuel
    have hlen2 : ys.length + 1 ≤ fr.length + 1 := by
      have := congrArg List.length e
      simp at this
      omega
    rw [← hprev, ← hxa]
    cases ys with
    | nil =>
      have h1 : (s.mem s.invisible_free_p).next = x := (hR _ _ (List.chain'_cons.1 hV3).1).1
      obtain ⟨k, rfl⟩ : ∃ k, fuel = k + 1 := ⟨fuel - 1, by omega⟩
      rw [h1]
      exact alloc_loop_fit k hx
    | cons p ys2 =>
      have h1 : (s.mem s.invisible_free_p).next = p := by
        rw [List.cons_append, List.cons_append, List.chain'_cons] at hV3
        exact (hR _ _ hV3.1).1
      have hV4 : List.Chain' (fun u v => NextRel s.mem u v ∧
          AdjIn (L.base :: nodes L fr ++ [L.base]) u v) (p :: ys2 ++ [x]) := by
        have h3 : List.Chain' R ((s.invisible_free_p :: p :: ys2) ++ x :: zs) := by
          simpa using hV3
        rw [List.chain'_split] at h3
        have h4 := h3.1
        rw [List.cons_append, List.chain'_cons'] at h4
        exact h4.2.imp hR
      simp only [List.length_cons] at hlen2
      obtain ⟨k, rfl⟩ : ∃ k, fuel = (k + 1) + (ys2.length + 1) :=
        ⟨fuel - (ys2.length + 2), by omega⟩
      have h2 := @alloc_skip L nq s _ _ (k + 1) ys2 s.invisible_free_p p hV4
        (fun y hy => ⟨by have := hys y hy; omega, hysr y hy⟩)
      rw [h1, h2]
      simp only [List.getLast?_cons]
      exact alloc_loop_fit k hx

/-! ## Arithmetic of the free list -/

@[simp] theorem sizes_nil : sizes [] = 0 := rfl

@[simp] theorem sizes_cons (b : Blk) (l : List Blk) : sizes (b :: l) = b.2 + sizes l := by
  simp [sizes]

@[simp] theorem sizes_append (l k : List Blk) : sizes (l ++ k) = sizes l + sizes k := by
  simp [sizes]

theorem cov_append (l k : List Blk) (q : Nat) : Cov (l ++ k) q ↔ Cov l q ∨ Cov k q := by
  unfold Cov
  constructor
  · rintro ⟨b, hb, h⟩
    rcases List.mem_append.1 hb with h1 | h1
    · exact Or.inl ⟨b, h1, h⟩
    · exact Or.inr ⟨b, h1, h⟩
  · rintro (⟨b, hb, h⟩ | ⟨b, hb, h⟩)
    · exact ⟨b, List.mem_append_left _ hb, h⟩
    · exact ⟨b, List.mem_append_right _ hb, h⟩

theorem cov_cons (b : Blk) (l : List Blk) (q : Nat) :
    Cov (b :: l) q ↔ (b.1 ≤ q ∧ q < b.1 + b.2) ∨ Cov l q := by
  unfold Cov
  simp

theorem cov_nil (q : Nat) : ¬ Cov [] q := by
  unfold Cov
  simp

theorem mergeUp_cases (B : Blk) (F2 : List Blk) :
    mergeUp B F2 = (B, F2) ∨
      ∃ c t, F2 = c :: t ∧ B.1 + B.2 = c.1 ∧ mergeUp B F2 = ((B.1, B.2 + c.2), t) := by
  cases F2 with
  | nil => exact Or.inl rfl
  | cons c t =>
    by_cases h : B.1 + B.2 = c.1
    · exact Or.inr ⟨c, t, rfl, h, by simp [mergeUp, h]⟩
    · exact Or.inl (by simp [mergeUp, h])

theorem mergeDown_cases (F1 : List Blk) (B : Blk) :
    mergeDown F1 B = F1 ++ [B] ∨
      ∃ G a, F1 = G ++ [a] ∧ a.1 + a.2 = B.1 ∧ mergeDown F1 B = G ++ [(a.1, a.2 + B.2)] := by
  rcases List.eq_nil_or_concat F1 with e1 | ⟨G, a, e1⟩
  · subst e1; exact Or.inl rfl
  · rw [List.concat_eq_append] at e1
    subst e1
    by_cases h : a.1 + a.2 = B.1
    · exact Or.inr ⟨G, a, rfl, h, by simp [mergeDown_concat, h]⟩
    · exact Or.inl (by simp [mergeDown_concat, h])

theorem freeIns_sizes (F1 : List Blk) (B : Blk) (F2 : List Blk) :
    sizes (freeIns F1 B F2) = sizes F1 + B.2 + sizes F2 := by
  unfold freeIns
  rcases mergeUp_cases B F2 with hu | ⟨c, t, e, _, hu⟩ <;>
    rcases mergeDown_cases F1 (mergeUp B F2).1 with hd | ⟨G, a, e2, _, hd⟩
  · rw [hd, hu]; simp; omega
  · rw [hd, hu, e2]; simp; omega
  · rw [hd, hu, e]; simp; omega
  · rw [hd, hu, e, e2]; simp; omega

theorem freeIns_cov (F1 : List Blk) (B : Blk) (F2 : List Blk) (q : Nat) :
    Cov (freeIns F1 B F2) q ↔ Cov (F1 ++ F2) q ∨ (B.1 ≤ q ∧ q < B.1 + B.2) := by
  unfold freeIns
  rcases mergeUp_cases B F2 with hu | ⟨c, t, e, h1, hu⟩ <;>
    rcases mergeDown_cases F1 (mergeUp B F2).1 with hd | ⟨G, a, e2, h2, hd⟩
  · rw [hd, hu]
    simp only [cov_append, cov_cons, cov_nil, or_false]
    tauto
  · rw [hd, hu, e2]
    rw [hu] at h2
    simp only [cov_append, cov_cons, cov_nil, or_false]
    constructor
    · rintro ((h | h) | h)
      · tauto
      · have : (a.1 ≤ q ∧ q < a.1 + a.2) ∨ (B.1 ≤ q ∧ q < B.1 + B.2) := by
          simp only at h2; omega
        tauto
      · tauto
    · rintro (((h | h) | h) | h)
      · tauto
      · left; right; simp only at h2; omega
      · tauto
      · left; right; simp only at h2; omega
  · rw [hd, hu, e]
    simp only [cov_append, cov_cons, cov_nil, or_false]
    constructor
    · rintro ((h | h) | h)
      · tauto
      · have : (B.1 ≤ q ∧ q < B.1 + B.2) ∨ (c.1 ≤ q ∧ q < c.1 + c.2) := by omega
        tauto
      · tauto
    · rintro ((h | h | h) | h)
      · tauto
      · left; right; omega
      · tauto
      · left; right; omega
  · rw [hd, hu, e, e2]
    rw [hu] at h2
    simp only [cov_append, cov_cons, cov_nil, or_false]
    constructor
    · rintro ((h | h) | h)
      · tauto
      · have : (a.1 ≤ q ∧ q < a.1 + a.2) ∨ (B.1 ≤ q ∧ q < B.1 + B.2) ∨
            (c.1 ≤ q ∧ q < c.1 + c.2) := by
          simp only at h2; omega
        tauto
      · tauto
    · rintro (((h | h) | h | h) | h)
      · tauto
      · left; right; simp only at h2; omega
      · left; right; simp only at h2; omega
      · tauto
      · left; right; simp only at h2; omega

/-! ## The allocator state and its accounting -/

theorem startOK_of_le {L : Layout} (hA : SentinelApart L) (hQ : 0 < L.Q) {o : Nat}
    (h : L.Q * o ≤ INVISIBLE_POOL_SIZE) : StartOK L o := by
  unfold StartOK addr
  rcases hA with h1 | h1
  · left; omega
  · right; omega

theorem Heap.perm_live {L : Layout} {m : Mem} {r : Nat} {fr live live2 : List Blk}
    (H : Heap L m r fr live) (hp : List.Perm live live2) : Heap L m r fr live2 := by
  have hp2 : List.Perm (fr ++ live) (fr ++ live2) := hp.append_left fr
  have hmem : ∀ x, x ∈ fr ++ live2 → x ∈ fr ++ live := fun x hx => (hp2.mem_iff).2 hx
  exact ⟨H.base_size, H.links, fun b hb => H.sizes b (hmem b hb),
    fun b hb => H.pos b (hmem b hb), fun b hb => H.small b (hmem b hb),
    fun b hb => H.startOK b (hmem b hb), fun b hb => H.endOK b (hmem b hb), H.gaps,
    (hp2.pairwise_iff (fun h => disj_symm h)).1 H.disj, H.rover⟩

/-- The free blocks below and above a block that overlaps none of them. -/
theorem split_at {B : Blk} :
    ∀ fr : List Blk, List.Pairwise (fun a b : Blk => a.1 + a.2 < b.1) fr →
      (∀ b ∈ fr, Disj b B) →
      ∃ F1 F2, fr = F1 ++ F2 ∧ (∀ b ∈ F1, b.1 + b.2 ≤ B.1) ∧ (∀ b ∈ F2, B.1 + B.2 ≤ b.1) := by
  intro fr
  induction fr with
  | nil => intro _ _; exact ⟨[], [], rfl, by simp, by simp⟩
  | cons a t ih =>
    intro hg hd
    rw [List.pairwise_cons] at hg
    rcases hd a (List.mem_cons_self _ _) with h | h
    · obtain ⟨F1, F2, e, h1, h2⟩ := ih hg.2 (fun b hb => hd b (List.mem_cons_of_mem _ hb))
      refine ⟨a :: F1, F2, by rw [e]; rfl, ?_, h2⟩
      intro b hb
      rcases List.mem_cons.1 hb with hb | hb
      · rw [hb]; exact h
      · exact h1 b hb
    · refine ⟨[], a :: t, rfl, by simp, ?_⟩
      intro b hb
      rcases List.mem_cons.1 hb with hb | hb
      · rw [hb]; exact h
      · have := hg.1 b hb
        omega

theorem within_of_cov {l : List Blk} {N : Nat} (hpos : ∀ b ∈ l, 1 ≤ b.2)
    (hc : ∀ q, Cov l q → q < N) : ∀ b ∈ l, b.1 + b.2 ≤ N := by
  intro b hb
  have h1 := hpos b hb
  have := hc (b.1 + b.2 - 1) ⟨b, hb, by omega, by omega⟩
  omega

theorem cov_of_within {l : List Blk} {N : Nat} (hw : ∀ b ∈ l, b.1 + b.2 ≤ N) :
    ∀ q, Cov l q → q < N := by
  rintro q ⟨b, hb, h1, h2⟩
  have := hw b hb
  omega

/-- The function `invisible_pool_free` on the payload of a live block: it
returns, the heap invariant holds afterwards, the block has joined the free
list and the rover is the node below it. -/
theorem heap_free_state {L : Layout} {s : State} {fr lv : List Blk} {B : Blk} (hQ : 0 < L.Q)
    (H : Heap L s.mem s.invisible_free_p fr (B :: lv)) :
    ∃ F1 F2, fr = F1 ++ F2 ∧ (∀ b ∈ F1, b.1 + b.2 ≤ B.1) ∧ (∀ b ∈ F2, B.1 + B.2 ≤ b.1) ∧
      (∀ fuel, fr.length + 1 ≤ fuel →
        invisible_pool_free L fuel s (addr L B.1 + L.Q)
          = some { s with
              mem := free_link L s.mem (addr L B.1) (predNode L F1)
              invisible_free_p := predNode L F1 }) ∧
      Heap L (free_link L s.mem (addr L B.1) (predNode L F1)) (predNode L F1)
        (freeIns F1 B F2) lv := by
  have hdisj := H.disj
  simp only [List.pairwise_append, List.pairwise_cons, List.mem_cons] at hdisj
  obtain ⟨F1, F2, e, h1, h2⟩ := split_at (B := B) fr H.gaps
    (fun b hb => hdisj.2.2 b hb B (Or.inl rfl))
  subst e
  refine ⟨F1, F2, rfl, h1, h2, ?_, heap_free hQ H h1 h2⟩
  intro fuel hfuel
  have hBpos := H.pos B (by simp)
  have hf := @free_find_heap L s.mem s.invisible_free_p B.1 F1 F2 hQ (H.startOK B (by simp)) H.links
    (fun b hb => H.startOK b (List.mem_append_left _ hb)) H.gaps H.rover
    (fun b hb => by have := h1 b hb; have := H.pos b (by simp [hb]); omega)
    (fun b hb => by have := h2 b hb; omega) fuel hfuel
  unfold invisible_pool_free
  simp only [Nat.add_sub_cancel, hf]

theorem sizes_perm {l k : List Blk} (h : List.Perm l k) : sizes l = sizes k := by
  unfold sizes
  exact (h.map Prod.snd).sum_eq

/-- Freeing a live block keeps the allocator invariant; the free list gains
exactly the quanta of the block. -/
theorem rep_free {L : Layout} {s : State} {fr live lv : List Blk} {N : Nat} {B : Blk}
    (hQ : 0 < L.Q) (R : Rep L s fr live N) (hperm : List.Perm live (B :: lv)) :
    ∃ s2 fr2, (∀ fuel, fr.length + 1 ≤ fuel →
        invisible_pool_free L fuel s (addr L B.1 + L.Q) = some s2) ∧
      Rep L s2 fr2 lv N ∧ sizes fr2 = sizes fr + B.2 ∧
      (∀ q, Cov fr2 q ↔ Cov fr q ∨ (B.1 ≤ q ∧ q < B.1 + B.2)) ∧
      s2.invisible_pool_free_pos = s.invisible_pool_free_pos := by
  have H := R.heap.perm_live hperm
  have hmem : ∀ x, x ∈ B :: lv → x ∈ live := fun x hx => (hperm.mem_iff).2 hx
  obtain ⟨F1, F2, e, h1, h2, hrun, H2⟩ := heap_free_state hQ H
  have hsz : sizes (freeIns F1 B F2) = sizes fr + B.2 := by
    rw [freeIns_sizes, e]; simp; omega
  have hcov : ∀ q, Cov (freeIns F1 B F2) q ↔ Cov fr q ∨ (B.1 ≤ q ∧ q < B.1 + B.2) := by
    intro q; rw [freeIns_cov, e]
  refine ⟨_, freeIns F1 B F2, hrun, ⟨H2, R.fpos, R.cap, ?_, ?_⟩, hsz, hcov, rfl⟩
  · refine within_of_cov H2.pos ?_
    intro q hq
    rw [cov_append, hcov] at hq
    have hBw := R.within B (List.mem_append_right _ (hmem B (by simp)))
    rcases hq with (hq | hq) | hq
    · exact cov_of_within R.within q ((cov_append _ _ _).2 (Or.inl hq))
    · omega
    · obtain ⟨b, hb, hq⟩ := hq
      have := R.within b (List.mem_append_right _ (hmem b (by simp [hb])))
      omega
  · have h3 := sizes_perm hperm
    simp only [sizes_cons] at h3
    have := R.total
    omega

/-- Taking a block that is large enough keeps the allocator invariant: the
new live block has exactly `nq` quanta and the cursor stays. -/
theorem rep_take {L : Layout} {s : State} {nq N : Nat} {F1 F2 live : List Blk} {b : Blk}
    (hQ : 0 < L.Q) (hA : SentinelApart L) (R : Rep L s (F1 ++ b :: F2) live N)
    (hnq : 1 ≤ nq) (hle : nq ≤ b.2) :
    ∃ fr2 o, Rep L (alloc_take L nq s (predNode L F1) (addr L b.1)).1 fr2 ((o, nq) :: live) N ∧
      (alloc_take L nq s (predNode L F1) (addr L b.1)).2 = addr L o + L.Q ∧
      (alloc_take L nq s (predNode L F1) (addr L b.1)).1.invisible_free_p = predNode L F1 ∧
      fr2 = (allocTake nq F1 b F2).1 ∧ o = (allocTake nq F1 b F2).2.1 := by
  have hbw := R.within b (by simp)
  have hcap := R.cap
  have hsp : b.2 ≠ nq → StartOK L (b.1 + (b.2 - nq)) := by
    intro _
    refine startOK_of_le hA hQ ?_
    have : L.Q * (b.1 + (b.2 - nq)) ≤ L.Q * N := Nat.mul_le_mul_left _ (by omega)
    omega
  obtain ⟨H2, hfp, hpos, hret⟩ := heap_take hQ R.heap hnq hle hsp
  have hsnd : (allocTake nq F1 b F2).2 = ((allocTake nq F1 b F2).2.1, nq) := by
    unfold allocTake
    by_cases he : b.2 = nq
    · simp [he]; exact Prod.ext rfl he
    · simp [he]
  rw [hsnd] at H2
  refine ⟨_, _, ⟨by rw [hfp]; exact H2, by rw [hpos]; exact R.fpos, hcap, ?_, ?_⟩,
    hret, hfp, rfl, rfl⟩
  · have hw := R.within
    intro x hx
    unfold allocTake at hx
    by_cases he : b.2 = nq
    · simp only [he, if_true, List.mem_append, List.mem_cons] at hx
      rcases hx with (hx | hx) | hx | hx
      · exact hw x (by simp [hx])
      · exact hw x (by simp [hx])
      · subst hx; simp only; omega
      · exact hw x (by simp [hx])
    · simp only [he, if_false, List.mem_append, List.mem_cons] at hx
      rcases hx with (hx | hx | hx) | hx | hx
      · exact hw x (by simp [hx])
      · subst hx; simp only; omega
      · exact hw x (by simp [hx])
      · subst hx; simp only; omega
      · exact hw x (by simp [hx])
  · have ht := R.total
    unfold allocTake
    by_cases he : b.2 = nq
    · simp [he] at ht ⊢; omega
    · simp [he] at ht ⊢; omega

/-- Writing the size into the header of a fresh block, disjoint from all
blocks, makes it a live block of the heap. -/
theorem heap_add_live {L : Layout} {m m2 : Mem} {r : Nat} {fr live : List Blk} {B : Blk}
    (hQ : 0 < L.Q) (H : Heap L m r fr live) (hst : StartOK L B.1) (hen : EndOK L (B.1 + B.2))
    (hpos : 1 ≤ B.2) (hsm : B.1 + B.2 < wordMod L) (hd : ∀ x ∈ fr ++ live, Disj x B)
    (hm : ∀ x, x ≠ addr L B.1 → m2 x = m x) (hs : (m2 (addr L B.1)).size = B.2) :
    Heap L m2 r fr (B :: live) := by
  have hne : ∀ x ∈ fr ++ live, addr L x.1 ≠ addr L B.1 := by
    intro x hx h
    have h1 := (addr_inj hQ).1 h
    have h2 := hd x hx
    have h3 := H.pos x hx
    unfold Disj at h2
    omega
  have hmem : ∀ x, x ∈ fr ++ B :: live → x = B ∨ x ∈ fr ++ live := by
    intro x hx
    simp only [List.mem_append, List.mem_cons] at hx ⊢
    tauto
  refine ⟨?_, ?_, ?_, ?_, ?_, ?_, ?_, H.gaps, ?_, H.rover⟩
  · rw [hm _ (fun h => hst.ne h.symm)]; exact H.base_size
  · have h1 : List.Chain' (NextRel m) ((L.base :: nodes L fr) ++ [L.base]) := H.links
    refine chain_congr h1 ?_
    intro x hx
    rcases List.mem_cons.1 hx with hx | hx
    · rw [hx, hm _ (fun h => hst.ne h.symm)]
    · obtain ⟨b, hb, rfl⟩ := mem_nodes.1 hx
      rw [hm _ (hne b (by simp [hb]))]
  · intro x hx
    rcases hmem x hx with h | h
    · rw [h]; exact hs
    · rw [hm _ (hne x h)]; exact H.sizes x h
  · intro x hx
    rcases hmem x hx with h | h
    · rw [h]; exact hpos
    · exact H.pos x h
  · intro x hx
    rcases hmem x hx with h | h
    · rw [h]; exact hsm
    · exact H.small x h
  · intro x hx
    rcases hmem x hx with h | h
    · rw [h]; exact hst
    · exact H.startOK x h
  · intro x hx
    rcases hmem x hx with h | h
    · rw [h]; exact hen
    · exact H.endOK x h
  · have hdisj := H.disj
    simp only [List.pairwise_append, List.pairwise_cons, List.mem_cons] at hdisj ⊢
    refine ⟨hdisj.1, ⟨fun x hx => disj_symm (hd x (by simp [hx])), hdisj.2.1⟩, ?_⟩
    intro a ha b hb
    rcases hb with hb | hb
    · rw [hb]; exact hd a (by simp [ha])
    · exact hdisj.2.2 a ha b hb

theorem predNode_pos {L : Layout} (hb : 0 < L.base) (hp : 0 < L.pool) (F : List Blk) :
    predNode L F ≠ 0 := by
  rcases predNode_cases L F with h | ⟨b, _, h⟩
  · rw [h]; omega
  · rw [h]; unfold addr; omega

/-- The helper `get_invisible_mem_from_pool` when the pool has room: it
returns the rover, the cursor advances by the minted block, and the free list
ends in a block at least that large. -/
theorem rep_mint {L : Layout} {s : State} {fr live : List Blk} {N nq : Nat}
    (hL : LayoutOK L) (hA : SentinelApart L) (R : Rep L s fr live N)
    (hfit : L.Q * N + (if nq < MIN_INVISIBLE_POOL_ALLOC_QUANTAS then
      MIN_INVISIBLE_POOL_ALLOC_QUANTAS else nq) * L.Q ≤ INVISIBLE_POOL_SIZE) :
    ∃ s3 fr3, (∀ fuel, fr.length + 1 ≤ fuel →
        get_invisible_mem_from_pool L fuel s nq = some (s3, s3.invisible_free_p)) ∧
      s3.invisible_free_p ≠ 0 ∧
      Rep L s3 fr3 live (N + (if nq < MIN_INVISIBLE_POOL_ALLOC_QUANTAS then
        MIN_INVISIBLE_POOL_ALLOC_QUANTAS else nq)) ∧
      (∃ b ∈ fr3, nq ≤ b.2) ∧ fr3.length ≤ fr.length + 1 := by
  obtain ⟨hQ, hb0, hp0, hW⟩ := hL
  generalize hnq2 : (if nq < MIN_INVISIBLE_POOL_ALLOC_QUANTAS then
      MIN_INVISIBLE_POOL_ALLOC_QUANTAS else nq) = nq2 at hfit ⊢
  have hnq2le : nq ≤ nq2 := by
    rw [← hnq2]; split <;> omega
  have hnq2pos : 1 ≤ nq2 := by
    rw [← hnq2]; unfold MIN_INVISIBLE_POOL_ALLOC_QUANTAS; split <;> omega
  have hWd : wordMod L = 2 ^ L.wbits := rfl
  have hmul : nq2 * L.Q = L.Q * nq2 := Nat.mul_comm _ _
  have hmod1 : (nq2 * L.Q) % wordMod L = nq2 * L.Q := Nat.mod_eq_of_lt (by omega)
  have hmod2 : (L.Q * N + nq2 * L.Q) % wordMod L = L.Q * N + nq2 * L.Q :=
    Nat.mod_eq_of_lt (by omega)
  have hNQ : L.Q * (N + nq2) = L.Q * N + nq2 * L.Q := by rw [Nat.mul_add, hmul]
  have hle1 : nq2 ≤ L.Q * nq2 := Nat.le_mul_of_pos_left _ hQ
  have hle2 : N ≤ L.Q * N := Nat.le_mul_of_pos_left _ hQ
  have hst : StartOK L N := startOK_of_le hA hQ (by omega)
  have hen : EndOK L (N + nq2) := (startOK_of_le hA hQ (by omega) : StartOK L (N + nq2)).ne
  obtain ⟨m1, hm1⟩ : ∃ m1 : Mem,
      m1 = upd s.mem (addr L N) { s.mem (addr L N) with size := nq2 } := ⟨_, rfl⟩
  have H1 : Heap L m1 s.invisible_free_p fr ((N, nq2) :: live) := by
    refine heap_add_live (B := (N, nq2)) hQ R.heap hst hen hnq2pos (by simp only; omega) ?_
      (fun x hx => by rw [hm1]; exact upd_other _ _ hx) (by rw [hm1]; simp)
    intro x hx
    have := R.within x hx
    unfold Disj; simp only; omega
  obtain ⟨F1, F2, e, h1, h2, hrun, H2⟩ := heap_free_state
    (s := { s with mem := m1 }) hQ H1
  have hF2 : F2 = [] := by
    cases F2 with
    | nil => rfl
    | cons c t =>
      have h3 := h2 c (List.mem_cons_self _ _)
      have h4 := R.within c (by rw [e]; simp)
      have h5 := R.heap.pos c (by rw [e]; simp)
      simp only at h3
      omega
  subst hF2
  simp only [List.append_nil] at e
  subst e
  have hfi : freeIns fr (N, nq2) [] = mergeDown fr (N, nq2) := by
    simp [freeIns, mergeUp]
  have hsz := freeIns_sizes fr (N, nq2) []
  have hcov := freeIns_cov fr (N, nq2) []
  refine ⟨{ mem := free_link L m1 (addr L N) (predNode L fr),
            invisible_free_p := predNode L fr,
            invisible_pool_free_pos := L.Q * (N + nq2) },
    freeIns fr (N, nq2) [], ?_, predNode_pos hb0 hp0 fr, ⟨H2, rfl, by omega, ?_, ?_⟩, ?_, ?_⟩
  · intro fuel hfuel
    have hr := hrun fuel hfuel
    unfold get_invisible_mem_from_pool
    simp only [hnq2, R.fpos, hmod1, hmod2, hfit, if_true]
    have ha : L.pool + L.Q * N = addr L N := rfl
    rw [ha, ← hm1]
    simp only [R.fpos] at hr
    rw [hr]
    simp only [hmod2, hNQ]
  · refine within_of_cov H2.pos ?_
    intro q hq
    rw [cov_append, hcov] at hq
    rcases hq with (hq | hq) | hq
    · have := cov_of_within R.within q ((cov_append _ _ _).2 (Or.inl (by simpa using hq)))
      omega
    · simp only at hq; omega
    · have := cov_of_within R.within q ((cov_append _ _ _).2 (Or.inr hq))
      omega
  · have := R.total
    rw [hsz]; simp; omega
  · rw [hfi]
    rcases mergeDown_cases fr (N, nq2) with h | ⟨G, a, _, _, h⟩
    · rw [h]; exact ⟨(N, nq2), by simp, hnq2le⟩
    · rw [h]; exact ⟨(a.1, a.2 + nq2), by simp, by simp only; omega⟩
  · rw [hfi]
    rcases mergeDown_cases fr (N, nq2) with h | ⟨G, a, e2, _, h⟩
    · rw [h]; simp
    · rw [h, e2]; simp

/-- The helper `get_invisible_mem_from_pool` when the pool has no room: it
returns `nullptr` and changes nothing. -/
theorem mint_fail {L : Layout} {s : State} {N nq : Nat} (fuel : Nat)
    (hpos : s.invisible_pool_free_pos = L.Q * N) (hcap : L.Q * N ≤ INVISIBLE_POOL_SIZE)
    (hnw : INVISIBLE_POOL_SIZE + minted nq * L.Q < wordMod L)
    (hno : INVISIBLE_POOL_SIZE < L.Q * N + minted nq * L.Q) :
    get_invisible_mem_from_pool L fuel s nq = some (s, 0) := by
  unfold minted at hnw hno
  have hmod1 : ((if nq < MIN_INVISIBLE_POOL_ALLOC_QUANTAS then
      MIN_INVISIBLE_POOL_ALLOC_QUANTAS else nq) * L.Q) % wordMod L
      = (if nq < MIN_INVISIBLE_POOL_ALLOC_QUANTAS then
          MIN_INVISIBLE_POOL_ALLOC_QUANTAS else nq) * L.Q := Nat.mod_eq_of_lt (by omega)
  have hmod2 : (L.Q * N + (if nq < MIN_INVISIBLE_POOL_ALLOC_QUANTAS then
      MIN_INVISIBLE_POOL_ALLOC_QUANTAS else nq) * L.Q) % wordMod L
      = L.Q * N + (if nq < MIN_INVISIBLE_POOL_ALLOC_QUANTAS then
          MIN_INVISIBLE_POOL_ALLOC_QUANTAS else nq) * L.Q := Nat.mod_eq_of_lt (by omega)
  have hnot : ¬ (L.Q * N + (if nq < MIN_INVISIBLE_POOL_ALLOC_QUANTAS then
      MIN_INVISIBLE_POOL_ALLOC_QUANTAS else nq) * L.Q ≤ INVISIBLE_POOL_SIZE) := by omega
  unfold get_invisible_mem_from_pool
  simp only [hpos, hmod1, hmod2, hnot, if_false]

/-- The search loop of `invisible_pool_alloc` on a well-formed state, for a
block size that does not wrap: it returns; either with `nullptr` and the state
unchanged, when no free block is large enough and the pool has no room, or
with the payload of a new live block of exactly `nq` quanta. -/
theorem rep_alloc_loop {L : Layout} {s : State} {fr live : List Blk} {N nq : Nat}
    (hL : LayoutOK L) (hA : SentinelApart L) (R : Rep L s fr live N) (hnq : 1 ≤ nq)
    (hnw : INVISIBLE_POOL_SIZE + minted nq * L.Q < wordMod L) :
    ∀ fuel, 2 * fr.length + 6 ≤ fuel →
      ∃ s2 p, alloc_loop L nq fuel s s.invisible_free_p (s.mem s.invisible_free_p).next
          = some (s2, p) ∧
        ((p = 0 ∧ s2 = s ∧ (∀ b ∈ fr, b.2 < nq) ∧
            INVISIBLE_POOL_SIZE < L.Q * N + minted nq * L.Q) ∨
          (∃ fr2 o, p = addr L o + L.Q ∧ Rep L s2 fr2 ((o, nq) :: live) N ∧
            (∃ b ∈ fr, nq ≤ b.2)) ∨
          (∃ fr2 o, p = addr L o + L.Q ∧ Rep L s2 fr2 ((o, nq) :: live) (N + minted nq) ∧
            (∀ b ∈ fr, b.2 < nq) ∧ L.Q * N + minted nq * L.Q ≤ INVISIBLE_POOL_SIZE)) := by
  intro fuel hfuel
  have hQ := hL.1
  rcases alloc_search R.heap hQ hnq with ⟨F1, b, F2, e, hle, hrun⟩ | ⟨hsmall, hrun⟩
  · subst e
    obtain ⟨fr2, o, R2, hret, _, _, _⟩ := rep_take hQ hA R hnq hle
    refine ⟨_, _, hrun fuel (by omega), Or.inr (Or.inl ⟨fr2, o, hret, R2, b, by simp, hle⟩)⟩
  · obtain ⟨k, rfl⟩ : ∃ k, fuel = k + 1 + fr.length := ⟨fuel - 1 - fr.length, by omega⟩
    rw [hrun k]
    unfold alloc_refill
    by_cases hfit : L.Q * N + minted nq * L.Q ≤ INVISIBLE_POOL_SIZE
    · obtain ⟨s3, fr3, hget, hr0, R3, ⟨b3, hb3, hb3le⟩, hlen3⟩ := @rep_mint L s fr live N nq hL hA R hfit
      rw [hget (k + 1) (by omega)]
      simp only [hr0, if_false]
      rcases alloc_search R3.heap hQ hnq with ⟨F1, b, F2, e, hle, hrun3⟩ | ⟨hsmall3, _⟩
      · subst e
        obtain ⟨fr2, o, R2, hret, _, _, _⟩ := rep_take hQ hA R3 hnq hle
        exact ⟨_, _, hrun3 k (by omega), Or.inr (Or.inr ⟨fr2, o, hret, R2, hsmall, hfit⟩)⟩
      · have := hsmall3 b3 hb3
        omega
    · rw [mint_fail (k + 1) R.fpos R.cap hnw (by omega)]
      exact ⟨s, 0, rfl, Or.inl ⟨rfl, rfl, hsmall, by omega⟩⟩

/-! ## Call sequences -/

theorem rep_len {L : Layout} {s : State} {fr live : List Blk} {N : Nat} (hQ : 0 < L.Q)
    (R : Rep L s fr live N) : fr.length ≤ N ∧ N ≤ INVISIBLE_POOL_SIZE := by
  have h1 : ∀ l : List Blk, (∀ b ∈ l, 1 ≤ b.2) → l.length ≤ sizes l := by
    intro l
    induction l with
    | nil => intro _; simp
    | cons a t ih =>
      intro h
      have := ih (fun b hb => h b (List.mem_cons_of_mem _ hb))
      have := h a (List.mem_cons_self _ _)
      simp only [List.length_cons, sizes_cons]
      omega
  have h2 := h1 fr (fun b hb => R.heap.pos b (by simp [hb]))
  have h3 := R.total
  have h4 := R.cap
  have h5 : N ≤ L.Q * N := Nat.le_mul_of_pos_left _ hQ
  omega

/-- The first-call initialisation sets up an empty, well-formed allocator. -/
theorem rep_init {L : Layout} {s : State} (h0 : s.invisible_free_p = 0)
    (hp : s.invisible_pool_free_pos = 0) : Rep L (alloc_init L s) [] [] 0 := by
  have e : alloc_init L s = { s with
      mem := upd (upd s.mem L.base { s.mem L.base with next := L.base }) L.base
        { next := L.base, size := 0 }
      invisible_free_p := L.base } := by
    simp [alloc_init, h0]
  rw [e]
  refine ⟨⟨by simp, ?_, by simp, by simp, by simp, by simp, by simp, by simp, by simp, by simp⟩,
    by simp [hp], by simp, by simp, by simp⟩
  simp only [nodes_nil, List.cons_append, List.nil_append]
  rw [List.chain'_pair]
  simp [NextRel]

theorem alloc_init_rep {L : Layout} {s : State} {fr live : List Blk} {N : Nat}
    (hb : 0 < L.base) (hp : 0 < L.pool) (R : Rep L s fr live N) : alloc_init L s = s := by
  have h : s.invisible_free_p ≠ 0 := by
    rcases List.mem_cons.1 R.heap.rover with h | h
    · rw [h]; omega
    · obtain ⟨b, _, h2⟩ := mem_nodes.1 h
      rw [← h2]; unfold addr; omega
  simp [alloc_init, h]

theorem wordMod_big {L : Layout} (hL : LayoutOK L) :
    2 * INVISIBLE_POOL_SIZE + 18 * L.Q < wordMod L := hL.2.2.2

/-- The size computation for a request of at most `INVISIBLE_POOL_SIZE` bytes
does not wrap: it is `ceil(num_bytes / Q) + 1`. -/
theorem nq_of_le {L : Layout} (hL : LayoutOK L) {n : Nat} (hn : n ≤ INVISIBLE_POOL_SIZE) :
    num_quantas_of L n = (n + L.Q - 1) / L.Q + 1 ∧ 1 ≤ num_quantas_of L n ∧
      INVISIBLE_POOL_SIZE + minted (num_quantas_of L n) * L.Q < wordMod L ∧
      n ≤ (num_quantas_of L n - 1) * L.Q ∧ (num_quantas_of L n - 1) * L.Q < n + L.Q := by
  have hW := wordMod_big hL
  have hQ := hL.1
  have h1 : (n + L.Q - 1) % wordMod L = n + L.Q - 1 := Nat.mod_eq_of_lt (by omega)
  have h2 : (n + L.Q - 1) / L.Q ≤ n + L.Q - 1 := Nat.div_le_self _ _
  have h3 : ((n + L.Q - 1) / L.Q + 1) % wordMod L = (n + L.Q - 1) / L.Q + 1 :=
    Nat.mod_eq_of_lt (by omega)
  have e : num_quantas_of L n = (n + L.Q - 1) / L.Q + 1 := by
    unfold num_quantas_of
    rw [h1, h3]
  have h4 : (n + L.Q - 1) / L.Q * L.Q ≤ n + L.Q - 1 := Nat.div_mul_le_self _ _
  have h5 : n + L.Q - 1 < ((n + L.Q - 1) / L.Q + 1) * L.Q := by
    have := Nat.lt_div_mul_add (a := n + L.Q - 1) hQ
    rw [Nat.add_mul, Nat.one_mul]
    exact this
  have h6 : ((n + L.Q - 1) / L.Q + 1) * L.Q = (n + L.Q - 1) / L.Q * L.Q + L.Q := by
    rw [Nat.add_mul, Nat.one_mul]
  refine ⟨e, ?_, ?_, ?_, ?_⟩
  · rw [e]; exact Nat.le_add_left _ _
  · rw [e]
    unfold minted MIN_INVISIBLE_POOL_ALLOC_QUANTAS
    split
    · omega
    · omega
  · rw [e]; simp only [Nat.add_sub_cancel]; omega
  · rw [e]; simp only [Nat.add_sub_cancel]; omega

theorem init_cases {L : Layout} {st : State × List Nat} (hL : LayoutOK L) (I : RunInv L st) :
    ∃ fr live N, Rep L (alloc_init L st.1) fr live N ∧ st.2 = live.map (payload L) ∧
      ((st.1.invisible_free_p = 0 ∧ fr = []) ∨ alloc_init L st.1 = st.1) := by
  rcases I with ⟨h0, hp, hlv⟩ | ⟨fr, live, N, R, hlv⟩
  · exact ⟨[], [], 0, rep_init h0 hp, by simp [hlv], Or.inl ⟨h0, rfl⟩⟩
  · have e := alloc_init_rep hL.2.1 hL.2.2.1 R
    exact ⟨fr, live, N, by rw [e]; exact R, hlv, Or.inr e⟩

theorem perm_filter_ne {f : Blk → Nat} {B : Blk} :
    ∀ l : List Blk, List.Pairwise (fun a b => f a ≠ f b) l → B ∈ l →
      List.Perm l (B :: l.filter (fun b => f b ≠ f B)) := by
  intro l
  induction l with
  | nil => intro _ h; simp at h
  | cons a t ih =>
    intro hp hB
    rw [List.pairwise_cons] at hp
    by_cases hab : a = B
    · subst hab
      have h1 : t.filter (fun b => f b ≠ f a) = t := by
        rw [List.filter_eq_self]
        intro x hx
        have := hp.1 x hx
        simpa using fun h => this h.symm
      have h4 : (a :: t).filter (fun b => f b ≠ f a) = t := by
        rw [List.filter_cons_of_neg (by simp)]
        exact h1
      rw [h4]
    · have hBt : B ∈ t := by
        rcases List.mem_cons.1 hB with h | h
        · exact absurd h.symm hab
        · exact h
      have h1 : f a ≠ f B := hp.1 B hBt
      have h2 := ih hp.2 hBt
      have h3 : (a :: t).filter (fun b => f b ≠ f B) = a :: t.filter (fun b => f b ≠ f B) := by
        simp [h1]
      rw [h3]
      exact (List.Perm.cons a h2).trans (List.Perm.swap B a _)

theorem live_distinct {L : Layout} {m : Mem} {r : Nat} {fr live : List Blk} (hQ : 0 < L.Q)
    (H : Heap L m r fr live) : List.Pairwise (fun a b => payload L a ≠ payload L b) live := by
  have h1 := (List.pairwise_append.1 H.disj).2.1
  have h2 : List.Pairwise (fun a b : Blk => Disj a b ∧ (1 ≤ a.2 ∧ 1 ≤ b.2)) live := by
    refine h1.and ?_
    rw [List.pairwise_iff_forall_sublist]
    intro a b hab
    have ha : a ∈ live := hab.subset (by simp)
    have hb : b ∈ live := hab.subset (by simp)
    exact ⟨H.pos a (by simp [ha]), H.pos b (by simp [hb])⟩
  refine h2.imp ?_
  intro a b ⟨hd, ha, hb⟩ he
  unfold payload at he
  have : addr L a.1 = addr L b.1 := by omega
  have := (addr_inj hQ).1 this
  unfold Disj at hd
  omega

/-- A call of `invisible_pool_alloc` for at most `INVISIBLE_POOL_SIZE` bytes
in a well-formed state returns, in one of the three ways. -/
theorem inv_alloc {L : Layout} {st : State × List Nat} {n fuel : Nat} (hL : LayoutOK L)
    (hA : SentinelApart L) (hfuel : FUEL ≤ fuel) (I : RunInv L st)
    (hn : n ≤ INVISIBLE_POOL_SIZE) :
    ∃ fr live N, Rep L (alloc_init L st.1) fr live N ∧ st.2 = live.map (payload L) ∧
      ((st.1.invisible_free_p = 0 ∧ fr = []) ∨ alloc_init L st.1 = st.1) ∧
      ∃ s2 p, invisible_pool_alloc L fuel st.1 n = some (s2, p) ∧
        AllocOutcome L (alloc_init L st.1) fr live N (num_quantas_of L n) s2 p := by
  obtain ⟨fr, live, N, R, hlv, hc⟩ := init_cases hL I
  obtain ⟨_, hnq1, hnw, _, _⟩ := nq_of_le hL hn
  have hlen := rep_len hL.1 R
  obtain ⟨s2, p, hrun, hout⟩ := rep_alloc_loop hL hA R hnq1 hnw fuel (by unfold FUEL at hfuel; omega)
  exact ⟨fr, live, N, R, hlv, hc, s2, p, hrun, hout⟩

theorem outcome_inv {L : Layout} {s0 s2 : State} {fr live : List Blk} {N nq p : Nat}
    {lv : List Nat} (hQ : 0 < L.Q) (R : Rep L s0 fr live N) (hlv : lv = live.map (payload L))
    (h : AllocOutcome L s0 fr live N nq s2 p) :
    RunInv L (s2, if p = 0 then lv else p :: lv) := by
  rcases h with ⟨hp, hs, _, _⟩ | ⟨fr2, o, hp, R2, _⟩ | ⟨fr2, o, hp, R2, _⟩
  · rw [hp, hs]
    exact Or.inr ⟨fr, live, N, R, by simp [hlv]⟩
  · have hp0 : p ≠ 0 := by rw [hp]; omega
    refine Or.inr ⟨fr2, (o, nq) :: live, N, R2, ?_⟩
    simp only [hp0, if_false]
    rw [hlv, hp]; rfl
  · have hp0 : p ≠ 0 := by rw [hp]; omega
    refine Or.inr ⟨fr2, (o, nq) :: live, _, R2, ?_⟩
    simp only [hp0, if_false]
    rw [hlv, hp]; rfl

/-- A call of `invisible_pool_free` on a live pointer returns and keeps the
invariant. -/
theorem inv_free {L : Layout} {st : State × List Nat} {p fuel : Nat} (hL : LayoutOK L)
    (hfuel : FUEL ≤ fuel) (I : RunInv L st) (hp : p ∈ st.2) :
    ∃ fr live N B lv2 s2 fr2, Rep L st.1 fr live N ∧ st.2 = live.map (payload L) ∧
      B ∈ live ∧ payload L B = p ∧ List.Perm live (B :: lv2) ∧
      lv2 = live.filter (fun b => payload L b ≠ p) ∧
      invisible_pool_free L fuel st.1 p = some s2 ∧ Rep L s2 fr2 lv2 N ∧
      sizes fr2 = sizes fr + B.2 ∧
      (∀ q, Cov fr2 q ↔ Cov fr q ∨ (B.1 ≤ q ∧ q < B.1 + B.2)) ∧
      st.2.filter (fun x => x ≠ p) = lv2.map (payload L) := by
  rcases I with ⟨_, _, hlv⟩ | ⟨fr, live, N, R, hlv⟩
  · rw [hlv] at hp; simp at hp
  · rw [hlv] at hp
    obtain ⟨B, hB, hBp⟩ := List.mem_map.1 hp
    have hperm := perm_filter_ne (f := payload L) live (live_distinct hL.1 R.heap) hB
    rw [hBp] at hperm
    obtain ⟨s2, fr2, hrun, R2, hsz, hcov, _⟩ := rep_free hL.1 R hperm
    have hlen := rep_len hL.1 R
    refine ⟨fr, live, N, B, _, s2, fr2, R, hlv, hB, hBp, hperm, rfl, ?_, R2, hsz, hcov, ?_⟩
    · rw [← hBp]
      exact hrun fuel (by unfold FUEL at hfuel; omega)
    · rw [hlv, List.filter_map]
      rfl

/-- Every legal call returns and keeps the invariant of call sequences. -/
theorem inv_step {L : Layout} {st : State × List Nat} {op : Op} {fuel : Nat} (hL : LayoutOK L)
    (hA : SentinelApart L) (hfuel : FUEL ≤ fuel) (I : RunInv L st) (hleg : legal st.2 op) :
    ∃ st2, step L fuel st op = some st2 ∧ RunInv L st2 := by
  cases op with
  | alloc n =>
    obtain ⟨fr, live, N, R, hlv, _, s2, p, hrun, hout⟩ := inv_alloc hL hA hfuel I hleg
    refine ⟨(s2, if p = 0 then st.2 else p :: st.2), ?_, outcome_inv hL.1 R hlv hout⟩
    simp [step, hrun]
  | free p =>
    obtain ⟨fr, live, N, B, lv2, s2, fr2, R, hlv, hB, hBp, hperm, _, hrun, R2, _, _, hf⟩ :=
      inv_free hL hfuel I hleg
    refine ⟨(s2, st.2.filter (fun x => x ≠ p)), ?_, Or.inr ⟨fr2, lv2, N, R2, hf⟩⟩
    simp [step, hrun]

theorem zero_inv (L : Layout) : RunInv L (zeroState, []) := Or.inl ⟨rfl, rfl, rfl⟩

/-- The invariant holds after every sequence of legal calls. -/
theorem run_inv {L : Layout} {fuel : Nat} (hL : LayoutOK L) (hA : SentinelApart L)
    (hfuel : FUEL ≤ fuel) :
    ∀ (ops : List Op) (st st2 : State × List Nat), RunInv L st →
      run L fuel st ops = some st2 → RunInv L st2 := by
  intro ops
  induction ops with
  | nil =>
    intro st st2 I h
    simp only [run, Option.some.injEq] at h
    rw [← h]; exact I
  | cons op ops ih =>
    intro st st2 I h
    by_cases hleg : legal st.2 op
    · obtain ⟨st3, hs, I3⟩ := inv_step hL hA hfuel I hleg
      simp only [run, hleg, if_true, hs] at h
      exact ih st3 st2 I3 h
    · simp [run, hleg] at h

theorem walk_chain {m : Mem} {base : Nat} (k : Nat) :
    ∀ (xs : List Nat) (p0 : Nat), List.Chain' (NextRel m) (p0 :: xs ++ [base]) → base ∉ xs →
      walk m base (xs.length + 1 + k) (m p0).next = xs := by
  intro xs
  induction xs with
  | nil =>
    intro p0 h _
    have h2 : List.Chain' (NextRel m) [p0, base] := h
    have h1 : NextRel m p0 base := List.chain'_pair.1 h2
    unfold NextRel at h1
    have e : ([] : List Nat).length + 1 + k = k + 1 := by simp; omega
    rw [e, h1]
    simp [walk]
  | cons x t ih =>
    intro p0 h hb
    rw [List.cons_append, List.cons_append, List.chain'_cons] at h
    have h1 : (m p0).next = x := h.1
    have hx : x ≠ base := fun e => hb (by simp [e])
    have e : (x :: t).length + 1 + k = (t.length + 1 + k) + 1 := by simp; omega
    rw [e, h1]
    simp only [walk, hx, if_false]
    rw [ih x h.2 (fun hm => hb (List.mem_cons_of_mem _ hm))]

/-- In a well-formed state the nodes after the sentinel are the headers of
the free blocks. -/
theorem freeNodes_rep {L : Layout} {s : State} {fr live : List Blk} {N fuel : Nat}
    (hL : LayoutOK L) (R : Rep L s fr live N) (hfuel : FUEL ≤ fuel) :
    freeNodes L fuel s = nodes L fr := by
  have h0 : s.invisible_free_p ≠ 0 := by
    rcases List.mem_cons.1 R.heap.rover with h | h
    · rw [h]; have := hL.2.1; omega
    · obtain ⟨b, _, h2⟩ := mem_nodes.1 h
      rw [← h2]; unfold addr; have := hL.2.2.1; omega
  have hlen := rep_len hL.1 R
  have hnd := nodes_nodup hL.1 R.heap.gaps (fun b hb => R.heap.startOK b (by simp [hb]))
  have hl : (nodes L fr).length = fr.length := by simp [nodes]
  obtain ⟨k, hk⟩ : ∃ k, fuel = (nodes L fr).length + 1 + k :=
    ⟨fuel - ((nodes L fr).length + 1), by unfold FUEL at hfuel; omega⟩
  unfold freeNodes
  rw [if_neg h0, hk]
  exact walk_chain k (nodes L fr) L.base R.heap.links (List.nodup_cons.1 hnd).1

theorem sum_node_sizes {L : Layout} {m : Mem} :
    ∀ l : List Blk, (∀ b ∈ l, (m (addr L b.1)).size = b.2) →
      ((nodes L l).map (fun a => (m a).size)).sum = sizes l := by
  intro l
  induction l with
  | nil => intro _; rfl
  | cons a t ih =>
    intro h
    simp only [nodes_cons, List.map_cons, List.sum_cons, sizes_cons]
    rw [ih (fun b hb => h b (List.mem_cons_of_mem _ hb)), h a (List.mem_cons_self _ _)]

theorem sum_live_sizes {L : Layout} {m : Mem} :
    ∀ l : List Blk, (∀ b ∈ l, (m (addr L b.1)).size = b.2) →
      ((l.map (payload L)).map (fun p => (m (p - L.Q)).size)).sum = sizes l := by
  intro l
  induction l with
  | nil => intro _; rfl
  | cons a t ih =>
    intro h
    simp only [List.map_cons, List.sum_cons, sizes_cons]
    rw [ih (fun b hb => h b (List.mem_cons_of_mem _ hb))]
    simp only [payload, Nat.add_sub_cancel]
    rw [h a (List.mem_cons_self _ _)]

theorem getD_of_isSome {α : Type} (o : Option α) (d : α) (h : o.isSome = true) :
    o = some (o.getD d) := by
  cases o with
  | none => simp at h
  | some x => rfl

theorem exRun : run layout64 FUEL (zeroState, []) exOps = some (exState.1, exState.2) :=
  getD_of_isSome (run layout64 FUEL (zeroState, []) exOps) (zeroState, []) (by decide)

theorem layout64_ok : LayoutOK layout64 := by decide

theorem layout64_apart : SentinelApart layout64 := by decide

theorem minted_eq_max (nq : Nat) : minted nq = max nq 16 := by
  unfold minted MIN_INVISIBLE_POOL_ALLOC_QUANTAS
  split <;> omega

theorem wf_inv {L : Layout} {s : State} (h : WF L s) : ∃ lv, RunInv L (s, lv) := by
  rcases h with ⟨h0, hp⟩ | ⟨fr, live, N, R⟩
  · exact ⟨[], Or.inl ⟨h0, hp, rfl⟩⟩
  · exact ⟨live.map (payload L), Or.inr ⟨fr, live, N, R, rfl⟩⟩

theorem inv_wf {L : Layout} {st : State × List Nat} (h : RunInv L st) : WF L st.1 := by
  rcases h with ⟨h0, hp, _⟩ | ⟨fr, live, N, R, _⟩
  · exact Or.inl ⟨h0, hp⟩
  · exact Or.inr ⟨fr, live, N, R⟩

theorem alloc_init_pos (L : Layout) (s : State) :
    (alloc_init L s).invisible_pool_free_pos = s.invisible_pool_free_pos := by
  unfold alloc_init
  split <;> rfl

/-- The free blocks seen from the sentinel before a call of
`invisible_pool_alloc` are those of the state after its first-call
initialisation. -/
theorem freeNodes_init {L : Layout} {s : State} {fr live : List Blk} {N fuel : Nat}
    (hL : LayoutOK L) (hfuel : FUEL ≤ fuel) (R : Rep L (alloc_init L s) fr live N)
    (hc : (s.invisible_free_p = 0 ∧ fr = []) ∨ alloc_init L s = s) :
    freeNodes L fuel s = nodes L fr ∧ ∀ b ∈ fr, (s.mem (addr L b.1)).size = b.2 := by
  rcases hc with ⟨h0, hfr⟩ | he
  · subst hfr
    exact ⟨by simp [freeNodes, h0], by simp⟩
  · rw [he] at R
    exact ⟨freeNodes_rep hL R hfuel, fun b hb => R.heap.sizes b (by simp [hb])⟩

theorem wrap_up (base : Nat) :
    ∀ (F : List Nat) (h : Nat), List.Pairwise (fun a b => a < b) F → (∀ x ∈ F, h < x) →
      base ≤ h → wrapEdges (h :: F ++ [base]) = 1 := by
  intro F
  induction F with
  | nil =>
    intro h _ _ hb
    simp [wrapEdges, hb]
  | cons x t ih =>
    intro h hp hx hb
    rw [List.pairwise_cons] at hp
    have h1 := hx x (List.mem_cons_self _ _)
    have h2 : ¬ h ≥ x := by omega
    have h3 := ih x hp.2 hp.1 (by omega)
    simp only [List.cons_append] at h3 ⊢
    simp only [wrapEdges, h2, if_false, Nat.zero_add]
    exact h3

theorem wrap_none (base : Nat) :
    ∀ (F : List Nat) (h : Nat), List.Pairwise (fun a b => a < b) F → (∀ x ∈ F, h < x) →
      (∀ x ∈ F, x < base) → h < base → wrapEdges (h :: F ++ [base]) = 0 := by
  intro F
  induction F with
  | nil =>
    intro h _ _ _ hb
    have h2 : ¬ h ≥ base := by omega
    simp [wrapEdges, h2]
  | cons x t ih =>
    intro h hp hx hlt hb
    rw [List.pairwise_cons] at hp
    have h1 := hx x (List.mem_cons_self _ _)
    have h2 : ¬ h ≥ x := by omega
    have h3 := ih x hp.2 hp.1 (fun y hy => hlt y (List.mem_cons_of_mem _ hy))
      (hlt x (List.mem_cons_self _ _))
    simp only [List.cons_append] at h3 ⊢
    simp only [wrapEdges, h2, if_false, Nat.zero_add]
    exact h3

/-- The free list of a well-formed, initialised state is a sorted cycle. -/
theorem sorted_rep {L : Layout} {s : State} {fr live : List Blk} {N fuel : Nat}
    (hL : LayoutOK L) (R : Rep L s fr live N) (hfuel : FUEL ≤ fuel) :
    SortedCycle L fuel s := by
  have hQ := hL.1
  have hst : ∀ b ∈ fr, StartOK L b.1 := fun b hb => R.heap.startOK b (by simp [hb])
  have hnd := nodes_nodup hQ R.heap.gaps hst
  have hsorted : List.Pairwise (fun a b => a < b) (nodes L fr) := by
    unfold nodes
    rw [List.pairwise_map]
    refine R.heap.gaps.imp ?_
    intro a b hab
    exact (addr_lt hQ).2 (by omega)
  unfold SortedCycle
  rw [freeNodes_rep hL R hfuel]
  refine ⟨R.heap.links, (List.nodup_cons.1 hnd).1, hsorted, ?_⟩
  by_cases hlow : L.base < L.pool
  · refine wrap_up L.base (nodes L fr) L.base hsorted ?_ (le_refl _)
    intro x hx
    obtain ⟨b, _, rfl⟩ := mem_nodes.1 hx
    unfold addr; omega
  · have hhigh : ∀ x ∈ nodes L fr, x < L.base := by
      intro x hx
      obtain ⟨b, hb, rfl⟩ := mem_nodes.1 hx
      rcases hst b hb with h | h
      · exact absurd h hlow
      · exact h
    cases hF : nodes L fr with
    | nil => simp [wrapEdges]
    | cons x t =>
      rw [hF] at hsorted hhigh
      have hx := hhigh x (List.mem_cons_self _ _)
      have h2 : L.base ≥ x := by omega
      have hp := List.pairwise_cons.1 hsorted
      have h3 := wrap_none L.base t x hp.2 hp.1
        (fun y hy => hhigh y (List.mem_cons_of_mem _ hy)) hx
      simp only [List.cons_append] at h3 ⊢
      simp only [wrapEdges, h2, if_true, h3]

/-- In a well-formed state no free block is followed by a node of the list. -/
theorem nonadj_rep {L : Layout} {s : State} {fr live : List Blk} {N fuel : Nat}
    (hL : LayoutOK L) (R : Rep L s fr live N) (hfuel : FUEL ≤ fuel) :
    NoAdjacent L fuel s := by
  have hQ := hL.1
  unfold NoAdjacent
  rw [freeNodes_rep hL R hfuel]
  intro a ha hmem
  obtain ⟨b, hb, rfl⟩ := mem_nodes.1 ha
  rw [R.heap.sizes b (by simp [hb]), addr_add] at hmem
  rcases List.mem_cons.1 hmem with h | h
  · exact R.heap.endOK b (by simp [hb]) h
  · obtain ⟨c, hc, hce⟩ := mem_nodes.1 h
    have h1 := (addr_inj hQ).1 hce
    have hbpos := R.heap.pos b (by simp [hb])
    have hcpos := R.heap.pos c (by simp [hc])
    by_cases hbc : c = b
    · rw [hbc] at h1; omega
    · have hsym : Symmetric (fun a b : Blk => a.1 + a.2 < b.1 ∨ b.1 + b.2 < a.1) :=
        fun _ _ h => Or.symm h
      have h2 := (R.heap.gaps.imp (fun {a b} (h : a.1 + a.2 < b.1) =>
        (Or.inl h : a.1 + a.2 < b.1 ∨ b.1 + b.2 < a.1))).forall hsym hc hb hbc
      omega

/-- Every legal call returns and leaves a state that satisfies the allocator
invariant with the sentinel set up. -/
theorem inv_step_rep {L : Layout} {st : State × List Nat} {op : Op} {fuel : Nat}
    (hL : LayoutOK L) (hA : SentinelApart L) (hfuel : FUEL ≤ fuel) (I : RunInv L st)
    (hleg : legal st.2 op) :
    ∃ st2, step L fuel st op = some st2 ∧
      ∃ fr live N, Rep L st2.1 fr live N ∧ st2.2 = live.map (payload L) := by
  obtain ⟨st2, hs, I2⟩ := inv_step hL hA hfuel I hleg
  refine ⟨st2, hs, ?_⟩
  rcases I2 with ⟨h0, _, _⟩ | h
  · exfalso
    cases op with
    | alloc n =>
      obtain ⟨fr, live, N, R, hlv, _, s2, p, hrun, hout⟩ := inv_alloc hL hA hfuel I hleg
      have e : st2 = (s2, if p = 0 then st.2 else p :: st.2) := by
        simp [step, hrun] at hs; exact hs.symm
      have hr : ∀ (t : State) fr2 lv2 N2, Rep L t fr2 lv2 N2 → t.invisible_free_p ≠ 0 := by
        intro t fr2 lv2 N2 R2
        rcases List.mem_cons.1 R2.heap.rover with h | h
        · rw [h]; have := hL.2.1; omega
        · obtain ⟨b, _, h2⟩ := mem_nodes.1 h
          rw [← h2]; unfold addr; have := hL.2.2.1; omega
      rw [e] at h0
      rcases hout with ⟨_, hs2, _⟩ | ⟨fr2, o, _, R2, _⟩ | ⟨fr2, o, _, R2, _⟩
      · rw [hs2] at h0; exact hr _ _ _ _ R h0
      · exact hr _ _ _ _ R2 h0
      · exact hr _ _ _ _ R2 h0
    | free p =>
      obtain ⟨fr, live, N, B, lv2, s2, fr2, R, _, _, _, _, _, hrun, R2, _⟩ :=
        inv_free hL hfuel I hleg
      have e : st2.1 = s2 := by
        simp only [step, hrun, Option.some.injEq] at hs
        rw [← hs]
      rw [e] at h0
      rcases List.mem_cons.1 R2.heap.rover with h | h
      · rw [h] at h0; have := hL.2.1; omega
      · obtain ⟨b, _, h2⟩ := mem_nodes.1 h
        rw [← h2] at h0; unfold addr at h0; have := hL.2.2.1; omega
  · exact h

/-- After a non-empty sequence of legal calls the sentinel is set up and the
allocator invariant holds. -/
theorem run_rep {L : Layout} {fuel : Nat} (hL : LayoutOK L) (hA : SentinelApart L)
    (hfuel : FUEL ≤ fuel) (ops : List Op) (hne : ops ≠ []) (st st2 : State × List Nat)
    (I : RunInv L st) (hrun : run L fuel st ops = some st2) :
    ∃ fr live N, Rep L st2.1 fr live N ∧ st2.2 = live.map (payload L) := by
  induction ops generalizing st with
  | nil => exact absurd rfl hne
  | cons op rest ih =>
    by_cases hleg : legal st.2 op
    · obtain ⟨st3, hs, fr, live, N, R, hlv⟩ := inv_step_rep hL hA hfuel I hleg
      simp only [run, hleg, if_true, hs] at hrun
      cases rest with
      | nil =>
        simp only [run, Option.some.injEq] at hrun
        rw [← hrun]
        exact ⟨fr, live, N, R, hlv⟩
      | cons op2 rest2 =>
        exact ih (by simp) st3 (Or.inr ⟨fr, live, N, R, hlv⟩) hrun
    · simp [run, hleg] at hrun

theorem abutRun :
    run abutLayout FUEL (zeroState, []) abutOps = some (abutState.1, abutState.2) :=
  getD_of_isSome (run abutLayout FUEL (zeroState, []) abutOps) (zeroState, []) (by decide)

/-- From a node that points at itself no chain of links reaches another node. -/
theorem no_return {m : Mem} {a base : Nat} (ha : (m a).next = a) (hne : a ≠ base) :
    ∀ F : List Nat, ¬ List.Chain' (NextRel m) (a :: F ++ [base]) := by
  intro F
  induction F with
  | nil =>
    intro h
    have h2 : List.Chain' (NextRel m) [a, base] := h
    have h1 : NextRel m a base := List.chain'_pair.1 h2
    unfold NextRel at h1
    rw [ha] at h1
    exact hne h1
  | cons x t ih =>
    intro h
    rw [List.cons_append, List.cons_append, List.chain'_cons] at h
    have h1 : (m a).next = x := h.1
    rw [ha] at h1
    rw [← h1] at h
    exact ih h.2

/-! ## Requests of any size -/

/-- The block that holds a freed block after `invisible_pool_free`. -/
theorem freeIns_big (F1 : List Blk) (B : Blk) (F2 : List Blk) :
    ∃ b ∈ freeIns F1 B F2, b.1 ≤ B.1 ∧ B.1 + B.2 ≤ b.1 + b.2 := by
  unfold freeIns
  rcases mergeUp_cases B F2 with hu | ⟨c, t, e, h1, hu⟩ <;>
    rcases mergeDown_cases F1 (mergeUp B F2).1 with hd | ⟨G, a, e2, h2, hd⟩
  · rw [hd, hu]
    exact ⟨B, by simp, le_refl _, le_refl _⟩
  · rw [hd, hu]
    rw [hu] at h2
    simp only at h2
    exact ⟨(a.1, a.2 + B.2), by simp, by simp only; omega, by simp only; omega⟩
  · rw [hd, hu]
    exact ⟨(B.1, B.2 + c.2), by simp, by simp only; omega, by simp only; omega⟩
  · rw [hd, hu]
    rw [hu] at h2
    simp only at h2
    exact ⟨(a.1, a.2 + (B.2 + c.2)), by simp, by simp only; omega, by simp only; omega⟩

theorem freeIns_length (F1 : List Blk) (B : Blk) (F2 : List Blk) :
    (freeIns F1 B F2).length ≤ (F1 ++ F2).length + 1 := by
  unfold freeIns
  rcases mergeUp_cases B F2 with hu | ⟨c, t, e, h1, hu⟩ <;>
    rcases mergeDown_cases F1 (mergeUp B F2).1 with hd | ⟨G, a, e2, h2, hd⟩
  · rw [hd, hu]; simp; omega
  · rw [hd, hu, e2]; simp
  · rw [hd, hu, e]; simp
  · rw [hd, hu, e, e2]; simp; omega

theorem allocTake_length (nq : Nat) (F1 : List Blk) (b : Blk) (F2 : List Blk) :
    (allocTake nq F1 b F2).1.length ≤ (F1 ++ b :: F2).length := by
  unfold allocTake
  split <;> simp

theorem allocTake_size (nq : Nat) (F1 : List Blk) (b : Blk) (F2 : List Blk) :
    (allocTake nq F1 b F2).2 = ((allocTake nq F1 b F2).2.1, nq) := by
  unfold allocTake
  split
  · next h => exact Prod.ext rfl h
  · rfl

/-- What a taken block returns: a non-null pointer, the cursor untouched. -/
theorem alloc_take_ret (L : Layout) (hQ : 0 < L.Q) (nq : Nat) (s : State) (prev p : Nat) :
    (alloc_take L nq s prev p).2 ≠ 0 ∧
      (alloc_take L nq s prev p).1.invisible_pool_free_pos = s.invisible_pool_free_pos := by
  unfold alloc_take
  split
  · exact ⟨by simp only; omega, rfl⟩
  · exact ⟨by simp only; omega, rfl⟩

/-- The size computation of line 70 for any request, when a header has at
least two bytes: the result is neither zero nor near the word size. -/
theorem nq_any {L : Layout} (hL : LayoutOK L) (h2 : 2 ≤ L.Q) (n : Nat) :
    1 ≤ num_quantas_of L n ∧ INVISIBLE_POOL_SIZE + minted (num_quantas_of L n) < wordMod L := by
  have hW := wordMod_big hL
  have hlt : (n + L.Q - 1) % wordMod L < wordMod L := Nat.mod_lt _ (by omega)
  have h3 : (n + L.Q - 1) % wordMod L / L.Q ≤ (n + L.Q - 1) % wordMod L / 2 :=
    Nat.div_le_div_left h2 (by omega)
  have h4 : ((n + L.Q - 1) % wordMod L / L.Q + 1) % wordMod L
      = (n + L.Q - 1) % wordMod L / L.Q + 1 := Nat.mod_eq_of_lt (by omega)
  unfold num_quantas_of
  rw [h4, minted_eq_max]
  refine ⟨Nat.le_add_left _ _, ?_⟩
  rcases Nat.le_total ((n + L.Q - 1) % wordMod L / L.Q + 1) 16 with h | h
  · rw [max_eq_right h]; omega
  · rw [max_eq_left h]; omega

/-- The helper `get_invisible_mem_from_pool` for any block size, when no free
block is large enough: if it returns a pointer, that is the rover, and the
last free block is the only one large enough. -/
theorem mint_any {L : Layout} {s : State} {fr live : List Blk} {N nq : Nat}
    (hL : LayoutOK L) (hA : SentinelApart L) (hbase : L.base < wordMod L)
    (R : Rep L s fr live N) (hnq : 1 ≤ nq) (hsm : INVISIBLE_POOL_SIZE + minted nq < wordMod L)
    (hsmall : ∀ b ∈ fr, b.2 < nq) :
    ∀ fuel, fr.length + 1 ≤ fuel →
      ∃ s3 r, get_invisible_mem_from_pool L fuel s nq = some (s3, r) ∧
        (r ≠ 0 → r = s3.invisible_free_p ∧
          ∃ G b, Heap L s3.mem s3.invisible_free_p (G ++ [b]) live ∧ nq ≤ b.2 ∧
            (∀ x ∈ G, x.2 < nq) ∧ (b.2 ≠ nq → StartOK L (b.1 + (b.2 - nq))) ∧
            G.length ≤ fr.length) := by
  intro fuel hfuel
  obtain ⟨hQ, hb0, hp0, hW⟩ := hL
  have hWd : wordMod L = 2 ^ L.wbits := rfl
  have hcap := R.cap
  have hNle : N ≤ L.Q * N := Nat.le_mul_of_pos_left _ hQ
  unfold minted at hsm
  unfold get_invisible_mem_from_pool
  generalize hnq2 : (if nq < MIN_INVISIBLE_POOL_ALLOC_QUANTAS then
      MIN_INVISIBLE_POOL_ALLOC_QUANTAS else nq) = nq2 at hsm ⊢
  have hnq2le : nq ≤ nq2 := by
    rw [← hnq2]; split <;> omega
  have hnq2pos : 1 ≤ nq2 := by omega
  have hcases : nq2 = nq ∨ (nq < 16 ∧ nq2 = 16) := by
    rw [← hnq2]; unfold MIN_INVISIBLE_POOL_ALLOC_QUANTAS; split <;> omega
  simp only [R.fpos]
  by_cases hchk : (L.Q * N + nq2 * L.Q % wordMod L) % wordMod L ≤ INVISIBLE_POOL_SIZE
  swap
  · simp only [hchk, if_false]
    exact ⟨s, 0, rfl, fun h => absurd rfl h⟩
  simp only [hchk, if_true]
  have hmul : nq2 * L.Q = L.Q * nq2 := Nat.mul_comm _ _
  have hlw : L.Q * N + nq2 * L.Q ≤ INVISIBLE_POOL_SIZE ∨ wordMod L ≤ L.Q * N + nq2 * L.Q := by
    by_contra hcon
    have h1 : L.Q * N + nq2 * L.Q < wordMod L := by omega
    have h2 : nq2 * L.Q % wordMod L = nq2 * L.Q := Nat.mod_eq_of_lt (by omega)
    have h3 : (L.Q * N + nq2 * L.Q) % wordMod L = L.Q * N + nq2 * L.Q := Nat.mod_eq_of_lt h1
    rw [h2, h3] at hchk
    omega
  have hNQ : L.Q * (N + nq2) = L.Q * N + nq2 * L.Q := by rw [Nat.mul_add, hmul]
  have hst : StartOK L N := startOK_of_le hA hQ (by omega)
  have hen : EndOK L (N + nq2) := by
    rcases hlw with h | h
    · exact (startOK_of_le hA hQ (by omega) : StartOK L (N + nq2)).ne
    · unfold EndOK addr
      omega
  have hsplit : StartOK L (N + (nq2 - nq)) := by
    rcases hcases with h | ⟨h1, h2⟩
    · rw [h]; simpa using hst
    · subst h2
      have h16 : 16 * L.Q % wordMod L = 16 * L.Q := Nat.mod_eq_of_lt (by omega)
      have h3 : (L.Q * N + 16 * L.Q) % wordMod L = L.Q * N + 16 * L.Q :=
        Nat.mod_eq_of_lt (by omega)
      rw [h16, h3] at hchk
      refine startOK_of_le hA hQ ?_
      have : L.Q * (N + (16 - nq)) ≤ L.Q * (N + 16) := Nat.mul_le_mul_left _ (by omega)
      omega
  obtain ⟨m1, hm1⟩ : ∃ m1 : Mem,
      m1 = upd s.mem (addr L N) { s.mem (addr L N) with size := nq2 } := ⟨_, rfl⟩
  have H1 : Heap L m1 s.invisible_free_p fr ((N, nq2) :: live) := by
    refine heap_add_live (B := (N, nq2)) hQ R.heap hst hen hnq2pos (by simp only; omega) ?_
      (fun x hx => by rw [hm1]; exact upd_other _ _ hx) (by rw [hm1]; simp)
    intro x hx
    have := R.within x hx
    unfold Disj; simp only; omega
  obtain ⟨F1, F2, e, h1, h2, hrun, H2⟩ := heap_free_state
    (s := { s with mem := m1 }) hQ H1
  have hF2 : F2 = [] := by
    cases F2 with
    | nil => rfl
    | cons c t =>
      have h3 := h2 c (List.mem_cons_self _ _)
      have h4 := R.within c (by rw [e]; simp)
      have h5 := R.heap.pos c (by rw [e]; simp)
      simp only at h3
      omega
  subst hF2
  simp only [List.append_nil] at e
  subst e
  have hfi : freeIns fr (N, nq2) [] = mergeDown fr (N, nq2) := by
    simp [freeIns, mergeUp]
  rw [hfi] at H2
  have hr := hrun fuel hfuel
  have ha : L.pool + L.Q * N = addr L N := rfl
  rw [ha, ← hm1]
  simp only [R.fpos] at hr
  rw [hr]
  refine ⟨_, _, rfl, fun _ => ⟨rfl, ?_⟩⟩
  simp only
  rcases mergeDown_cases fr (N, nq2) with h | ⟨G, a, e2, h3, h⟩
  · rw [h] at H2
    refine ⟨fr, (N, nq2), H2, hnq2le, hsmall, fun _ => ?_, le_refl _⟩
    exact hsplit
  · rw [h] at H2
    simp only at h3
    refine ⟨G, (a.1, a.2 + nq2), H2, by simp only; omega, ?_, fun _ => ?_, ?_⟩
    · intro x hx
      exact hsmall x (by rw [e2]; simp [hx])
    · have : a.1 + (a.2 + nq2 - nq) = N + (nq2 - nq) := by omega
      simp only
      rw [this]
      exact hsplit
    · rw [e2]; simp

/-- The search loop of `invisible_pool_alloc` on a well-formed state for any
block size: it returns, and a non-null result is the payload of a new live
block of `nq` quanta in a heap. -/
theorem alloc_any {L : Layout} {s : State} {fr live : List Blk} {N nq : Nat}
    (hL : LayoutOK L) (hA : SentinelApart L) (hbase : L.base < wordMod L)
    (R : Rep L s fr live N) (hnq : 1 ≤ nq) (hsm : INVISIBLE_POOL_SIZE + minted nq < wordMod L) :
    ∀ fuel, 2 * fr.length + 6 ≤ fuel →
      ∃ s1 p, alloc_loop L nq fuel s s.invisible_free_p (s.mem s.invisible_free_p).next
          = some (s1, p) ∧
        (p ≠ 0 → ∃ fr1 o, p = addr L o + L.Q ∧
          Heap L s1.mem s1.invisible_free_p fr1 ((o, nq) :: live) ∧
          fr1.length ≤ fr.length + 1) := by
  intro fuel hfuel
  have hQ := hL.1
  rcases alloc_search R.heap hQ hnq with ⟨F1, b, F2, e, hle, hrun⟩ | ⟨hsmall, hrun⟩
  · subst e
    obtain ⟨fr2, o, R2, hret, _, hfr2, _⟩ := rep_take hQ hA R hnq hle
    refine ⟨_, _, hrun fuel (by omega), fun _ => ⟨fr2, o, hret, R2.heap, ?_⟩⟩
    rw [hfr2]
    have := allocTake_length nq F1 b F2
    omega
  · obtain ⟨k, rfl⟩ : ∃ k, fuel = k + 1 + fr.length := ⟨fuel - 1 - fr.length, by omega⟩
    rw [hrun k]
    unfold alloc_refill
    obtain ⟨s3, r, hget, hr⟩ := mint_any hL hA hbase R hnq hsm hsmall (k + 1) (by omega)
    rw [hget]
    by_cases hr0 : r = 0
    · simp only [hr0, if_true]
      exact ⟨s3, 0, rfl, fun h => absurd rfl h⟩
    · simp only [hr0, if_false]
      obtain ⟨hrr, G, b, H3, hble, hG, hsp, hlen⟩ := hr hr0
      rw [hrr]
      rcases alloc_search H3 hQ hnq with ⟨F1, b2, F2, e, hle, hrun3⟩ | ⟨hsmall3, _⟩
      · have hb2 : b2 = b := by
          have hm : b2 ∈ G ++ [b] := by rw [e]; simp
          rcases List.mem_append.1 hm with h | h
          · have := hG b2 h; omega
          · simpa using h
        rw [e] at H3
        have hlen2 : (F1 ++ b2 :: F2).length = G.length + 1 := by rw [← e]; simp
        obtain ⟨H4, hrov, _, hret⟩ := heap_take hQ H3 hnq hle (by rw [hb2]; exact hsp)
        have hrun4 := hrun3 k (by rw [e, hlen2]; omega)
        obtain ⟨T, hT⟩ : ∃ T, T = alloc_take L nq s3 (predNode L F1) (addr L b2.1) := ⟨_, rfl⟩
        rw [← hT] at H4 hrov hret hrun4
        refine ⟨T.1, T.2, hrun4, fun _ =>
          ⟨(allocTake nq F1 b2 F2).1, (allocTake nq F1 b2 F2).2.1, hret, ?_, ?_⟩⟩
        · rw [hrov, ← allocTake_size]; exact H4
        · have := allocTake_length nq F1 b2 F2
          omega
      · have := hsmall3 b (by simp)
        omega

/-- In a heap the nodes after the sentinel are the headers of the free
blocks. -/
theorem freeNodes_heap {L : Layout} {s : State} {fr live : List Blk} {fuel : Nat}
    (hQ : 0 < L.Q) (h0 : s.invisible_free_p ≠ 0)
    (H : Heap L s.mem s.invisible_free_p fr live) (hfuel : fr.length + 1 ≤ fuel) :
    freeNodes L fuel s = nodes L fr := by
  have hnd := nodes_nodup hQ H.gaps (fun b hb => H.startOK b (by simp [hb]))
  have hl : (nodes L fr).length = fr.length := by simp [nodes]
  obtain ⟨k, hk⟩ : ∃ k, fuel = (nodes L fr).length + 1 + k :=
    ⟨fuel - ((nodes L fr).length + 1), by omega⟩
  unfold freeNodes
  rw [if_neg h0, hk]
  exact walk_chain k (nodes L fr) L.base H.links (List.nodup_cons.1 hnd).1

/-- Freeing the block just handed out puts a block at least as large on the
free list, and the next search for the same size takes a block from the list. -/
theorem heap_round {L : Layout} {s1 : State} {fr1 live : List Blk} {o nq : Nat}
    (hQ : 0 < L.Q) (hb0 : 0 < L.base) (hp0 : 0 < L.pool) (hnq : 1 ≤ nq)
    (H : Heap L s1.mem s1.invisible_free_p fr1 ((o, nq) :: live)) :
    ∃ s2 fr2, (∀ fuel, fr1.length + 1 ≤ fuel →
        invisible_pool_free L fuel s1 (addr L o + L.Q) = some s2) ∧
      s2.invisible_free_p ≠ 0 ∧ Heap L s2.mem s2.invisible_free_p fr2 live ∧
      fr2.length ≤ fr1.length + 1 ∧
      ∃ prev b, b ∈ fr2 ∧ nq ≤ b.2 ∧ ∀ fuel, fr1.length + 2 ≤ fuel →
        alloc_loop L nq fuel s2 s2.invisible_free_p (s2.mem s2.invisible_free_p).next
          = some (alloc_take L nq s2 prev (addr L b.1)) := by
  obtain ⟨F1, F2, e, _, _, hrun, H2⟩ := heap_free_state hQ H
  have hlen := freeIns_length F1 (o, nq) F2
  rw [← e] at hlen
  refine ⟨_, freeIns F1 (o, nq) F2, hrun, predNode_pos hb0 hp0 F1, H2, hlen, ?_⟩
  rcases alloc_search (s := { s1 with
      mem := free_link L s1.mem (addr L o) (predNode L F1)
      invisible_free_p := predNode L F1 }) H2 hQ hnq with
    ⟨G1, b, G2, e2, hle, hrun2⟩ | ⟨hsmall, _⟩
  · exact ⟨predNode L G1, b, by rw [e2]; simp, hle, fun fuel hfuel => hrun2 fuel (by omega)⟩
  · obtain ⟨b, hb, _, hb2⟩ := freeIns_big F1 (o, nq) F2
    have := hsmall b hb
    simp only at hb2
    omega

/-! ## Freeing several blocks -/

theorem gaps_head_min {a : Blk} {l : List Blk}
    (hg : List.Pairwise (fun a b : Blk => a.1 + a.2 < b.1) (a :: l)) :
    ∀ b ∈ a :: l, a.1 ≤ b.1 := by
  intro b hb
  rcases List.mem_cons.1 hb with h | h
  · rw [h]
  · have := (List.pairwise_cons.1 hg).1 b h
    omega

/-- Two address-ordered lists of non-empty blocks, neither with two blocks
that touch, are equal when they cover the same quanta. -/
theorem cov_unique : ∀ (l k : List Blk),
    List.Pairwise (fun a b : Blk => a.1 + a.2 < b.1) l →
    List.Pairwise (fun a b : Blk => a.1 + a.2 < b.1) k →
    (∀ b ∈ l, 1 ≤ b.2) → (∀ b ∈ k, 1 ≤ b.2) → (∀ q, Cov l q ↔ Cov k q) → l = k := by
  intro l
  induction l with
  | nil =>
    intro k _ _ _ hk h
    cases k with
    | nil => rfl
    | cons c t =>
      have hc := hk c (List.mem_cons_self _ _)
      have : Cov (c :: t) c.1 := ⟨c, List.mem_cons_self _ _, le_refl _, by omega⟩
      exact absurd ((h c.1).2 this) (cov_nil _)
  | cons a l ih =>
    intro k hgl hgk hl hk h
    cases k with
    | nil =>
      have ha := hl a (List.mem_cons_self _ _)
      have : Cov (a :: l) a.1 := ⟨a, List.mem_cons_self _ _, le_refl _, by omega⟩
      exact absurd ((h a.1).1 this) (cov_nil _)
    | cons c k =>
      have ha := hl a (List.mem_cons_self _ _)
      have hc := hk c (List.mem_cons_self _ _)
      have hla := (List.pairwise_cons.1 hgl).1
      have hkc := (List.pairwise_cons.1 hgk).1
      have h1 : a.1 = c.1 := by
        obtain ⟨d, hd, hd1, _⟩ := (h a.1).1 ⟨a, List.mem_cons_self _ _, le_refl _, by omega⟩
        obtain ⟨e, he, he1, _⟩ := (h c.1).2 ⟨c, List.mem_cons_self _ _, le_refl _, by omega⟩
        have := gaps_head_min hgk d hd
        have := gaps_head_min hgl e he
        omega
      have h2 : a.2 = c.2 := by
        rcases Nat.lt_trichotomy a.2 c.2 with hlt | heq | hgt
        · exfalso
          obtain ⟨e, he, he1, he2⟩ :=
            (h (a.1 + a.2)).2 ⟨c, List.mem_cons_self _ _, by omega, by omega⟩
          rcases List.mem_cons.1 he with h3 | h3
          · rw [h3] at he2; omega
          · have := hla e h3; omega
        · exact heq
        · exfalso
          obtain ⟨e, he, he1, he2⟩ :=
            (h (c.1 + c.2)).1 ⟨a, List.mem_cons_self _ _, by omega, by omega⟩
          rcases List.mem_cons.1 he with h3 | h3
          · rw [h3] at he2; omega
          · have := hkc e h3; omega
      have hac : a = c := Prod.ext h1 h2
      subst hac
      have htl : ∀ q, Cov l q ↔ Cov k q := by
        intro q
        have hq := h q
        rw [cov_cons, cov_cons] at hq
        constructor
        · intro hc2
          rcases hq.1 (Or.inr hc2) with h3 | h3
          · obtain ⟨b, hb, hb1, _⟩ := hc2
            have := hla b hb
            omega
          · exact h3
        · intro hc2
          rcases hq.2 (Or.inr hc2) with h3 | h3
          · obtain ⟨b, hb, hb1, _⟩ := hc2
            have := hkc b hb
            omega
          · exact h3
      rw [ih k (List.pairwise_cons.1 hgl).2 (List.pairwise_cons.1 hgk).2
        (fun b hb => hl b (List.mem_cons_of_mem _ hb))
        (fun b hb => hk b (List.mem_cons_of_mem _ hb)) htl]

/-- A run of covered quanta lies inside one block when no two blocks of the
list touch. -/
theorem cov_block {l : List Blk} (hg : List.Pairwise (fun a b : Blk => a.1 + a.2 < b.1) l)
    {lo hi : Nat} (hne : lo < hi) (hc : ∀ q, lo ≤ q → q < hi → Cov l q) :
    ∃ b ∈ l, b.1 ≤ lo ∧ hi ≤ b.1 + b.2 := by
  obtain ⟨b, hb, hb1, hb2⟩ := hc lo (le_refl _) hne
  refine ⟨b, hb, hb1, ?_⟩
  by_contra hcon
  obtain ⟨c, hcm, hc1, hc2⟩ := hc (b.1 + b.2) (by omega) (by omega)
  have hsym : List.Pairwise (fun a b : Blk => a.1 + a.2 < b.1 ∨ b.1 + b.2 < a.1) l :=
    hg.imp (fun h => Or.inl h)
  have hbc : b ≠ c := by
    intro e
    rw [← e] at hc2
    omega
  have := hsym.forall (fun x y h => Or.symm h) hb hcm hbc
  omega

theorem payload_inj {L : Layout} {m : Mem} {r : Nat} {fr live : List Blk} (hQ : 0 < L.Q)
    (H : Heap L m r fr live) {B C : Blk} (hB : B ∈ live) (hC : C ∈ live)
    (h : payload L B = payload L C) : B = C := by
  by_contra hne
  exact (live_distinct hQ H).forall (fun _ _ h => Ne.symm h) hB hC hne h

/-- Freeing distinct live pointers one after the other: every call returns,
the invariant is kept, and the free list gains exactly the quanta of the
blocks behind the pointers. -/
theorem free_all_rep {L : Layout} (hL : LayoutOK L) {fuel : Nat} (hfuel : FUEL ≤ fuel) :
    ∀ (qs : List Nat) (s : State) (fr live : List Blk) (N : Nat), Rep L s fr live N →
      qs.Nodup → (∀ p ∈ qs, p ∈ live.map (payload L)) →
      ∃ s2 fr2 lv2, freeAll L fuel s qs = some s2 ∧ Rep L s2 fr2 lv2 N ∧
        ∀ q, Cov fr2 q ↔ Cov fr q ∨ CovP L live qs q := by
  intro qs
  induction qs with
  | nil =>
    intro s fr live N R _ _
    refine ⟨s, fr, live, rfl, R, fun q => ?_⟩
    unfold CovP
    simp
  | cons p qs ih =>
    intro s fr live N R hnd hlive
    have hQ := hL.1
    obtain ⟨B, hB, hBp⟩ := List.mem_map.1 (hlive p (List.mem_cons_self _ _))
    have hperm := perm_filter_ne (f := payload L) live (live_distinct hQ R.heap) hB
    rw [hBp] at hperm
    obtain ⟨s2, fr2, hrun, R2, _, hcov, _⟩ := rep_free hQ R hperm
    have hlen := rep_len hQ R
    have hF : FUEL = 2 * INVISIBLE_POOL_SIZE + 8 := rfl
    have hnd2 := List.nodup_cons.1 hnd
    have hlive2 : ∀ x ∈ qs, x ∈ (live.filter (fun b => payload L b ≠ p)).map (payload L) := by
      intro x hx
      obtain ⟨C, hC, hCx⟩ := List.mem_map.1 (hlive x (List.mem_cons_of_mem _ hx))
      refine List.mem_map.2 ⟨C, List.mem_filter.2 ⟨hC, ?_⟩, hCx⟩
      have : payload L C ≠ p := by
        rw [hCx]; intro e; exact hnd2.1 (e ▸ hx)
      simpa using this
    obtain ⟨s3, fr3, lv3, hrun3, R3, hcov3⟩ := ih s2 fr2 _ N R2 hnd2.2 hlive2
    refine ⟨s3, fr3, lv3, ?_, R3, ?_⟩
    · have hp : addr L B.1 + L.Q = p := hBp
      rw [hp] at hrun
      simp only [freeAll, hrun fuel (by omega)]
      exact hrun3
    · intro q
      rw [hcov3, hcov]
      unfold CovP
      constructor
      · rintro ((h | h) | ⟨C, hC, hCq, h⟩)
        · exact Or.inl h
        · exact Or.inr ⟨B, hB, by rw [hBp]; simp, h⟩
        · exact Or.inr ⟨C, (List.mem_filter.1 hC).1, List.mem_cons_of_mem _ hCq, h⟩
      · rintro (h | ⟨C, hC, hCq, h⟩)
        · exact Or.inl (Or.inl h)
        · rcases List.mem_cons.1 hCq with e | hin
          · have : C = B := payload_inj hQ R.heap hC hB (by rw [e, hBp])
            rw [this] at h
            exact Or.inl (Or.inr h)
          · refine Or.inr ⟨C, List.mem_filter.2 ⟨hC, ?_⟩, hin, h⟩
            have : payload L C ≠ p := by
              intro e; exact hnd2.1 (e ▸ hin)
            simpa using this

/-- In a well-formed state the observed free blocks are those of the
invariant. -/
theorem freeBlocks_rep {L : Layout} {s : State} {fr live : List Blk} {N fuel : Nat}
    (hL : LayoutOK L) (R : Rep L s fr live N) (hfuel : FUEL ≤ fuel) :
    freeBlocks L fuel s = fr.map (fun b => (addr L b.1, b.2)) := by
  unfold freeBlocks
  rw [freeNodes_rep hL R hfuel]
  unfold nodes
  rw [List.map_map]
  refine List.map_congr_left ?_
  intro b hb
  simp only [Function.comp]
  rw [R.heap.sizes b (by simp [hb])]

/-- Live blocks that abut one after the other cover one interval of quanta,
from the first block over their combined size. -/
theorem chain_cov {L : Layout} {s : State} {fr live : List Blk} (hQ : 0 < L.Q)
    (H : Heap L s.mem s.invisible_free_p fr live) :
    ∀ (ps : List Nat) (a : Nat), (∀ p ∈ a :: ps, p ∈ live.map (payload L)) →
      List.Chain' (Abuts L s) (a :: ps) →
      ∃ A ∈ live, payload L A = a ∧ A.2 ≤ sizeSum L s (a :: ps) ∧
        ∀ q, CovP L live (a :: ps) q ↔ A.1 ≤ q ∧ q < A.1 + sizeSum L s (a :: ps) := by
  intro ps
  induction ps with
  | nil =>
    intro a hl _
    obtain ⟨A, hA, hAa⟩ := List.mem_map.1 (hl a (List.mem_cons_self _ _))
    have hsz : (s.mem (a - L.Q)).size = A.2 := by
      rw [← hAa]; unfold payload
      rw [Nat.add_sub_cancel]; exact H.sizes A (by simp [hA])
    have hT : sizeSum L s [a] = A.2 := by simp [sizeSum, hsz]
    refine ⟨A, hA, hAa, by rw [hT], fun q => ?_⟩
    rw [hT]
    unfold CovP
    constructor
    · rintro ⟨C, hC, hCq, h⟩
      have : C = A := payload_inj hQ H hC hA (by rw [hAa]; simpa using hCq)
      rw [this] at h
      exact h
    · intro h
      exact ⟨A, hA, by rw [hAa]; simp, h⟩
  | cons b ps ih =>
    intro a hl hch
    obtain ⟨A, hA, hAa⟩ := List.mem_map.1 (hl a (List.mem_cons_self _ _))
    rw [List.chain'_cons] at hch
    obtain ⟨C, hC, hCb, _, hcov⟩ := ih b (fun p hp => hl p (List.mem_cons_of_mem _ hp)) hch.2
    have hsz : (s.mem (a - L.Q)).size = A.2 := by
      rw [← hAa]; unfold payload
      rw [Nat.add_sub_cancel]; exact H.sizes A (by simp [hA])
    have hT : sizeSum L s (a :: b :: ps) = A.2 + sizeSum L s (b :: ps) := by
      simp [sizeSum, hsz]
    have hab : A.1 + A.2 = C.1 := by
      have h1 : a + (s.mem (a - L.Q)).size * L.Q = b := hch.1
      rw [hsz, ← hAa, ← hCb] at h1
      unfold payload at h1
      have h2 : addr L A.1 + A.2 * L.Q = addr L C.1 := by omega
      rw [addr_add] at h2
      exact (addr_inj hQ).1 h2
    refine ⟨A, hA, hAa, by rw [hT]; omega, fun q => ?_⟩
    rw [hT]
    have hsplit : CovP L live (a :: b :: ps) q ↔
        (A.1 ≤ q ∧ q < A.1 + A.2) ∨ CovP L live (b :: ps) q := by
      unfold CovP
      constructor
      · rintro ⟨D, hD, hDq, h⟩
        rcases List.mem_cons.1 hDq with e | hin
        · have : D = A := payload_inj hQ H hD hA (by rw [hAa, e])
          rw [this] at h
          exact Or.inl h
        · exact Or.inr ⟨D, hD, hin, h⟩
      · rintro (h | ⟨D, hD, hDq, h⟩)
        · exact ⟨A, hA, by rw [hAa]; simp, h⟩
        · exact ⟨D, hD, List.mem_cons_of_mem _ hDq, h⟩
    rw [hsplit, hcov]
    omega

/-- Pointers of live blocks that abut one after the other are in strictly
increasing order. -/
theorem chain_nodup {L : Layout} {s : State} {fr live : List Blk} (hQ : 0 < L.Q)
    (H : Heap L s.mem s.invisible_free_p fr live) :
    ∀ (ps : List Nat), (∀ p ∈ ps, p ∈ live.map (payload L)) →
      List.Chain' (Abuts L s) ps → List.Chain' (fun p q : Nat => p < q) ps := by
  intro ps
  induction ps with
  | nil => intro _ _; exact List.chain'_nil
  | cons a t ih =>
    intro hl hch
    cases t with
    | nil => exact List.chain'_singleton _
    | cons b t =>
      rw [List.chain'_cons] at hch ⊢
      refine ⟨?_, ih (fun p hp => hl p (List.mem_cons_of_mem _ hp)) hch.2⟩
      obtain ⟨A, hA, hAa⟩ := List.mem_map.1 (hl a (List.mem_cons_self _ _))
      have hsz : (s.mem (a - L.Q)).size = A.2 := by
        rw [← hAa]; unfold payload
        rw [Nat.add_sub_cancel]; exact H.sizes A (by simp [hA])
      have h1 : a + (s.mem (a - L.Q)).size * L.Q = b := hch.1
      rw [hsz] at h1
      have h2 := H.pos A (by simp [hA])
      have h3 : L.Q ≤ A.2 * L.Q := Nat.le_mul_of_pos_left _ h2
      omega

theorem addr_mono (L : Layout) {a b : Nat} (h : a ≤ b) : addr L a ≤ addr L b := by
  unfold addr
  have := Nat.mul_le_mul_left L.Q h
  omega

theorem abcRun : run layout64 FUEL (zeroState, []) abcOps = some (abcState.1, abcState.2) :=
  getD_of_isSome (run layout64 FUEL (zeroState, []) abcOps) (zeroState, []) (by decide)

/-! ## The exact outcome of a request -/

/-- The helper `get_invisible_mem_from_pool` when the pool has room, with the
free list it leaves: the minted block behind the old free blocks, joined with
the last of them when they touch. -/
theorem rep_mint_list {L : Layout} {s : State} {fr live : List Blk} {N nq : Nat}
    (hL : LayoutOK L) (hA : SentinelApart L) (R : Rep L s fr live N)
    (hfit : L.Q * N + minted nq * L.Q ≤ INVISIBLE_POOL_SIZE) :
    ∃ s3, (∀ fuel, fr.length + 1 ≤ fuel →
        get_invisible_mem_from_pool L fuel s nq = some (s3, s3.invisible_free_p)) ∧
      s3.invisible_free_p ≠ 0 ∧
      Rep L s3 (mergeDown fr (N, minted nq)) live (N + minted nq) := by
  obtain ⟨hQ, hb0, hp0, hW⟩ := hL
  unfold minted at hfit ⊢
  generalize hnq2 : (if nq < MIN_INVISIBLE_POOL_ALLOC_QUANTAS then
      MIN_INVISIBLE_POOL_ALLOC_QUANTAS else nq) = nq2 at hfit ⊢
  have hnq2pos : 1 ≤ nq2 := by
    rw [← hnq2]; unfold MIN_INVISIBLE_POOL_ALLOC_QUANTAS; split <;> omega
  have hWd : wordMod L = 2 ^ L.wbits := rfl
  have hmul : nq2 * L.Q = L.Q * nq2 := Nat.mul_comm _ _
  have hmod1 : (nq2 * L.Q) % wordMod L = nq2 * L.Q := Nat.mod_eq_of_lt (by omega)
  have hmod2 : (L.Q * N + nq2 * L.Q) % wordMod L = L.Q * N + nq2 * L.Q :=
    Nat.mod_eq_of_lt (by omega)
  have hNQ : L.Q * (N + nq2) = L.Q * N + nq2 * L.Q := by rw [Nat.mul_add, hmul]
  have hle1 : nq2 ≤ L.Q * nq2 := Nat.le_mul_of_pos_left _ hQ
  have hle2 : N ≤ L.Q * N := Nat.le_mul_of_pos_left _ hQ
  have hst : StartOK L N := startOK_of_le hA hQ (by omega)
  have hen : EndOK L (N + nq2) := (startOK_of_le hA hQ (by omega) : StartOK L (N + nq2)).ne
  obtain ⟨m1, hm1⟩ : ∃ m1 : Mem,
      m1 = upd s.mem (addr L N) { s.mem (addr L N) with size := nq2 } := ⟨_, rfl⟩
  have H1 : Heap L m1 s.invisible_free_p fr ((N, nq2) :: live) := by
    refine heap_add_live (B := (N, nq2)) hQ R.heap hst hen hnq2pos (by simp only; omega) ?_
      (fun x hx => by rw [hm1]; exact upd_other _ _ hx) (by rw [hm1]; simp)
    intro x hx
    have := R.within x hx
    unfold Disj; simp only; omega
  obtain ⟨F1, F2, e, h1, h2, hrun, H2⟩ := heap_free_state
    (s := { s with mem := m1 }) hQ H1
  have hF2 : F2 = [] := by
    cases F2 with
    | nil => rfl
    | cons c t =>
      have h3 := h2 c (List.mem_cons_self _ _)
      have h4 := R.within c (by rw [e]; simp)
      have h5 := R.heap.pos c (by rw [e]; simp)
      simp only at h3
      omega
  subst hF2
  simp only [List.append_nil] at e
  subst e
  have hfi : freeIns fr (N, nq2) [] = mergeDown fr (N, nq2) := by
    simp [freeIns, mergeUp]
  have hsz := freeIns_sizes fr (N, nq2) []
  have hcov := freeIns_cov fr (N, nq2) []
  rw [hfi] at H2 hsz hcov
  refine ⟨{ mem := free_link L m1 (addr L N) (predNode L fr),
            invisible_free_p := predNode L fr,
            invisible_pool_free_pos := L.Q * (N + nq2) },
    ?_, predNode_pos hb0 hp0 fr, ⟨H2, rfl, by omega, ?_, ?_⟩⟩
  · intro fuel hfuel
    have hr := hrun fuel hfuel
    unfold get_invisible_mem_from_pool
    simp only [hnq2, R.fpos, hmod1, hmod2, hfit, if_true]
    have ha : L.pool + L.Q * N = addr L N := rfl
    rw [ha, ← hm1]
    simp only [R.fpos] at hr
    rw [hr]
    simp only [hmod2, hNQ]
  · refine within_of_cov H2.pos ?_
    intro q hq
    rw [cov_append, hcov] at hq
    rcases hq with (hq | hq) | hq
    · have := cov_of_within R.within q ((cov_append _ _ _).2 (Or.inl (by simpa using hq)))
      omega
    · simp only at hq; omega
    · have := cov_of_within R.within q ((cov_append _ _ _).2 (Or.inr hq))
      omega
  · have := R.total
    rw [hsz]; simp; omega

/-- The ways a call for `nq` quanta ends in a well-formed state, with the
free list it leaves: `nullptr`; a block `b` of the free list taken; a block of
the free list taken after the pool minted one. -/
theorem rep_alloc_exact {L : Layout} {s : State} {fr live : List Blk} {N nq : Nat}
    (hL : LayoutOK L) (hA : SentinelApart L) (R : Rep L s fr live N) (hnq : 1 ≤ nq)
    (hnw : INVISIBLE_POOL_SIZE + minted nq * L.Q < wordMod L) :
    ∀ fuel, 2 * fr.length + 6 ≤ fuel →
      ∃ s2 p, alloc_loop L nq fuel s s.invisible_free_p (s.mem s.invisible_free_p).next
          = some (s2, p) ∧
        ((p = 0 ∧ s2 = s ∧ (∀ b ∈ fr, b.2 < nq) ∧
            INVISIBLE_POOL_SIZE < L.Q * N + minted nq * L.Q) ∨
          (∃ F1 b F2, fr = F1 ++ b :: F2 ∧ nq ≤ b.2 ∧
            p = addr L (allocTake nq F1 b F2).2.1 + L.Q ∧
            Rep L s2 (allocTake nq F1 b F2).1 (((allocTake nq F1 b F2).2.1, nq) :: live) N) ∨
          (∃ F1 b F2, mergeDown fr (N, minted nq) = F1 ++ b :: F2 ∧ nq ≤ b.2 ∧
            p = addr L (allocTake nq F1 b F2).2.1 + L.Q ∧
            Rep L s2 (allocTake nq F1 b F2).1 (((allocTake nq F1 b F2).2.1, nq) :: live)
              (N + minted nq) ∧
            (∀ b ∈ fr, b.2 < nq) ∧ L.Q * N + minted nq * L.Q ≤ INVISIBLE_POOL_SIZE)) := by
  intro fuel hfuel
  have hQ := hL.1
  rcases alloc_search R.heap hQ hnq with ⟨F1, b, F2, e, hle, hrun⟩ | ⟨hsmall, hrun⟩
  · subst e
    obtain ⟨fr2, o, R2, hret, _, hfr2, ho⟩ := rep_take hQ hA R hnq hle
    subst hfr2 ho
    exact ⟨_, _, hrun fuel (by omega), Or.inr (Or.inl ⟨F1, b, F2, rfl, hle, hret, R2⟩)⟩
  · obtain ⟨k, rfl⟩ : ∃ k, fuel = k + 1 + fr.length := ⟨fuel - 1 - fr.length, by omega⟩
    rw [hrun k]
    unfold alloc_refill
    by_cases hfit : L.Q * N + minted nq * L.Q ≤ INVISIBLE_POOL_SIZE
    · obtain ⟨s3, hget, hr0, R3⟩ := @rep_mint_list L s fr live N nq hL hA R hfit
      rw [hget (k + 1) (by omega)]
      simp only [hr0, if_false]
      have hlen3 : (mergeDown fr (N, minted nq)).length ≤ fr.length + 1 := by
        rcases mergeDown_cases fr (N, minted nq) with h | ⟨G, a, e2, _, h⟩
        · rw [h]; simp
        · rw [h, e2]; simp
      have hbig : ∃ b ∈ mergeDown fr (N, minted nq), nq ≤ b.2 := by
        have hm : nq ≤ minted nq := by unfold minted; split <;> omega
        rcases mergeDown_cases fr (N, minted nq) with h | ⟨G, a, _, _, h⟩
        · rw [h]; exact ⟨(N, minted nq), by simp, hm⟩
        · rw [h]; exact ⟨(a.1, a.2 + minted nq), by simp, by simp only; omega⟩
      rcases alloc_search R3.heap hQ hnq with ⟨F1, b, F2, e, hle, hrun3⟩ | ⟨hsmall3, _⟩
      · rw [e] at R3
        obtain ⟨fr2, o, R2, hret, _, hfr2, ho⟩ := rep_take hQ hA R3 hnq hle
        subst hfr2 ho
        exact ⟨_, _, hrun3 k (by omega),
          Or.inr (Or.inr ⟨F1, b, F2, e, hle, hret, R2, hsmall, hfit⟩)⟩
      · obtain ⟨b3, hb3, hb3le⟩ := hbig
        have := hsmall3 b3 hb3
        omega
    · rw [mint_fail (k + 1) R.fpos R.cap hnw (by omega)]
      exact ⟨s, 0, rfl, Or.inl ⟨rfl, rfl, hsmall, by omega⟩⟩

theorem split_single {c b : Blk} {F1 F2 : List Blk} (e : [c] = F1 ++ b :: F2) :
    F1 = [] ∧ b = c ∧ F2 = [] := by
  cases F1 with
  | nil =>
    simp only [List.nil_append, List.cons.injEq] at e
    exact ⟨rfl, e.1.symm, e.2.symm⟩
  | cons a t =>
    simp only [List.cons_append, List.cons.injEq] at e
    have := e.2
    cases t <;> simp at this

theorem allocTake_single (nq : Nat) (a k : Nat) :
    (allocTake nq [] (a, k) []).2.1 = a + (k - nq) ∧
      (allocTake nq [] (a, k) []).1 = if k = nq then [] else [(a, k - nq)] := by
  unfold allocTake
  by_cases h : k = nq
  · simp [h]
  · simp [h]

/-- A request in a well-formed state whose free list is empty, when the pool
has room: the pool mints a block at the cursor and the request takes its
upper end. -/
theorem alloc_empty {L : Layout} {s : State} {live : List Blk} {N nq : Nat}
    (hL : LayoutOK L) (hA : SentinelApart L) (R : Rep L s [] live N) (hnq : 1 ≤ nq)
    (hnw : INVISIBLE_POOL_SIZE + minted nq * L.Q < wordMod L)
    (hfit : L.Q * N + minted nq * L.Q ≤ INVISIBLE_POOL_SIZE) :
    ∀ fuel, 6 ≤ fuel →
      ∃ s2, alloc_loop L nq fuel s s.invisible_free_p (s.mem s.invisible_free_p).next
          = some (s2, addr L (N + (minted nq - nq)) + L.Q) ∧
        Rep L s2 (if minted nq = nq then [] else [(N, minted nq - nq)])
          ((N + (minted nq - nq), nq) :: live) (N + minted nq) := by
  intro fuel hfuel
  obtain ⟨s2, p, hrun, hout⟩ := rep_alloc_exact hL hA R hnq hnw fuel (by simpa using hfuel)
  rcases hout with ⟨_, _, _, hno⟩ | ⟨F1, b, F2, e, _⟩ | ⟨F1, b, F2, e, _, hp, R2, _, _⟩
  · omega
  · simp at e
  · rw [mergeDown_nil] at e
    obtain ⟨e1, e2, e3⟩ := split_single e
    subst e1 e2 e3
    obtain ⟨h1, h2⟩ := allocTake_single nq N (minted nq)
    rw [h1] at hp R2
    rw [h2] at R2
    rw [hp] at hrun
    exact ⟨s2, hrun, R2⟩

/-- A request in a well-formed state whose free list is one block that is
large enough: the request takes the upper end of that block. -/
theorem alloc_single {L : Layout} {s : State} {live : List Blk} {N nq a k : Nat}
    (hL : LayoutOK L) (hA : SentinelApart L) (R : Rep L s [(a, k)] live N) (hnq : 1 ≤ nq)
    (hnw : INVISIBLE_POOL_SIZE + minted nq * L.Q < wordMod L) (hk : nq ≤ k) :
    ∀ fuel, 8 ≤ fuel →
      ∃ s2, alloc_loop L nq fuel s s.invisible_free_p (s.mem s.invisible_free_p).next
          = some (s2, addr L (a + (k - nq)) + L.Q) ∧
        Rep L s2 (if k = nq then [] else [(a, k - nq)]) ((a + (k - nq), nq) :: live) N := by
  intro fuel hfuel
  obtain ⟨s2, p, hrun, hout⟩ := rep_alloc_exact hL hA R hnq hnw fuel (by simpa using hfuel)
  rcases hout with ⟨_, _, hsm, _⟩ | ⟨F1, b, F2, e, _, hp, R2⟩ | ⟨F1, b, F2, _, _, _, _, hsm, _⟩
  · have := hsm (a, k) (by simp)
    simp only at this
    omega
  · obtain ⟨e1, e2, e3⟩ := split_single e
    subst e1 e2 e3
    obtain ⟨h1, h2⟩ := allocTake_single nq a k
    rw [h1] at hp R2
    rw [h2] at R2
    rw [hp] at hrun
    exact ⟨s2, hrun, R2⟩
  · have := hsm (a, k) (by simp)
    simp only at this
    omega

/-- Freeing a live block when afterwards the free quanta are exactly those
of one interval: the free list is that one block. -/
theorem free_to_single {L : Layout} {s : State} {fr live lv : List Blk} {N a k : Nat}
    {B : Blk} (hQ : 0 < L.Q) (R : Rep L s fr live N) (hperm : List.Perm live (B :: lv))
    (hk : 1 ≤ k)
    (hcov : ∀ q, (Cov fr q ∨ (B.1 ≤ q ∧ q < B.1 + B.2)) ↔ (a ≤ q ∧ q < a + k)) :
    ∃ s2, (∀ fuel, fr.length + 1 ≤ fuel →
        invisible_pool_free L fuel s (addr L B.1 + L.Q) = some s2) ∧
      Rep L s2 [(a, k)] lv N := by
  obtain ⟨s2, fr2, hrun, R2, _, hc, _⟩ := rep_free hQ R hperm
  have e : fr2 = [(a, k)] := by
    refine cov_unique fr2 [(a, k)] R2.heap.gaps (by simp)
      (fun b hb => R2.heap.pos b (by simp [hb])) (by simpa using hk) ?_
    intro q
    rw [hc, hcov, cov_cons]
    simp [cov_nil]
  rw [e] at R2
  exact ⟨s2, hrun, R2⟩

/-- The first request on a fresh pool, when the pool has room for the block
the helper mints: the request takes the upper end of that block. -/
theorem fresh_alloc {L : Layout} {n fuel : Nat} (hL : LayoutOK L) (hA : SentinelApart L)
    (hfuel : FUEL ≤ fuel) (hnq : 1 ≤ num_quantas_of L n)
    (hnw : INVISIBLE_POOL_SIZE + minted (num_quantas_of L n) * L.Q < wordMod L)
    (hfit : minted (num_quantas_of L n) * L.Q ≤ INVISIBLE_POOL_SIZE) :
    ∃ s1, invisible_pool_alloc L fuel zeroState n
        = some (s1, addr L (minted (num_quantas_of L n) - num_quantas_of L n) + L.Q) ∧
      Rep L s1 (if minted (num_quantas_of L n) = num_quantas_of L n then []
          else [(0, minted (num_quantas_of L n) - num_quantas_of L n)])
        [(minted (num_quantas_of L n) - num_quantas_of L n, num_quantas_of L n)]
        (minted (num_quantas_of L n)) := by
  have R0 : Rep L (alloc_init L zeroState) [] [] 0 := rep_init rfl rfl
  have hF : FUEL = 2 * INVISIBLE_POOL_SIZE + 8 := rfl
  obtain ⟨s1, hrun, R1⟩ := alloc_empty hL hA R0 hnq hnw (by simpa using hfit) fuel (by omega)
  simp only [Nat.zero_add] at hrun R1
  exact ⟨s1, hrun, R1⟩

theorem nq_zero {L : Layout} (hL : LayoutOK L) : num_quantas_of L 0 = 1 := by
  obtain ⟨e, _⟩ := nq_of_le hL (n := 0) (Nat.zero_le _)
  rw [e]
  have : (0 + L.Q - 1) / L.Q = 0 := Nat.div_eq_of_lt (by have := hL.1; omega)
  rw [this]

theorem addr_zero (L : Layout) : addr L 0 = L.pool := by
  unfold addr
  simp

/-- For requests of at most `INVISIBLE_POOL_SIZE` bytes in a well-formed state
the cursor does not decrease, stays a multiple of `Q` and stays within the
pool; `invisible_pool_free` never writes it. -/
theorem cursor_monotone {L : Layout} {st : State × List Nat} {n fuel : Nat} (hL : LayoutOK L)
    (hA : SentinelApart L) (hfuel : FUEL ≤ fuel) (I : RunInv L st)
    (hn : n ≤ INVISIBLE_POOL_SIZE) :
    ∃ s2 p, invisible_pool_alloc L fuel st.1 n = some (s2, p) ∧
      st.1.invisible_pool_free_pos ≤ s2.invisible_pool_free_pos ∧
      L.Q ∣ s2.invisible_pool_free_pos ∧ s2.invisible_pool_free_pos ≤ INVISIBLE_POOL_SIZE := by
  obtain ⟨fr, live, N, R, _, _, s2, p, hrun, hout⟩ := inv_alloc hL hA hfuel I hn
  have h0 : st.1.invisible_pool_free_pos = L.Q * N := by
    rw [← alloc_init_pos L st.1]; exact R.fpos
  refine ⟨s2, p, hrun, ?_⟩
  rcases hout with ⟨_, hs, _, _⟩ | ⟨fr2, o, _, R2, _⟩ | ⟨fr2, o, _, R2, _, _⟩
  · rw [hs, R.fpos, h0]
    exact ⟨le_refl _, Dvd.intro _ rfl, R.cap⟩
  · rw [R2.fpos, h0]
    exact ⟨le_refl _, Dvd.intro _ rfl, R2.cap⟩
  · rw [R2.fpos, h0]
    exact ⟨Nat.mul_le_mul_left _ (Nat.le_add_right _ _), Dvd.intro _ rfl, R2.cap⟩

theorem free_cursor (L : Layout) (fuel : Nat) (s s2 : State) (p : Nat)
    (h : invisible_pool_free L fuel s p = some s2) :
    s2.invisible_pool_free_pos = s.invisible_pool_free_pos := by
  unfold invisible_pool_free at h
  simp only at h
  split at h
  · simp at h
  · simp only [Option.some.injEq] at h
    rw [← h]

theorem nq_Q {L : Layout} (hL : LayoutOK L) (hQ : L.Q ≤ INVISIBLE_POOL_SIZE) :
    num_quantas_of L L.Q = 2 := by
  obtain ⟨e, _⟩ := nq_of_le hL hQ
  rw [e]
  have h0 := hL.1
  have : (L.Q + L.Q - 1) / L.Q = 1 :=
    Nat.div_eq_of_lt_le (by omega) (by omega)
  rw [this]

/-- A request in a well-formed state whose free list is one block that is
large enough, as a call of `invisible_pool_alloc`. -/
theorem alloc_single_call {L : Layout} {s : State} {live : List Blk} {N n a k fuel : Nat}
    (hL : LayoutOK L) (hA : SentinelApart L) (hfuel : FUEL ≤ fuel)
    (R : Rep L s [(a, k)] live N) (hn : n ≤ INVISIBLE_POOL_SIZE)
    (hk : num_quantas_of L n ≤ k) :
    ∃ s2, invisible_pool_alloc L fuel s n
        = some (s2, addr L (a + (k - num_quantas_of L n)) + L.Q) ∧
      Rep L s2 (if k = num_quantas_of L n then [] else [(a, k - num_quantas_of L n)])
        ((a + (k - num_quantas_of L n), num_quantas_of L n) :: live) N := by
  obtain ⟨_, hnq1, hnw, _, _⟩ := nq_of_le hL hn
  have hF : FUEL = 2 * INVISIBLE_POOL_SIZE + 8 := rfl
  obtain ⟨s2, hrun, R2⟩ := alloc_single hL hA R hnq1 hnw hk fuel (by omega)
  refine ⟨s2, ?_, R2⟩
  unfold invisible_pool_alloc
  simp only [alloc_init_rep hL.2.1 hL.2.2.1 R]
  exact hrun

/-- When `Q` divides the pool size, a request of at most
`INVISIBLE_POOL_SIZE - Q` bytes needs no more quanta than the pool has, also
after rounding up to the 16-quanta floor. -/
theorem minted_fits {L : Layout} (hL : LayoutOK L) (hdiv : L.Q ∣ INVISIBLE_POOL_SIZE)
    (hroom : 16 * L.Q ≤ INVISIBLE_POOL_SIZE) {n : Nat} (hn : n ≤ INVISIBLE_POOL_SIZE - L.Q) :
    minted (num_quantas_of L n) * L.Q ≤ INVISIBLE_POOL_SIZE := by
  have hQ := hL.1
  obtain ⟨e, _⟩ := nq_of_le hL (n := n) (by omega)
  obtain ⟨c, hc⟩ := hdiv
  have h1 : (n + L.Q - 1) / L.Q < c := by
    rw [Nat.div_lt_iff_lt_mul hQ, Nat.mul_comm, ← hc]
    omega
  have h2 : num_quantas_of L n * L.Q ≤ INVISIBLE_POOL_SIZE := by
    rw [e, hc, Nat.mul_comm]
    exact Nat.mul_le_mul_left _ (by omega)
  unfold minted MIN_INVISIBLE_POOL_ALLOC_QUANTAS
  split
  · exact hroom
  · exact h2

/-- Repeating a request of at least 16 quanta on a fresh pool: while the pool
has room every call mints its own block at the cursor and the free list stays
empty. -/
theorem allocN_fresh {L : Layout} {n fuel : Nat} (hL : LayoutOK L) (hA : SentinelApart L)
    (hfuel : FUEL ≤ fuel) (hn : n ≤ INVISIBLE_POOL_SIZE) (h16 : 16 ≤ num_quantas_of L n) :
    ∀ k, L.Q * (k * num_quantas_of L n) ≤ INVISIBLE_POOL_SIZE →
      ∃ s ps live, allocN L fuel n k zeroState = some (s, ps) ∧
        Rep L (alloc_init L s) [] live (k * num_quantas_of L n) ∧
        ps = live.map (payload L) ∧ ps.length = k := by
  obtain ⟨_, hnq1, hnw, _, _⟩ := nq_of_le hL hn
  have hm : minted (num_quantas_of L n) = num_quantas_of L n := by
    unfold minted MIN_INVISIBLE_POOL_ALLOC_QUANTAS
    rw [if_neg (by omega)]
  have hF : FUEL = 2 * INVISIBLE_POOL_SIZE + 8 := rfl
  intro k
  induction k with
  | zero =>
    intro _
    exact ⟨zeroState, [], [], rfl, by simpa using (rep_init rfl rfl : Rep L _ [] [] 0), rfl, rfl⟩
  | succ k ih =>
    intro hk
    have hk1 : L.Q * ((k + 1) * num_quantas_of L n)
        = L.Q * (k * num_quantas_of L n) + num_quantas_of L n * L.Q := by ring
    obtain ⟨s, ps, live, hrun, R, hps, hlen⟩ := ih (by omega)
    obtain ⟨s2, hal, R2⟩ := alloc_empty hL hA R hnq1 hnw (by rw [hm]; omega) fuel (by omega)
    rw [hm] at hal R2
    simp only [Nat.sub_self, Nat.add_zero, if_true] at hal R2
    have hrun2 : invisible_pool_alloc L fuel s n
        = some (s2, addr L (k * num_quantas_of L n) + L.Q) := hal
    refine ⟨s2, (addr L (k * num_quantas_of L n) + L.Q) :: ps,
      (k * num_quantas_of L n, num_quantas_of L n) :: live, ?_, ?_, ?_, ?_⟩
    · simp only [allocN, hrun, hrun2]
    · rw [alloc_init_rep hL.2.1 hL.2.2.1 R2]
      have e : (k + 1) * num_quantas_of L n = k * num_quantas_of L n + num_quantas_of L n := by
        ring
      rw [e]; exact R2
    · rw [hps]; rfl
    · simp [hlen]

/-- A request of 1 MiB when a header has at most 4096 bytes: at least 16
quanta, and 127 such blocks fit in the pool. -/
theorem mib_quanta {L : Layout} (hL : LayoutOK L) (hQs : L.Q ≤ 4096) :
    16 ≤ num_quantas_of L (1024 * 1024) ∧
      127 * (num_quantas_of L (1024 * 1024) * L.Q) ≤ INVISIBLE_POOL_SIZE ∧
      0 < num_quantas_of L (1024 * 1024) * L.Q := by
  have hQ := hL.1
  obtain ⟨e, _⟩ := nq_of_le hL (n := 1024 * 1024) (by decide)
  have h1 : 256 ≤ (1024 * 1024 + L.Q - 1) / L.Q := by
    rw [Nat.le_div_iff_mul_le hQ]
    omega
  have h2 : (1024 * 1024 + L.Q - 1) / L.Q * L.Q ≤ 1024 * 1024 + L.Q - 1 :=
    Nat.div_mul_le_self _ _
  have h3 : num_quantas_of L (1024 * 1024) * L.Q
      = (1024 * 1024 + L.Q - 1) / L.Q * L.Q + L.Q := by
    rw [e]; ring
  have hP : INVISIBLE_POOL_SIZE = 134217728 := rfl
  refine ⟨by rw [e]; omega, by omega, by omega⟩

/-- Disjoint blocks of a heap as byte ranges. -/
theorem disj_bytes {L : Layout} {a b : Blk} (h : Disj a b) :
    addr L a.1 + a.2 * L.Q ≤ addr L b.1 ∨ addr L b.1 + b.2 * L.Q ≤ addr L a.1 := by
  rw [addr_add, addr_add]
  rcases h with h | h
  · exact Or.inl (addr_mono L h)
  · exact Or.inr (addr_mono L h)

/-! ## First fit -/

/-- The search of `invisible_pool_alloc` in a heap with a free block that is
large enough: it takes the first node of the round from the rover that is
large enough, together with the node examined just before it. -/
theorem alloc_first {L : Layout} {s : State} {nq : Nat} {fr live : List Blk}
    (H : Heap L s.mem s.invisible_free_p fr live) (hQ : 0 < L.Q) (hnq : 1 ≤ nq)
    (hex : ∃ b ∈ fr, nq ≤ b.2) :
    ∀ fuel, fr.length + 1 ≤ fuel →
      ∃ ys x zs, roverRound fuel s = ys ++ x :: zs ∧ (∀ y ∈ ys, (s.mem y).size < nq) ∧
        nq ≤ (s.mem x).size ∧ (s.mem ((ys.getLast?).getD s.invisible_free_p)).next = x ∧
        (∃ b ∈ fr, x = addr L b.1) ∧
        alloc_loop L nq fuel s s.invisible_free_p (s.mem s.invisible_free_p).next
          = some (alloc_take L nq s ((ys.getLast?).getD s.invisible_free_p) x) := by
  intro fuel hfuel
  obtain ⟨R, hR, hc⟩ : ∃ R : Nat → Nat → Prop,
      (∀ u v, R u v → NextRel s.mem u v ∧ AdjIn (L.base :: nodes L fr ++ [L.base]) u v) ∧
      List.Chain' R (L.base :: nodes L fr ++ [L.base]) :=
    ⟨_, fun _ _ h => h, chain_and H.links (chain_adj (L.base :: nodes L fr ++ [L.base]))⟩
  obtain ⟨V, hV, hperm⟩ := cyc_round hc H.rover
  have hnd : (s.invisible_free_p :: V).Nodup :=
    (hperm.nodup_iff).2 (nodes_nodup hQ H.gaps (fun b hb => H.startOK b (by simp [hb])))
  have hlen : V.length = fr.length := by
    have := hperm.length_eq
    simp [nodes] at this
    exact this
  have hrV : s.invisible_free_p ∉ V := (List.nodup_cons.1 hnd).1
  have hround : roverRound fuel s = V ++ [s.invisible_free_p] := by
    obtain ⟨k, hk⟩ : ∃ k, fuel = V.length + 1 + k := ⟨fuel - (V.length + 1), by omega⟩
    unfold roverRound
    rw [hk, walk_chain k V s.invisible_free_p (hV.imp (fun a b h => (hR a b h).1)) hrV]
  rcases first_split (fun y => nq ≤ (s.mem y).size) (V ++ [s.invisible_free_p]) with
    hall | ⟨ys, x, zs, e, hys, hx⟩
  · exfalso
    obtain ⟨b, hb, hble⟩ := hex
    have h1 : addr L b.1 ∈ L.base :: nodes L fr :=
      List.mem_cons_of_mem _ (mem_nodes.2 ⟨b, hb, rfl⟩)
    have h2 := (hperm.mem_iff).2 h1
    have h3 := hall (addr L b.1) (by simp at h2 ⊢; tauto)
    rw [H.sizes b (by simp [hb])] at h3
    exact h3 hble
  · have hVe : V = ys ++ (x :: zs).dropLast := by
      have := congrArg List.dropLast e
      simpa using this
    have hysr : ∀ y ∈ ys, y ≠ s.invisible_free_p := by
      intro y hy h
      exact hrV (by rw [hVe, ← h]; exact List.mem_append_left _ hy)
    have hV3 : List.Chain' R (s.invisible_free_p :: ys ++ x :: zs) := by
      have e2 : s.invisible_free_p :: V ++ [s.invisible_free_p]
          = s.invisible_free_p :: ys ++ x :: zs := by
        rw [List.cons_append, e, List.cons_append]
      rw [← e2]; exact hV
    have hrel := chain_last_rel ys s.invisible_free_p x zs hV3
    have hxb : x ≠ L.base := by
      intro h
      rw [h, H.base_size] at hx
      omega
    obtain ⟨F1, b, F2, hfr, hxa, _⟩ := adj_split (hR _ _ hrel).2 hxb
    have hlen2 : ys.length + 1 ≤ fr.length + 1 := by
      have := congrArg List.length e
      simp at this
      omega
    refine ⟨ys, x, zs, by rw [hround, e], fun y hy => by have := hys y hy; omega, hx,
      (hR _ _ hrel).1, ⟨b, by rw [hfr]; simp, hxa⟩, ?_⟩
    cases ys with
    | nil =>
      have h1 : (s.mem s.invisible_free_p).next = x := (hR _ _ (List.chain'_cons.1 hV3).1).1
      obtain ⟨k, rfl⟩ : ∃ k, fuel = k + 1 := ⟨fuel - 1, by omega⟩
      rw [h1]
      exact alloc_loop_fit k hx
    | cons p ys2 =>
      have h1 : (s.mem s.invisible_free_p).next = p := by
        rw [List.cons_append, List.cons_append, List.chain'_cons] at hV3
        exact (hR _ _ hV3.1).1
      have hV4 : List.Chain' (fun u v => NextRel s.mem u v ∧
          AdjIn (L.base :: nodes L fr ++ [L.base]) u v) (p :: ys2 ++ [x]) := by
        have h3 : List.Chain' R ((s.invisible_free_p :: p :: ys2) ++ x :: zs) := by
          simpa using hV3
        rw [List.chain'_split] at h3
        have h4 := h3.1
        rw [List.cons_append, List.chain'_cons'] at h4
        exact h4.2.imp hR
      simp only [List.length_cons] at hlen2
      obtain ⟨k, rfl⟩ : ∃ k, fuel = (k + 1) + (ys2.length + 1) :=
        ⟨fuel - (ys2.length + 2), by omega⟩
      have h2 := @alloc_skip L nq s _ _ (k + 1) ys2 s.invisible_free_p p hV4
        (fun y hy => ⟨by have := hys y hy; omega, hysr y hy⟩)
      rw [h1, h2]
      simp only [List.getLast?_cons]
      exact alloc_loop_fit k hx

/-- What the block-taking branch does to a node whose size is below the word
size: unlink on an exact fit, split the tail off otherwise. -/
theorem alloc_take_spec (L : Layout) (hQ : 0 < L.Q) (nq : Nat) (s : State) (prev cur : Nat)
    (hle : nq ≤ (s.mem cur).size) (hsm : (s.mem cur).size < wordMod L) :
    (alloc_take L nq s prev cur).1.invisible_pool_free_pos = s.invisible_pool_free_pos ∧
    (alloc_take L nq s prev cur).1.invisible_free_p = prev ∧
    ((s.mem cur).size = nq →
      (alloc_take L nq s prev cur).2 = cur + L.Q ∧
      (alloc_take L nq s prev cur).1.mem
        = upd s.mem prev { s.mem prev with next := (s.mem cur).next }) ∧
    ((s.mem cur).size ≠ nq →
      (alloc_take L nq s prev cur).2 = cur + ((s.mem cur).size - nq) * L.Q + L.Q ∧
      ((alloc_take L nq s prev cur).1.mem cur).size = (s.mem cur).size - nq ∧
      ((alloc_take L nq s prev cur).1.mem (cur + ((s.mem cur).size - nq) * L.Q)).size = nq ∧
      (∀ x, ((alloc_take L nq s prev cur).1.mem x).next = (s.mem x).next) ∧
      (∀ x, x ≠ cur → x ≠ cur + ((s.mem cur).size - nq) * L.Q →
        (alloc_take L nq s prev cur).1.mem x = s.mem x)) := by
  have hmod : ((s.mem cur).size - nq) % wordMod L = (s.mem cur).size - nq :=
    Nat.mod_eq_of_lt (by omega)
  by_cases he : (s.mem cur).size = nq
  · refine ⟨by simp [alloc_take, he], by simp [alloc_take, he],
      fun _ => ⟨by simp [alloc_take, he], by simp [alloc_take, he]⟩, fun h => absurd he h⟩
  · have hpos : 1 ≤ (s.mem cur).size - nq := by omega
    have hgt : L.Q ≤ ((s.mem cur).size - nq) * L.Q := Nat.le_mul_of_pos_left _ hpos
    have hne : cur ≠ cur + ((s.mem cur).size - nq) * L.Q := by omega
    have e : alloc_take L nq s prev cur
        = ({ s with
              mem := upd (upd s.mem cur { s.mem cur with size := (s.mem cur).size - nq })
                (cur + ((s.mem cur).size - nq) * L.Q)
                { (upd s.mem cur { s.mem cur with size := (s.mem cur).size - nq })
                    (cur + ((s.mem cur).size - nq) * L.Q) with size := nq }
              invisible_free_p := prev },
            cur + ((s.mem cur).size - nq) * L.Q + L.Q) := by
      simp [alloc_take, he, hmod]
    rw [e]
    refine ⟨rfl, rfl, fun h => absurd h he, fun _ => ⟨rfl, ?_, ?_, ?_, ?_⟩⟩
    · simp only
      rw [upd_other _ _ hne, upd_same]
    · simp only
      rw [upd_same]
    · intro x
      simp only
      by_cases hx : x = cur + ((s.mem cur).size - nq) * L.Q
      · rw [hx, upd_same]
        simp only
        rw [upd_other _ _ (Ne.symm hne)]
      · rw [upd_other _ _ hx]
        by_cases hx2 : x = cur
        · rw [hx2, upd_same]
        · rw [upd_other _ _ hx2]
    · intro x hx1 hx2
      simp only
      rw [upd_other _ _ hx2, upd_other _ _ hx1]

/-- The helper `get_invisible_mem_from_pool` for any block size, when no free
block is large enough: it returns; with `nullptr` it leaves the state as it
was; a pointer it returns is the rover, and the last free block is then the
only one large enough. -/
theorem mint_cases {L : Layout} {s : State} {fr live : List Blk} {N nq : Nat}
    (hL : LayoutOK L) (hA : SentinelApart L) (hbase : L.base < wordMod L)
    (R : Rep L s fr live N) (hnq : 1 ≤ nq) (hsm : INVISIBLE_POOL_SIZE + minted nq < wordMod L)
    (hsmall : ∀ b ∈ fr, b.2 < nq) :
    ∀ fuel, fr.length + 1 ≤ fuel →
      ∃ s3 r, get_invisible_mem_from_pool L fuel s nq = some (s3, r) ∧ (r = 0 → s3 = s) ∧
        (r ≠ 0 → r = s3.invisible_free_p ∧
          ∃ G b, Heap L s3.mem s3.invisible_free_p (G ++ [b]) live ∧ nq ≤ b.2 ∧
            (∀ x ∈ G, x.2 < nq) ∧ (b.2 ≠ nq → StartOK L (b.1 + (b.2 - nq))) ∧
            G.length ≤ fr.length) := by
  intro fuel hfuel
  obtain ⟨hQ, hb0, hp0, hW⟩ := hL
  have hWd : wordMod L = 2 ^ L.wbits := rfl
  have hcap := R.cap
  have hNle : N ≤ L.Q * N := Nat.le_mul_of_pos_left _ hQ
  unfold minted at hsm
  unfold get_invisible_mem_from_pool
  generalize hnq2 : (if nq < MIN_INVISIBLE_POOL_ALLOC_QUANTAS then
      MIN_INVISIBLE_POOL_ALLOC_QUANTAS else nq) = nq2 at hsm ⊢
  have hnq2le : nq ≤ nq2 := by
    rw [← hnq2]; split <;> omega
  have hnq2pos : 1 ≤ nq2 := by omega
  have hcases : nq2 = nq ∨ (nq < 16 ∧ nq2 = 16) := by
    rw [← hnq2]; unfold MIN_INVISIBLE_POOL_ALLOC_QUANTAS; split <;> omega
  simp only [R.fpos]
  by_cases hchk : (L.Q * N + nq2 * L.Q % wordMod L) % wordMod L ≤ INVISIBLE_POOL_SIZE
  swap
  · simp only [hchk, if_false]
    exact ⟨s, 0, rfl, fun _ => rfl, fun h => absurd rfl h⟩
  simp only [hchk, if_true]
  have hmul : nq2 * L.Q = L.Q * nq2 := Nat.mul_comm _ _
  have hlw : L.Q * N + nq2 * L.Q ≤ INVISIBLE_POOL_SIZE ∨ wordMod L ≤ L.Q * N + nq2 * L.Q := by
    by_contra hcon
    have h1 : L.Q * N + nq2 * L.Q < wordMod L := by omega
    have h2 : nq2 * L.Q % wordMod L = nq2 * L.Q := Nat.mod_eq_of_lt (by omega)
    have h3 : (L.Q * N + nq2 * L.Q) % wordMod L = L.Q * N + nq2 * L.Q := Nat.mod_eq_of_lt h1
    rw [h2, h3] at hchk
    omega
  have hNQ : L.Q * (N + nq2) = L.Q * N + nq2 * L.Q := by rw [Nat.mul_add, hmul]
  have hst : StartOK L N := startOK_of_le hA hQ (by omega)
  have hen : EndOK L (N + nq2) := by
    rcases hlw with h | h
    · exact (startOK_of_le hA hQ (by omega) : StartOK L (N + nq2)).ne
    · unfold EndOK addr
      omega
  have hsplit : StartOK L (N + (nq2 - nq)) := by
    rcases hcases with h | ⟨h1, h2⟩
    · rw [h]; simpa using hst
    · subst h2
      have h16 : 16 * L.Q % wordMod L = 16 * L.Q := Nat.mod_eq_of_lt (by omega)
      have h3 : (L.Q * N + 16 * L.Q) % wordMod L = L.Q * N + 16 * L.Q :=
        Nat.mod_eq_of_lt (by omega)
      rw [h16, h3] at hchk
      refine startOK_of_le hA hQ ?_
      have : L.Q * (N + (16 - nq)) ≤ L.Q * (N + 16) := Nat.mul_le_mul_left _ (by omega)
      omega
  obtain ⟨m1, hm1⟩ : ∃ m1 : Mem,
      m1 = upd s.mem (addr L N) { s.mem (addr L N) with size := nq2 } := ⟨_, rfl⟩
  have H1 : Heap L m1 s.invisible_free_p fr ((N, nq2) :: live) := by
    refine heap_add_live (B := (N, nq2)) hQ R.heap hst hen hnq2pos (by simp only; omega) ?_
      (fun x hx => by rw [hm1]; exact upd_other _ _ hx) (by rw [hm1]; simp)
    intro x hx
    have := R.within x hx
    unfold Disj; simp only; omega
  obtain ⟨F1, F2, e, h1, h2, hrun, H2⟩ := heap_free_state
    (s := { s with mem := m1 }) hQ H1
  have hF2 : F2 = [] := by
    cases F2 with
    | nil => rfl
    | cons c t =>
      have h3 := h2 c (List.mem_cons_self _ _)
      have h4 := R.within c (by rw [e]; simp)
      have h5 := R.heap.pos c (by rw [e]; simp)
      simp only at h3
      omega
  subst hF2
  simp only [List.append_nil] at e
  subst e
  have hfi : freeIns fr (N, nq2) [] = mergeDown fr (N, nq2) := by
    simp [freeIns, mergeUp]
  rw [hfi] at H2
  have hr := hrun fuel hfuel
  have ha : L.pool + L.Q * N = addr L N := rfl
  rw [ha, ← hm1]
  simp only [R.fpos] at hr
  rw [hr]
  refine ⟨_, _, rfl, fun h0 => absurd h0 (predNode_pos hb0 hp0 fr), fun _ => ⟨rfl, ?_⟩⟩
  simp only
  rcases mergeDown_cases fr (N, nq2) with h | ⟨G, a, e2, h3, h⟩
  · rw [h] at H2
    refine ⟨fr, (N, nq2), H2, hnq2le, hsmall, fun _ => ?_, le_refl _⟩
    exact hsplit
  · rw [h] at H2
    simp only at h3
    refine ⟨G, (a.1, a.2 + nq2), H2, by simp only; omega, ?_, fun _ => ?_, ?_⟩
    · intro x hx
      exact hsmall x (by rw [e2]; simp [hx])
    · have : a.1 + (a.2 + nq2 - nq) = N + (nq2 - nq) := by omega
      simp only
      rw [this]
      exact hsplit
    · rw [e2]; simp

theorem fullRun : run layout64 FUEL (zeroState, []) fullOps = some (fullState.1, fullState.2) :=
  getD_of_isSome (run layout64 FUEL (zeroState, []) fullOps) (zeroState, []) (by decide)

/-- The search loop of `invisible_pool_alloc` on a well-formed state for any
block size: when it returns `nullptr` the state is as it was. -/
theorem alloc_null {L : Layout} {s : State} {fr live : List Blk} {N nq : Nat}
    (hL : LayoutOK L) (hA : SentinelApart L) (hbase : L.base < wordMod L)
    (R : Rep L s fr live N) (hnq : 1 ≤ nq) (hsm : INVISIBLE_POOL_SIZE + minted nq < wordMod L) :
    ∀ fuel s1, 2 * fr.length + 6 ≤ fuel →
      alloc_loop L nq fuel s s.invisible_free_p (s.mem s.invisible_free_p).next
        = some (s1, 0) → s1 = s := by
  intro fuel s1 hfuel hal
  have hQ := hL.1
  rcases alloc_search R.heap hQ hnq with ⟨F1, b, F2, e, hle, hrun⟩ | ⟨hsmall, hrun⟩
  · exfalso
    rw [hrun fuel (by omega)] at hal
    have h1 := (alloc_take_ret L hQ nq s (predNode L F1) (addr L b.1)).1
    have h2 := congrArg Prod.snd (Option.some.inj hal)
    exact h1 h2
  · obtain ⟨k, rfl⟩ : ∃ k, fuel = k + 1 + fr.length := ⟨fuel - 1 - fr.length, by omega⟩
    rw [hrun k] at hal
    unfold alloc_refill at hal
    obtain ⟨s3, r, hget, hr0, hr⟩ := mint_cases hL hA hbase R hnq hsm hsmall (k + 1) (by omega)
    rw [hget] at hal
    by_cases hr1 : r = 0
    · simp only [hr1, if_true, Option.some.injEq, Prod.mk.injEq, and_true] at hal
      rw [← hal]
      exact hr0 hr1
    · exfalso
      simp only [hr1, if_false] at hal
      obtain ⟨hrr, G, b, H3, hble, hG, _, hlen⟩ := hr hr1
      rw [hrr] at hal
      rcases alloc_search H3 hQ hnq with ⟨F1, b2, F2, e, _, hrun3⟩ | ⟨hsmall3, _⟩
      · have hlen2 : (G ++ [b]).length = G.length + 1 := by simp
        rw [hrun3 k (by omega)] at hal
        have h1 := (alloc_take_ret L hQ nq s3 (predNode L F1) (addr L b2.1)).1
        have h2 := congrArg Prod.snd (Option.some.inj hal)
        exact h1 h2
      · have := hsmall3 b (by simp)
        omega

/-! ## Counting the calls of the helper -/

/-- The counter does not change what the loop does: without it the counting
loop is `alloc_loop`. -/
theorem calls_erase (L : Layout) (nq : Nat) :
    ∀ (fuel : Nat) (s : State) (prev p : Nat),
      (alloc_loop_calls L nq fuel s prev p).map (fun x => (x.1, x.2.1))
        = alloc_loop L nq fuel s prev p := by
  intro fuel
  induction fuel with
  | zero => intro s prev p; rfl
  | succ k ih =>
    intro s prev p
    unfold alloc_loop_calls alloc_loop
    by_cases h1 : (s.mem p).size ≥ nq
    · simp [h1]
    · simp only [h1, if_false]
      by_cases h2 : p = s.invisible_free_p
      · simp only [h2, if_true]
        cases hg : get_invisible_mem_from_pool L (k + 1) s nq with
        | none => rfl
        | some x =>
          obtain ⟨s2, r⟩ := x
          simp only
          by_cases h3 : r = 0
          · simp [h3]
          · simp only [h3, if_false, Option.map_map]
            rw [← ih s2 r (s2.mem r).next]
            rfl
      · simp only [h2, if_false]
        exact ih s p (s.mem p).next

theorem calls_fit {L : Layout} {nq : Nat} {s : State} {prev p : Nat} (fuel : Nat)
    (h : nq ≤ (s.mem p).size) :
    alloc_loop_calls L nq (fuel + 1) s prev p
      = some ((alloc_take L nq s prev p).1, (alloc_take L nq s prev p).2, 0) := by
  simp [alloc_loop_calls, h]

theorem calls_next {L : Layout} {nq : Nat} {s : State} {prev p : Nat} (fuel : Nat)
    (h : (s.mem p).size < nq) (hp : p ≠ s.invisible_free_p) :
    alloc_loop_calls L nq (fuel + 1) s prev p
      = alloc_loop_calls L nq fuel s p (s.mem p).next := by
  have h2 : ¬ nq ≤ (s.mem p).size := by omega
  simp [alloc_loop_calls, h2, hp]

theorem calls_mint {L : Layout} {nq : Nat} {s : State} {prev p : Nat} (fuel : Nat)
    (h : (s.mem p).size < nq) (hp : p = s.invisible_free_p) :
    alloc_loop_calls L nq (fuel + 1) s prev p =
      match get_invisible_mem_from_pool L (fuel + 1) s nq with
      | none => none
      | some (s2, r) =>
        if r = 0 then some (s2, 0, 1)
        else (alloc_loop_calls L nq fuel s2 r (s2.mem r).next).map
          (fun x => (x.1, x.2.1, x.2.2 + 1)) := by
  have h2 : ¬ nq ≤ (s.mem p).size := by omega
  subst hp
  simp [alloc_loop_calls, h2]

/-- The counting loop walks over nodes that are too small and are not the rover. -/
theorem calls_skip {L : Layout} {nq : Nat} {s : State} {P : Nat → Nat → Prop} {x : Nat}
    (fuel : Nat) :
    ∀ (ys : List Nat) (prev p : Nat),
      List.Chain' (fun u v => NextRel s.mem u v ∧ P u v) (p :: ys ++ [x]) →
      (∀ y ∈ p :: ys, (s.mem y).size < nq ∧ y ≠ s.invisible_free_p) →
      alloc_loop_calls L nq (fuel + (ys.length + 1)) s prev p
        = alloc_loop_calls L nq fuel s ((ys.getLast?).getD p) x := by
  intro ys
  induction ys with
  | nil =>
    intro prev p hch hy
    have h := (List.chain'_pair.1 hch).1
    have h2 := hy p (by simp)
    simp only [List.length_nil, Nat.zero_add, List.getLast?_nil, Option.getD_none]
    rw [calls_next fuel h2.1 h2.2, h]
  | cons y t ih =>
    intro prev p hch hy
    rw [List.cons_append, List.cons_append, List.chain'_cons] at hch
    have h := hch.1.1
    have h2 := hy p (by simp)
    have e : fuel + ((y :: t).length + 1) = (fuel + (t.length + 1)) + 1 := by simp; omega
    rw [e, calls_next _ h2.1 h2.2, h, ih p y hch.2 (fun z hz => hy z (by simp at hz ⊢; tauto))]
    simp [List.getLast?_cons]

/-- The counting search in a heap: either it takes a free block that is large
enough without a call of the helper, or no free block is large enough and it
turns to the pool. -/
theorem calls_search {L : Layout} {s : State} {nq : Nat} {fr live : List Blk}
    (H : Heap L s.mem s.invisible_free_p fr live) (hQ : 0 < L.Q) (hnq : 1 ≤ nq) :
    (∃ F1 b F2, fr = F1 ++ b :: F2 ∧ nq ≤ b.2 ∧ ∀ fuel, fr.length + 1 ≤ fuel →
        alloc_loop_calls L nq fuel s s.invisible_free_p (s.mem s.invisible_free_p).next
          = some ((alloc_take L nq s (predNode L F1) (addr L b.1)).1,
              (alloc_take L nq s (predNode L F1) (addr L b.1)).2, 0)) ∨
    ((∀ b ∈ fr, b.2 < nq) ∧ ∀ fuel,
        alloc_loop_calls L nq (fuel + 1 + fr.length) s s.invisible_free_p
          (s.mem s.invisible_free_p).next = calls_refill L nq fuel s) := by
  obtain ⟨R, hR, hc⟩ : ∃ R : Nat → Nat → Prop,
      (∀ u v, R u v → NextRel s.mem u v ∧ AdjIn (L.base :: nodes L fr ++ [L.base]) u v) ∧
      List.Chain' R (L.base :: nodes L fr ++ [L.base]) :=
    ⟨_, fun _ _ h => h, chain_and H.links (chain_adj (L.base :: nodes L fr ++ [L.base]))⟩
  obtain ⟨V, hV, hperm⟩ := cyc_round hc H.rover
  have hnd : (s.invisible_free_p :: V).Nodup :=
    (hperm.nodup_iff).2 (nodes_nodup hQ H.gaps (fun b hb => H.startOK b (by simp [hb])))
  have hlen : V.length = fr.length := by
    have := hperm.length_eq
    simp [nodes] at this
    exact this
  have hrV : s.invisible_free_p ∉ V := (List.nodup_cons.1 hnd).1
  rcases first_split (fun y => nq ≤ (s.mem y).size) (V ++ [s.invisible_free_p]) with
    hall | ⟨ys, x, zs, e, hys, hx⟩
  · right
    have hsmall : ∀ y ∈ V ++ [s.invisible_free_p], (s.mem y).size < nq := by
      intro y hy; have := hall y hy; omega
    constructor
    · intro b hb
      have h1 : addr L b.1 ∈ L.base :: nodes L fr :=
        List.mem_cons_of_mem _ (mem_nodes.2 ⟨b, hb, rfl⟩)
      have h2 := (hperm.mem_iff).2 h1
      have h3 := hsmall (addr L b.1) (by simp at h2 ⊢; tauto)
      rw [H.sizes b (by simp [hb])] at h3
      exact h3
    · intro fuel
      unfold calls_refill
      cases V with
      | nil =>
        have h1 : (s.mem s.invisible_free_p).next = s.invisible_free_p :=
          (hR _ _ (List.chain'_pair.1 hV)).1
        simp only [List.length_nil] at hlen
        rw [← hlen, h1]
        exact calls_mint fuel (hsmall _ (by simp)) rfl
      | cons p ys =>
        have h1 : (s.mem s.invisible_free_p).next = p := by
          rw [List.cons_append, List.cons_append, List.chain'_cons] at hV
          exact (hR _ _ hV.1).1
        have hV2 : List.Chain' (fun u v => NextRel s.mem u v ∧
            AdjIn (L.base :: nodes L fr ++ [L.base]) u v) (p :: ys ++ [s.invisible_free_p]) := by
          rw [List.cons_append, List.chain'_cons'] at hV
          exact hV.2.imp hR
        have h2 := @calls_skip L nq s _ _ (fuel + 1) ys s.invisible_free_p p hV2
          (fun y hy => ⟨hsmall y (by simp at hy ⊢; tauto), fun h => hrV (h ▸ hy)⟩)
        simp only [List.length_cons] at hlen
        rw [← hlen, h1, h2]
        exact calls_mint fuel (hsmall _ (by simp)) rfl
  · left
    have hVe : V = ys ++ (x :: zs).dropLast := by
      have := congrArg List.dropLast e
      simpa using this
    have hysr : ∀ y ∈ ys, y ≠ s.invisible_free_p := by
      intro y hy h
      exact hrV (by rw [hVe, ← h]; exact List.mem_append_left _ hy)
    have hV3 : List.Chain' R (s.invisible_free_p :: ys ++ x :: zs) := by
      have e2 : s.invisible_free_p :: V ++ [s.invisible_free_p]
          = s.invisible_free_p :: ys ++ x :: zs := by
        rw [List.cons_append, e, List.cons_append]
      rw [← e2]; exact hV
    have hrel := chain_last_rel ys s.invisible_free_p x zs hV3
    have hxb : x ≠ L.base := by
      intro h
      rw [h, H.base_size] at hx
      omega
    obtain ⟨F1, b, F2, hfr, hxa, hprev⟩ := adj_split (hR _ _ hrel).2 hxb
    have hb2 : (s.mem x).size = b.2 := by
      rw [hxa]; exact H.sizes b (by rw [hfr]; simp)
    refine ⟨F1, b, F2, hfr, by rw [← hb2]; exact hx, ?_⟩
    intro fuel hfuel
    have hlen2 : ys.length + 1 ≤ fr.length + 1 := by
      have := congrArg List.length e
      simp at this
      omega
    rw [← hprev, ← hxa]
    cases ys with
    | nil =>
      have h1 : (s.mem s.invisible_free_p).next = x := (hR _ _ (List.chain'_cons.1 hV3).1).1
      obtain ⟨k, rfl⟩ : ∃ k, fuel = k + 1 := ⟨fuel - 1, by omega⟩
      rw [h1]
      exact calls_fit k hx
    | cons p ys2 =>
      have h1 : (s.mem s.invisible_free_p).next = p := by
        rw [List.cons_append, List.cons_append, List.chain'_cons] at hV3
        exact (hR _ _ hV3.1).1
      have hV4 : List.Chain' (fun u v => NextRel s.mem u v ∧
          AdjIn (L.base :: nodes L fr ++ [L.base]) u v) (p :: ys2 ++ [x]) := by
        have h3 : List.Chain' R ((s.invisible_free_p :: p :: ys2) ++ x :: zs) := by
          simpa using hV3
        rw [List.chain'_split] at h3
        have h4 := h3.1
        rw [List.cons_append, List.chain'_cons'] at h4
        exact h4.2.imp hR
      simp only [List.length_cons] at hlen2
      obtain ⟨k, rfl⟩ : ∃ k, fuel = (k + 1) + (ys2.length + 1) :=
        ⟨fuel - (ys2.length + 2), by omega⟩
      have h2 := @calls_skip L nq s _ _ (k + 1) ys2 s.invisible_free_p p hV4
        (fun y hy => ⟨by have := hys y hy; omega, hysr y hy⟩)
      rw [h1, h2]
      simp only [List.getLast?_cons]
      exact calls_fit k hx

theorem alloc_calls_erase (L : Layout) (fuel : Nat) (s : State) (n : Nat) :
    (invisible_pool_alloc_calls L fuel s n).map (fun x => (x.1, x.2.1))
      = invisible_pool_alloc L fuel s n := by
  unfold invisible_pool_alloc_calls invisible_pool_alloc
  exact calls_erase L _ fuel _ _ _

/-- The counting loop on a well-formed state, for a block size that does not
wrap: it returns after at most one call of the helper, given fuel for two
rounds of the free list. -/
theorem rep_calls {L : Layout} {s : State} {fr live : List Blk} {N nq : Nat}
    (hL : LayoutOK L) (hA : SentinelApart L) (R : Rep L s fr live N) (hnq : 1 ≤ nq)
    (hnw : INVISIBLE_POOL_SIZE + minted nq * L.Q < wordMod L) :
    ∀ fuel, 2 * fr.length + 6 ≤ fuel →
      ∃ s2 p c, alloc_loop_calls L nq fuel s s.invisible_free_p
          (s.mem s.invisible_free_p).next = some (s2, p, c) ∧ c ≤ 1 := by
  intro fuel hfuel
  have hQ := hL.1
  rcases calls_search R.heap hQ hnq with ⟨F1, b, F2, _, _, hrun⟩ | ⟨_, hrun⟩
  · exact ⟨_, _, 0, hrun fuel (by omega), by omega⟩
  · obtain ⟨k, rfl⟩ : ∃ k, fuel = k + 1 + fr.length := ⟨fuel - 1 - fr.length, by omega⟩
    rw [hrun k]
    unfold calls_refill
    by_cases hfit : L.Q * N + minted nq * L.Q ≤ INVISIBLE_POOL_SIZE
    · obtain ⟨s3, fr3, hget, hr0, R3, ⟨b3, hb3, hb3le⟩, hlen3⟩ :=
        @rep_mint L s fr live N nq hL hA R hfit
      rw [hget (k + 1) (by omega)]
      simp only [hr0, if_false]
      rcases calls_search R3.heap hQ hnq with ⟨F1, b, F2, _, _, hrun3⟩ | ⟨hsmall3, _⟩
      · rw [hrun3 k (by omega)]
        exact ⟨_, _, 1, rfl, le_refl _⟩
      · have := hsmall3 b3 hb3
        omega
    · rw [mint_fail (k + 1) R.fpos R.cap hnw (by omega)]
      exact ⟨s, 0, 1, rfl, le_refl _⟩

/-! ## The sentinel as the first header after the pool -/

theorem abutRun2 :
    run abutLayout FUEL (zeroState, []) abutOps2 = some (abutState2.1, abutState2.2) :=
  getD_of_isSome (run abutLayout FUEL (zeroState, []) abutOps2) (zeroState, []) (by decide)

theorem adjRun :
    run abutLayout FUEL (zeroState, []) adjOps = some (adjState.1, adjState.2) :=
  getD_of_isSome (run abutLayout FUEL (zeroState, []) adjOps) (zeroState, []) (by decide)

/-- One step of the walk over the free list at a node that is not the
sentinel. -/
theorem walk_step (m : Mem) {base p : Nat} (fuel : Nat) (hp : p ≠ base) :
    walk m base (fuel + 1) p = p :: walk m base fuel (m p).next := by
  simp [walk, hp]

/-- A request whose block fits in the pool is at most `INVISIBLE_POOL_SIZE - Q`
bytes long; `minted_fits` is the converse when `Q` divides the pool size. -/
theorem le_of_fits {L : Layout} (hL : LayoutOK L) {n : Nat}
    (hfit : max ((n + L.Q - 1) / L.Q + 1) 16 * L.Q ≤ INVISIBLE_POOL_SIZE) :
    n ≤ INVISIBLE_POOL_SIZE - L.Q := by
  have hQ := hL.1
  have h1 : n + L.Q - 1 < (n + L.Q - 1) / L.Q * L.Q + L.Q := Nat.lt_div_mul_add hQ
  have h2 : ((n + L.Q - 1) / L.Q + 1) * L.Q ≤ max ((n + L.Q - 1) / L.Q + 1) 16 * L.Q :=
    Nat.mul_le_mul_right _ (le_max_left _ _)
  rw [Nat.add_mul, Nat.one_mul] at h2
  omega

/-! ## The invariants when the sentinel is not the first header after the pool -/

/-- Conservation when the sentinel is not the first header after the pool:
after every sequence of legal calls from the zero-initialised state, the size
fields of the blocks on the free list plus the size fields of the live
allocations add up to `invisible_pool_free_pos / Q`. -/
theorem conservation (L : Layout) (fuel : Nat) (ops : List Op) (s : State) (lv : List Nat)
    (hL : LayoutOK L) (hA : SentinelApart L) (hfuel : FUEL ≤ fuel)
    (hrun : run L fuel (zeroState, []) ops = some (s, lv)) :
    ((freeNodes L fuel s).map (fun a => (s.mem a).size)).sum
        + (lv.map (fun p => (s.mem (p - L.Q)).size)).sum
      = s.invisible_pool_free_pos / L.Q := by
  have I := run_inv hL hA hfuel ops _ _ (zero_inv L) hrun
  rcases I with ⟨h0, hp, hlv⟩ | ⟨fr, live, N, R, hlv⟩
  · simp only at h0 hp hlv
    simp [freeNodes, h0, hp, hlv]
  · simp only at R hlv
    rw [freeNodes_rep hL R hfuel, hlv, sum_node_sizes fr (fun b hb => R.heap.sizes b (by simp [hb])),
      sum_live_sizes live (fun b hb => R.heap.sizes b (by simp [hb])), R.fpos,
      Nat.mul_div_cancel_left _ hL.1]
    exact R.total

theorem conservation_witness :
    ((freeNodes layout64 FUEL exState.1).map (fun a => (exState.1.mem a).size)).sum
        + (exState.2.map (fun p => (exState.1.mem (p - layout64.Q)).size)).sum
      = exState.1.invisible_pool_free_pos / layout64.Q :=
  conservation layout64 FUEL exOps exState.1 exState.2 layout64_ok layout64_apart
    (le_refl _) exRun

/-- The sorted list when the sentinel lies outside the backing region and is
not the first header after it: after every non-empty sequence of legal calls
from the zero-initialised state, following `next` from the sentinel returns to
the sentinel after the free blocks, these are met in strictly increasing
address order, and exactly one link `p → p.next` of the round has
`p ≥ p.next`. -/
theorem sorted_list (L : Layout) (fuel : Nat) (ops : List Op) (s : State) (lv : List Nat)
    (hL : LayoutOK L) (hA : SentinelApart L) (hfuel : FUEL ≤ fuel) (hne : ops ≠ [])
    (hrun : run L fuel (zeroState, []) ops = some (s, lv)) :
    SortedCycle L fuel s := by
  obtain ⟨fr, live, N, R, _⟩ := run_rep hL hA hfuel ops hne _ _ (zero_inv L) hrun
  exact sorted_rep hL R hfuel

theorem sorted_list_witness :
    freeNodes layout64 FUEL exState.1 = [8192, 8544] ∧ SortedCycle layout64 FUEL exState.1 :=
  ⟨by decide, sorted_list layout64 FUEL exOps exState.1 exState.2 layout64_ok layout64_apart
    (le_refl _) (List.cons_ne_nil _ _) exRun⟩

/-- No adjacent free blocks when the sentinel is not the first header after
the pool: after every sequence of legal calls from the zero-initialised state
no free block ends where another node of the free list starts; and the same
holds in the state that `get_invisible_mem_from_pool` leaves when, called for
a request of at most `INVISIBLE_POOL_SIZE` bytes, it returns a non-null
pointer. -/
theorem no_adjacent_frees (L : Layout) (fuel : Nat) (ops : List Op) (s : State)
    (lv : List Nat) (hL : LayoutOK L) (hA : SentinelApart L) (hfuel : FUEL ≤ fuel)
    (hrun : run L fuel (zeroState, []) ops = some (s, lv)) :
    NoAdjacent L fuel s ∧
    ∀ n s3 r, n ≤ INVISIBLE_POOL_SIZE →
      get_invisible_mem_from_pool L fuel (alloc_init L s) (num_quantas_of L n) = some (s3, r) →
      r ≠ 0 → NoAdjacent L fuel s3 := by
  have I := run_inv hL hA hfuel ops _ _ (zero_inv L) hrun
  constructor
  · rcases I with ⟨h0, _, _⟩ | ⟨fr, live, N, R, _⟩
    · simp only at h0
      intro a ha
      simp [freeNodes, h0] at ha
    · exact nonadj_rep hL R hfuel
  · intro n s3 r hn hget hr
    obtain ⟨fr, live, N, R, _, _⟩ := init_cases hL I
    obtain ⟨_, _, hnw, _, _⟩ := nq_of_le hL hn
    have hlen := rep_len hL.1 R
    by_cases hfit : L.Q * N + minted (num_quantas_of L n) * L.Q ≤ INVISIBLE_POOL_SIZE
    · obtain ⟨s4, fr4, hget4, _, R4, _, _⟩ :=
        @rep_mint L (alloc_init L s) fr live N (num_quantas_of L n) hL hA R hfit
      rw [hget4 fuel (by unfold FUEL at hfuel; omega)] at hget
      simp only [Option.some.injEq, Prod.mk.injEq] at hget
      rw [← hget.1]
      exact nonadj_rep hL R4 hfuel
    · rw [mint_fail fuel R.fpos R.cap hnw (by omega)] at hget
      simp only [Option.some.injEq, Prod.mk.injEq] at hget
      exact absurd hget.2.symm hr

theorem no_adjacent_frees_witness :
    NoAdjacent layout64 FUEL exState.1 ∧
    ∀ n s3 r, n ≤ INVISIBLE_POOL_SIZE →
      get_invisible_mem_from_pool layout64 FUEL (alloc_init layout64 exState.1)
        (num_quantas_of layout64 n) = some (s3, r) →
      r ≠ 0 → NoAdjacent layout64 FUEL s3 :=
  no_adjacent_frees layout64 FUEL exOps exState.1 exState.2 layout64_ok layout64_apart
    (le_refl _) exRun

/-- Disjoint blocks when the sentinel is not the first header after the pool:
after every sequence of legal calls from the zero-initialised state, a request
of at most `INVISIBLE_POOL_SIZE` bytes returns, and when the returned pointer
`p` is not null, the block behind `p` is disjoint, as a range of bytes, from
the block behind every pointer that is live at that moment and from every
block on the free list after the call. -/
theorem non_overlap (L : Layout) (fuel : Nat) (ops : List Op) (s : State) (lv : List Nat)
    (n : Nat) (hL : LayoutOK L) (hA : SentinelApart L) (hfuel : FUEL ≤ fuel)
    (hrun : run L fuel (zeroState, []) ops = some (s, lv)) (hn : n ≤ INVISIBLE_POOL_SIZE) :
    ∃ s2 p, invisible_pool_alloc L fuel s n = some (s2, p) ∧
      (p ≠ 0 →
        (∀ q ∈ lv, (q - L.Q) + (s2.mem (q - L.Q)).size * L.Q ≤ p - L.Q ∨
          (p - L.Q) + (s2.mem (p - L.Q)).size * L.Q ≤ q - L.Q) ∧
        (∀ a ∈ freeNodes L fuel s2, a + (s2.mem a).size * L.Q ≤ p - L.Q ∨
          (p - L.Q) + (s2.mem (p - L.Q)).size * L.Q ≤ a)) := by
  have I := run_inv hL hA hfuel ops _ _ (zero_inv L) hrun
  obtain ⟨fr, live, N, R, hlv, _, s2, p, hrun2, hout⟩ := inv_alloc hL hA hfuel I hn
  simp only at hlv
  refine ⟨s2, p, hrun2, ?_⟩
  intro hp
  have key : ∀ fr2 o N2, p = addr L o + L.Q →
      Rep L s2 fr2 ((o, num_quantas_of L n) :: live) N2 →
      (∀ q ∈ lv, (q - L.Q) + (s2.mem (q - L.Q)).size * L.Q ≤ p - L.Q ∨
          (p - L.Q) + (s2.mem (p - L.Q)).size * L.Q ≤ q - L.Q) ∧
        (∀ a ∈ freeNodes L fuel s2, a + (s2.mem a).size * L.Q ≤ p - L.Q ∨
          (p - L.Q) + (s2.mem (p - L.Q)).size * L.Q ≤ a) := by
    intro fr2 o N2 hpo R2
    have hd := R2.heap.disj
    rw [List.pairwise_append, List.pairwise_cons] at hd
    obtain ⟨_, ⟨hd1, _⟩, hd2⟩ := hd
    have hso := R2.heap.sizes (o, num_quantas_of L n) (by simp)
    simp only at hso
    rw [hpo, Nat.add_sub_cancel, hso]
    constructor
    · intro q hq
      rw [hlv] at hq
      obtain ⟨b, hb, hbq⟩ := List.mem_map.1 hq
      rw [← hbq]
      unfold payload
      rw [Nat.add_sub_cancel, R2.heap.sizes b (by simp [hb])]
      exact disj_bytes (disj_symm (hd1 b hb))
    · intro a ha
      rw [freeNodes_rep hL R2 hfuel] at ha
      obtain ⟨b, hb, hba⟩ := mem_nodes.1 ha
      rw [← hba, R2.heap.sizes b (by simp [hb])]
      exact disj_bytes (hd2 b hb (o, num_quantas_of L n) (by simp))
  rcases hout with ⟨h0, _⟩ | ⟨fr2, o, hpo, R2, _⟩ | ⟨fr2, o, hpo, R2, _⟩
  · exact absurd h0 hp
  · exact key fr2 o N hpo R2
  · exact key fr2 o _ hpo R2

theorem non_overlap_witness :
    ∃ s2 p, invisible_pool_alloc layout64 FUEL exState.1 40 = some (s2, p) ∧
      (p ≠ 0 →
        (∀ q ∈ exState.2, (q - layout64.Q) + (s2.mem (q - layout64.Q)).size * layout64.Q
            ≤ p - layout64.Q ∨
          (p - layout64.Q) + (s2.mem (p - layout64.Q)).size * layout64.Q ≤ q - layout64.Q) ∧
        (∀ a ∈ freeNodes layout64 FUEL s2, a + (s2.mem a).size * layout64.Q ≤ p - layout64.Q ∨
          (p - layout64.Q) + (s2.mem (p - layout64.Q)).size * layout64.Q ≤ a)) :=
  non_overlap layout64 FUEL exOps exState.1 exState.2 40 layout64_ok layout64_apart
    (le_refl _) exRun (by decide)

end InvisiblePool

/-! ## The claims -/

namespace InvisiblePool

/-- C1 (containment): after every sequence of legal calls from the
zero-initialised state, a request of at most `INVISIBLE_POOL_SIZE` bytes
returns, and when the returned pointer `p` is not null the block
`[p - Q, p - Q + size * Q)`, `size` read from its header, lies inside
`[pool, pool + invisible_pool_free_pos)` and the cursor is at most
`INVISIBLE_POOL_SIZE`. -/
theorem containment (L : Layout) (fuel : Nat) (ops : List Op) (s : State) (lv : List Nat)
    (n : Nat) (hL : LayoutOK L) (hA : SentinelApart L) (hfuel : FUEL ≤ fuel)
    (hrun : run L fuel (zeroState, []) ops = some (s, lv)) (hn : n ≤ INVISIBLE_POOL_SIZE) :
    ∃ s2 p, invisible_pool_alloc L fuel s n = some (s2, p) ∧
      (p ≠ 0 → L.pool ≤ p - L.Q ∧ L.Q ≤ p ∧
        (p - L.Q) + (s2.mem (p - L.Q)).size * L.Q ≤ L.pool + s2.invisible_pool_free_pos ∧
        s2.invisible_pool_free_pos ≤ INVISIBLE_POOL_SIZE) := by
  have I := run_inv hL hA hfuel ops _ _ (zero_inv L) hrun
  obtain ⟨fr, live, N, R, hlv, _, s2, p, hrun2, hout⟩ := inv_alloc hL hA hfuel I hn
  refine ⟨s2, p, hrun2, ?_⟩
  intro hp
  have key : ∀ fr2 o N2, p = addr L o + L.Q →
      Rep L s2 fr2 ((o, num_quantas_of L n) :: live) N2 →
      L.pool ≤ p - L.Q ∧ L.Q ≤ p ∧
        (p - L.Q) + (s2.mem (p - L.Q)).size * L.Q ≤ L.pool + s2.invisible_pool_free_pos ∧
        s2.invisible_pool_free_pos ≤ INVISIBLE_POOL_SIZE := by
    intro fr2 o N2 hpo R2
    have h1 := R2.heap.sizes (o, num_quantas_of L n) (by simp)
    have h2 := R2.within (o, num_quantas_of L n) (by simp)
    have h3 := R2.cap
    have h4 : L.Q * (o + num_quantas_of L n) ≤ L.Q * N2 := Nat.mul_le_mul_left _ h2
    simp only at h1 h2 h4
    rw [hpo, Nat.add_sub_cancel, h1, addr_add, R2.fpos]
    unfold addr
    refine ⟨by omega, by omega, by omega, h3⟩
  rcases hout with ⟨h0, _⟩ | ⟨fr2, o, hpo, R2, _⟩ | ⟨fr2, o, hpo, R2, _⟩
  · exact absurd h0 hp
  · exact key fr2 o _ hpo R2
  · exact key fr2 o _ hpo R2

theorem containment_witness :
    exState.2 = [8512] ∧
    ∃ s2 p, invisible_pool_alloc layout64 FUEL exState.1 50 = some (s2, p) ∧
      (p ≠ 0 → layout64.pool ≤ p - layout64.Q ∧ layout64.Q ≤ p ∧
        (p - layout64.Q) + (s2.mem (p - layout64.Q)).size * layout64.Q
          ≤ layout64.pool + s2.invisible_pool_free_pos ∧
        s2.invisible_pool_free_pos ≤ INVISIBLE_POOL_SIZE) :=
  ⟨by decide, containment layout64 FUEL exOps exState.1 exState.2 50 layout64_ok layout64_apart
    (le_refl _) exRun (by decide)⟩

/-- C3 (exhaustion exactly when stated): in every well-formed state a request
of at most `INVISIBLE_POOL_SIZE` bytes returns, and it returns `nullptr` if
and only if no block on the free list has `n_quantas = ceil(n / Q) + 1`
quanta or more and the cursor plus `max(n_quantas, 16) * Q` exceeds
`INVISIBLE_POOL_SIZE`. -/
theorem exhaustion (L : Layout) (fuel : Nat) (s : State) (n : Nat) (hL : LayoutOK L)
    (hA : SentinelApart L) (hfuel : FUEL ≤ fuel) (hwf : WF L s)
    (hn : n ≤ INVISIBLE_POOL_SIZE) :
    ∃ s2 p, invisible_pool_alloc L fuel s n = some (s2, p) ∧
      (p = 0 ↔ ((∀ a ∈ freeNodes L fuel s, (s.mem a).size < (n + L.Q - 1) / L.Q + 1) ∧
        INVISIBLE_POOL_SIZE
          < s.invisible_pool_free_pos + max ((n + L.Q - 1) / L.Q + 1) 16 * L.Q)) := by
  obtain ⟨lv, I⟩ := wf_inv hwf
  obtain ⟨fr, live, N, R, _, hc, s2, p, hrun, hout⟩ := inv_alloc hL hA hfuel I hn
  obtain ⟨hnq, _, _, _, _⟩ := nq_of_le hL hn
  obtain ⟨hfn, hsz⟩ := freeNodes_init hL hfuel R hc
  have hpos : s.invisible_pool_free_pos = L.Q * N := by
    rw [← alloc_init_pos L s]; exact R.fpos
  have hsmall : (∀ a ∈ freeNodes L fuel s, (s.mem a).size < (n + L.Q - 1) / L.Q + 1) ↔
      ∀ b ∈ fr, b.2 < num_quantas_of L n := by
    rw [hfn, hnq]
    constructor
    · intro h b hb
      have := h (addr L b.1) (mem_nodes.2 ⟨b, hb, rfl⟩)
      rw [hsz b hb] at this
      exact this
    · intro h a ha
      obtain ⟨b, hb, rfl⟩ := mem_nodes.1 ha
      rw [hsz b hb]
      exact h b hb
  refine ⟨s2, p, hrun, ?_⟩
  rw [hsmall, hpos, ← hnq, ← minted_eq_max]
  have hQ := hL.1
  rcases hout with ⟨h0, _, h1, h2⟩ | ⟨fr2, o, hpo, _, b, hb, hble⟩ | ⟨fr2, o, hpo, _, _, h2⟩
  · exact ⟨fun _ => ⟨h1, h2⟩, fun _ => h0⟩
  · constructor
    · intro h; omega
    · intro h; have := h.1 b hb; omega
  · constructor
    · intro h; omega
    · intro h; omega

theorem exhaustion_witness :
    ∃ s2 p, invisible_pool_alloc layout64 FUEL exState.1 40 = some (s2, p) ∧
      (p = 0 ↔ ((∀ a ∈ freeNodes layout64 FUEL exState.1,
          (exState.1.mem a).size < (40 + layout64.Q - 1) / layout64.Q + 1) ∧
        INVISIBLE_POOL_SIZE < exState.1.invisible_pool_free_pos
          + max ((40 + layout64.Q - 1) / layout64.Q + 1) 16 * layout64.Q)) :=
  exhaustion layout64 FUEL exState.1 40 layout64_ok layout64_apart (le_refl _)
    (inv_wf (run_inv layout64_ok layout64_apart (le_refl _) exOps _ _ (zero_inv _) exRun))
    (by decide)

/-- C4 (requests larger than `INVISIBLE_POOL_SIZE - Q` must fail): the code
at two such requests on a fresh pool. For `2 ^ 64 - 1` bytes the sum of line
70 wraps, `num_quantas` is 1, and the call returns the non-null pointer
`pool + 16 * Q`. For `2 ^ 64 - 32` bytes `num_quantas * Q` wraps to 0 in
`get_invisible_mem_from_pool`, the call returns `pool + Q` and the cursor
stays 0. -/
theorem huge_request_succeeds :
    INVISIBLE_POOL_SIZE - layout64.Q < 2 ^ 64 - 1 ∧ 2 ^ 64 - 1 < wordMod layout64 ∧
    num_quantas_of layout64 (2 ^ 64 - 1) = 1 ∧
    (invisible_pool_alloc layout64 FUEL zeroState (2 ^ 64 - 1)).map Prod.snd
      = some (layout64.pool + 16 * layout64.Q) ∧
    (invisible_pool_alloc layout64 FUEL zeroState (2 ^ 64 - 32)).map
        (fun r => (r.2, r.1.invisible_pool_free_pos))
      = some (layout64.pool + layout64.Q, 0) := by
  decide

/-- C5 (block sizing): the code at the request of `2 ^ 64 - 1` bytes on a
fresh pool. The returned pointer is not null, the header one quantum before
it has size 1, not `ceil(n / Q) + 1`, and the payload has room for 0 bytes. -/
theorem undersized_block :
    (invisible_pool_alloc layout64 FUEL zeroState (2 ^ 64 - 1)).map
        (fun r => (r.2, (r.1.mem (r.2 - layout64.Q)).size))
      = some (8704, 1) ∧
    (2 ^ 64 - 1 + layout64.Q - 1) / layout64.Q + 1 ≠ 1 ∧
    ¬ (2 ^ 64 - 1 ≤ (1 - 1) * layout64.Q) := by
  decide

/-- C6 (round trip): in every well-formed state, if `invisible_pool_alloc(n)`
returns a non-null pointer `p`, then `invisible_pool_free(p)` returns, and an
immediately following `invisible_pool_alloc(n)` returns a non-null pointer,
leaves the high-water cursor where it was, and is the block-taking branch of
the search loop applied to a block of the free list as the free left it. This
holds for every request size `n`. -/
theorem round_trip (L : Layout) (fuel : Nat) (s s1 : State) (n p : Nat) (hL : LayoutOK L)
    (hA : SentinelApart L) (hQ2 : 2 ≤ L.Q) (hbase : L.base < wordMod L) (hfuel : FUEL ≤ fuel)
    (hwf : WF L s) (hal : invisible_pool_alloc L fuel s n = some (s1, p)) (hp : p ≠ 0) :
    ∃ s2, invisible_pool_free L fuel s1 p = some s2 ∧
      ∃ s3 p3, invisible_pool_alloc L fuel s2 n = some (s3, p3) ∧ p3 ≠ 0 ∧
        s3.invisible_pool_free_pos = s2.invisible_pool_free_pos ∧
        ∃ prev_p q, (s3, p3) = alloc_take L (num_quantas_of L n) s2 prev_p q ∧
          q ∈ freeNodes L fuel s2 ∧ num_quantas_of L n ≤ (s2.mem q).size := by
  obtain ⟨lv, I⟩ := wf_inv hwf
  obtain ⟨fr, live, N, R, _, _⟩ := init_cases hL I
  obtain ⟨hnq, hsm⟩ := nq_any hL hQ2 n
  have hlen := rep_len hL.1 R
  have hF : FUEL = 2 * INVISIBLE_POOL_SIZE + 8 := rfl
  obtain ⟨s1b, pb, hrun, hout⟩ := alloc_any hL hA hbase R hnq hsm fuel (by omega)
  have hal1 : invisible_pool_alloc L fuel s n = some (s1b, pb) := hrun
  rw [hal1] at hal
  injection hal with hal
  injection hal with hs1 hp1
  subst hs1 hp1
  obtain ⟨fr1, o, hpo, H1, hlen1⟩ := hout hp
  obtain ⟨s2, fr2, hfree, hrov, H2, hlen2, prev, b, hb, hble, hnext⟩ :=
    heap_round hL.1 hL.2.1 hL.2.2.1 hnq H1
  refine ⟨s2, by rw [hpo]; exact hfree fuel (by omega), ?_⟩
  have hinit : alloc_init L s2 = s2 := by simp [alloc_init, hrov]
  have hal2 : invisible_pool_alloc L fuel s2 n
      = some (alloc_take L (num_quantas_of L n) s2 prev (addr L b.1)) := by
    have := hnext fuel (by omega)
    unfold invisible_pool_alloc
    simp only [hinit]
    exact this
  obtain ⟨h1, h2⟩ := alloc_take_ret L hL.1 (num_quantas_of L n) s2 prev (addr L b.1)
  refine ⟨_, _, hal2, h1, h2, prev, addr L b.1, rfl, ?_, ?_⟩
  · rw [freeNodes_heap hL.1 hrov H2 (by omega)]
    exact mem_nodes.2 ⟨b, hb, rfl⟩
  · rw [H2.sizes b (by simp [hb])]
    exact hble

theorem round_trip_witness :
    ∃ s2, invisible_pool_free layout64 FUEL rtAlloc.1 rtAlloc.2 = some s2 ∧
      ∃ s3 p3, invisible_pool_alloc layout64 FUEL s2 64 = some (s3, p3) ∧ p3 ≠ 0 ∧
        s3.invisible_pool_free_pos = s2.invisible_pool_free_pos ∧
        ∃ prev_p q, (s3, p3) = alloc_take layout64 (num_quantas_of layout64 64) s2 prev_p q ∧
          q ∈ freeNodes layout64 FUEL s2 ∧ num_quantas_of layout64 64 ≤ (s2.mem q).size :=
  round_trip layout64 FUEL exState.1 rtAlloc.1 64 rtAlloc.2 layout64_ok layout64_apart
    (by decide) (by decide) (le_refl _)
    (inv_wf (run_inv layout64_ok layout64_apart (le_refl _) exOps _ _ (zero_inv _) exRun))
    (getD_of_isSome (invisible_pool_alloc layout64 FUEL exState.1 64) (zeroState, 0) (by decide))
    (by decide)

/-- C9 (order-independence of coalescing): in every well-formed state with
live pointers `lv`, let `ps` list, in address order, live pointers whose blocks
abut one after the other, so that together they occupy one contiguous range.
Freeing them in any two orders returns and leaves the same free blocks
(header address and size). After freeing them in any order, one free block
contains the whole range; when in the starting state no free block ends where
the range starts and none starts where it ends, that block is exactly the
range: it starts at the first header and its size is the combined size of the
freed blocks. -/
theorem coalescing_order (L : Layout) (fuel : Nat) (s : State) (lv ps : List Nat)
    (hL : LayoutOK L) (hfuel : FUEL ≤ fuel) (I : RunInv L (s, lv))
    (hlive : ∀ p ∈ ps, p ∈ lv) (hcontig : List.Chain' (Abuts L s) ps) :
    (∀ qs1 qs2, List.Perm qs1 ps → List.Perm qs2 ps →
      ∃ s1 s2, freeAll L fuel s qs1 = some s1 ∧ freeAll L fuel s qs2 = some s2 ∧
        freeBlocks L fuel s1 = freeBlocks L fuel s2) ∧
    (∀ qs a rest, List.Perm qs ps → ps = a :: rest →
      ∃ s2, freeAll L fuel s qs = some s2 ∧
        ∃ blk ∈ freeBlocks L fuel s2, blk.1 ≤ a - L.Q ∧
          a - L.Q + sizeSum L s ps * L.Q ≤ blk.1 + blk.2 * L.Q ∧
          ((∀ f ∈ freeBlocks L fuel s, f.1 + f.2 * L.Q ≠ a - L.Q ∧
              f.1 ≠ a - L.Q + sizeSum L s ps * L.Q) →
            blk = (a - L.Q, sizeSum L s ps))) := by
  have hQ := hL.1
  rcases I with ⟨_, _, hlv⟩ | ⟨fr, live, N, R, hlv⟩
  · have hps : ps = [] := by
      rw [List.eq_nil_iff_forall_not_mem]
      intro p hp
      have := hlive p hp
      simp only at hlv
      rw [hlv] at this
      simp at this
    subst hps
    constructor
    · intro qs1 qs2 h1 h2
      rw [List.Perm.eq_nil h1, List.Perm.eq_nil h2]
      exact ⟨s, s, rfl, rfl, rfl⟩
    · intro qs a rest _ h
      simp at h
  · simp only at hlv
    replace R : Rep L s fr live N := R
    have hl2 : ∀ p ∈ ps, p ∈ live.map (payload L) := by
      intro p hp; rw [← hlv]; exact hlive p hp
    have hnd : ps.Nodup := by
      have h1 := chain_nodup hQ R.heap ps hl2 hcontig
      rw [List.chain'_iff_pairwise] at h1
      exact h1.imp (fun h => Nat.ne_of_lt h)
    have key : ∀ qs, List.Perm qs ps → ∃ s2 fr2 lv2, freeAll L fuel s qs = some s2 ∧
        Rep L s2 fr2 lv2 N ∧ ∀ q, Cov fr2 q ↔ Cov fr q ∨ CovP L live ps q := by
      intro qs hperm
      obtain ⟨s2, fr2, lv2, hrun, R2, hcov⟩ := free_all_rep hL hfuel qs s fr live N R
        ((hperm.nodup_iff).2 hnd) (fun p hp => hl2 p ((hperm.mem_iff).1 hp))
      refine ⟨s2, fr2, lv2, hrun, R2, fun q => ?_⟩
      rw [hcov]
      unfold CovP
      constructor
      · rintro (h | ⟨B, hB, hBq, h⟩)
        · exact Or.inl h
        · exact Or.inr ⟨B, hB, (hperm.mem_iff).1 hBq, h⟩
      · rintro (h | ⟨B, hB, hBq, h⟩)
        · exact Or.inl h
        · exact Or.inr ⟨B, hB, (hperm.mem_iff).2 hBq, h⟩
    constructor
    · intro qs1 qs2 h1 h2
      obtain ⟨s1, fr1, lv1, hrun1, R1, hcov1⟩ := key qs1 h1
      obtain ⟨s2, fr2, lv2, hrun2, R2, hcov2⟩ := key qs2 h2
      have e : fr1 = fr2 := cov_unique fr1 fr2 R1.heap.gaps R2.heap.gaps
        (fun b hb => R1.heap.pos b (by simp [hb])) (fun b hb => R2.heap.pos b (by simp [hb]))
        (fun q => by rw [hcov1, hcov2])
      refine ⟨s1, s2, hrun1, hrun2, ?_⟩
      rw [freeBlocks_rep hL R1 hfuel, freeBlocks_rep hL R2 hfuel, e]
    · intro qs a rest hperm hps
      obtain ⟨s2, fr2, lv2, hrun2, R2, hcov2⟩ := key qs hperm
      rw [hps] at hl2 hcontig
      obtain ⟨A, hA, hAa, hAT, hcovA⟩ := chain_cov hQ R.heap rest a hl2 hcontig
      rw [← hps] at hcovA hAT
      have hApos := R.heap.pos A (by simp [hA])
      have haddr : a - L.Q = addr L A.1 := by
        rw [← hAa]; unfold payload; rw [Nat.add_sub_cancel]
      obtain ⟨b, hb, hb1, hb2⟩ := @cov_block fr2 R2.heap.gaps
        A.1 (A.1 + sizeSum L s ps) (by omega)
        (fun q h1 h2 => (hcov2 q).2 (Or.inr ((hcovA q).2 ⟨h1, h2⟩)))
      refine ⟨s2, hrun2, (addr L b.1, b.2), ?_, ?_, ?_, ?_⟩
      · rw [freeBlocks_rep hL R2 hfuel]
        exact List.mem_map.2 ⟨b, hb, rfl⟩
      · rw [haddr]; exact addr_mono L hb1
      · rw [haddr]
        simp only
        rw [addr_add, addr_add]
        exact addr_mono L hb2
      · intro hfree
        have hfr : ∀ f ∈ fr, f.1 + f.2 ≠ A.1 ∧ f.1 ≠ A.1 + sizeSum L s ps := by
          intro f hf
          have hm : (addr L f.1, f.2) ∈ freeBlocks L fuel s := by
            rw [freeBlocks_rep hL R hfuel]
            exact List.mem_map.2 ⟨f, hf, rfl⟩
          obtain ⟨h1, h2⟩ := hfree _ hm
          rw [haddr] at h1 h2
          simp only at h1 h2
          rw [addr_add] at h1 h2
          exact ⟨fun e => h1 (by rw [e]), fun e => h2 (by rw [e])⟩
        have hdisj := (List.pairwise_append.1 R.heap.disj).2.2
        have hlo : b.1 = A.1 := by
          by_contra hne
          have hcv : Cov fr2 (A.1 - 1) := ⟨b, hb, by omega, by omega⟩
          rcases (hcov2 _).1 hcv with ⟨f, hf, hf1, hf2⟩ | hc
          · have h3 := (hfr f hf).1
            have h4 := hdisj f hf A hA
            unfold Disj at h4
            omega
          · have := (hcovA _).1 hc
            omega
        have hhi : b.1 + b.2 = A.1 + sizeSum L s ps := by
          by_contra hne
          have hcv : Cov fr2 (A.1 + sizeSum L s ps) := ⟨b, hb, by omega, by omega⟩
          rcases (hcov2 _).1 hcv with ⟨f, hf, hf1, hf2⟩ | hc
          · have h3 := (hfr f hf).2
            obtain ⟨C, hC, _, hC1, hC2⟩ :=
              (hcovA (A.1 + sizeSum L s ps - 1)).2 ⟨by omega, by omega⟩
            have h4 := hdisj f hf C hC
            unfold Disj at h4
            omega
          · have := (hcovA _).1 hc
            omega
        rw [haddr, hlo]
        have : b.2 = sizeSum L s ps := by omega
        rw [this]

theorem coalescing_order_witness :
    abcState.2 = [8544, 8608, 8672] ∧
    (∃ s1 s2, freeAll layout64 FUEL abcState.1 [8608, 8544] = some s1 ∧
      freeAll layout64 FUEL abcState.1 [8544, 8608] = some s2 ∧
      freeBlocks layout64 FUEL s1 = freeBlocks layout64 FUEL s2) ∧
    (freeAll layout64 FUEL abcState.1 [8608, 8544]).map (freeBlocks layout64 FUEL)
      = some [(8192, 14)] ∧
    (freeAll layout64 FUEL abcState.1 [8544, 8608]).map (freeBlocks layout64 FUEL)
      = some [(8192, 14)] :=
  ⟨by decide,
    (coalescing_order layout64 FUEL abcState.1 abcState.2 [8544, 8608] layout64_ok (le_refl _)
      (run_inv layout64_ok layout64_apart (le_refl _) abcOps _ _ (zero_inv _) abcRun)
      (by decide)
      (List.chain'_pair.2 (by unfold Abuts; decide))).1 [8608, 8544] [8544, 8608]
      (List.Perm.swap _ _ _) (List.Perm.refl _),
    by decide, by decide⟩

/-- C10 (adapter size-overflow): for every element size `sizeofT ≥ 1` and
every `n`, `allocate(n)` ends with `std::bad_array_new_length` exactly when the
product `n * sizeofT` exceeds `INVISIBLE_POOL_SIZE`; it then leaves the statics
as they were; and otherwise the product handed to `invisible_pool_alloc` does
not wrap. -/
theorem adapter_overflow (L : Layout) (fuel sizeofT : Nat) (s : State) (n : Nat)
    (hsz : 1 ≤ sizeofT) (hW : INVISIBLE_POOL_SIZE < wordMod L) :
    (∀ r, allocate L fuel sizeofT s n = some r →
      (r.2 = AllocResult.bad_array_new_length ↔ INVISIBLE_POOL_SIZE < n * sizeofT)) ∧
    (INVISIBLE_POOL_SIZE < n * sizeofT →
      allocate L fuel sizeofT s n = some (s, AllocResult.bad_array_new_length)) ∧
    (n * sizeofT ≤ INVISIBLE_POOL_SIZE →
      (n * sizeofT) % wordMod L = n * sizeofT ∧
      allocate L fuel sizeofT s n =
        match invisible_pool_alloc L fuel s (n * sizeofT) with
        | none => none
        | some (s2, p) =>
          if p = 0 then some (s2, AllocResult.bad_alloc) else some (s2, AllocResult.ok p)) := by
  have hiff : n > INVISIBLE_POOL_SIZE / sizeofT ↔ INVISIBLE_POOL_SIZE < n * sizeofT :=
    Nat.div_lt_iff_lt_mul (by omega)
  have hover : INVISIBLE_POOL_SIZE < n * sizeofT →
      allocate L fuel sizeofT s n = some (s, AllocResult.bad_array_new_length) := by
    intro h
    simp [allocate, hiff.2 h]
  have hfit : n * sizeofT ≤ INVISIBLE_POOL_SIZE →
      (n * sizeofT) % wordMod L = n * sizeofT ∧
      allocate L fuel sizeofT s n =
        match invisible_pool_alloc L fuel s (n * sizeofT) with
        | none => none
        | some (s2, p) =>
          if p = 0 then some (s2, AllocResult.bad_alloc) else some (s2, AllocResult.ok p) := by
    intro h
    have hmod : (n * sizeofT) % wordMod L = n * sizeofT := Nat.mod_eq_of_lt (by omega)
    have hn : ¬ n > INVISIBLE_POOL_SIZE / sizeofT := fun h2 => by
      have := hiff.1 h2; omega
    refine ⟨hmod, ?_⟩
    simp only [allocate, hn, if_false, hmod]
  refine ⟨?_, hover, hfit⟩
  intro r hr
  by_cases h : INVISIBLE_POOL_SIZE < n * sizeofT
  · rw [hover h] at hr
    simp only [Option.some.injEq] at hr
    rw [← hr]
    exact ⟨fun _ => h, fun _ => rfl⟩
  · rw [(hfit (by omega)).2] at hr
    constructor
    · intro h2
      exfalso
      cases hal : invisible_pool_alloc L fuel s (n * sizeofT) with
      | none => rw [hal] at hr; simp at hr
      | some v =>
        obtain ⟨s2, p⟩ := v
        rw [hal] at hr
        by_cases hp : p = 0
        · simp only [hp, if_true, Option.some.injEq] at hr
          rw [← hr] at h2
          simp at h2
        · simp only [hp, if_false, Option.some.injEq] at hr
          rw [← hr] at h2
          simp at h2
    · intro h2
      exact absurd h2 h

theorem adapter_overflow_witness :
    allocate layout64 FUEL 4 zeroState (INVISIBLE_POOL_SIZE / 4 + 1)
      = some (zeroState, AllocResult.bad_array_new_length) :=
  (adapter_overflow layout64 FUEL 4 zeroState (INVISIBLE_POOL_SIZE / 4 + 1) (by decide)
    (by decide)).2.1 (by decide)

/-- C11 as stated fails: on a fresh pool `invisible_pool_alloc(0)` returns
the non-null pointer `pool + 16 * Q`, and the header one quantum before it has
size 1. The block is its header alone; the payload after the header has
`(1 - 1) * Q = 0` bytes, not one quantum. -/
theorem zero_byte_counterexample :
    (invisible_pool_alloc layout64 FUEL zeroState 0).map
        (fun r => (r.2, (r.1.mem (r.2 - layout64.Q)).size))
      = some (layout64.pool + 16 * layout64.Q, 1) ∧
    (1 - 1) * layout64.Q ≠ layout64.Q := by
  decide

/-- C11 as amended (zero-byte request): on a fresh pool `invisible_pool_alloc(0)`
returns a non-null pointer `p`; the block behind it has size 1, its header
alone with no payload after it; and `invisible_pool_free(p)` returns and leaves
a well-formed free list: the state satisfies the allocator invariant, the list
is a sorted cycle through the sentinel without adjacent blocks, and it holds
the one block of 16 quanta at the pool start. -/
theorem zero_byte (L : Layout) (fuel : Nat) (hL : LayoutOK L) (hA : SentinelApart L)
    (hfuel : FUEL ≤ fuel) (hroom : 16 * L.Q ≤ INVISIBLE_POOL_SIZE) :
    ∃ s1 p, invisible_pool_alloc L fuel zeroState 0 = some (s1, p) ∧ p ≠ 0 ∧
      p = L.pool + 16 * L.Q ∧ (s1.mem (p - L.Q)).size = 1 ∧
      ∃ s2, invisible_pool_free L fuel s1 p = some s2 ∧ WF L s2 ∧
        SortedCycle L fuel s2 ∧ NoAdjacent L fuel s2 ∧
        freeBlocks L fuel s2 = [(L.pool, 16)] := by
  have hQ := hL.1
  have hnq := nq_zero hL
  have hm : minted (num_quantas_of L 0) = 16 := by rw [hnq]; rfl
  obtain ⟨_, hnq1, hnw, _, _⟩ := nq_of_le hL (n := 0) (Nat.zero_le _)
  obtain ⟨s1, hrun, R1⟩ := fresh_alloc hL hA hfuel hnq1 hnw (by rw [hm]; exact hroom)
  rw [hm, hnq] at hrun R1
  simp only [Nat.add_one_sub_one, Nat.reduceSubDiff] at hrun R1
  have hif : (if (16 : Nat) = 1 then ([] : List Blk) else [(0, 15)]) = [(0, 15)] := by simp
  rw [hif] at R1
  have hF : FUEL = 2 * INVISIBLE_POOL_SIZE + 8 := rfl
  obtain ⟨s2, hfree, R2⟩ := @free_to_single L s1 [(0, 15)] [(15, 1)] [] 16 0 16 (15, 1) hQ R1
    (List.Perm.refl _) (by omega) (by
      intro q
      simp only [cov_cons, cov_nil, or_false]
      omega)
  have hp : addr L 15 + L.Q = L.pool + 16 * L.Q := by unfold addr; ring
  refine ⟨s1, addr L 15 + L.Q, hrun, by omega, hp, ?_, s2, hfree fuel (by simp; omega),
    Or.inr ⟨_, _, _, R2⟩, sorted_rep hL R2 hfuel, nonadj_rep hL R2 hfuel, ?_⟩
  · rw [Nat.add_sub_cancel]
    exact R1.heap.sizes (15, 1) (by simp)
  · rw [freeBlocks_rep hL R2 hfuel]
    simp [addr_zero]

theorem zero_byte_witness :
    ∃ s1 p, invisible_pool_alloc layout64 FUEL zeroState 0 = some (s1, p) ∧ p ≠ 0 ∧
      p = layout64.pool + 16 * layout64.Q ∧ (s1.mem (p - layout64.Q)).size = 1 ∧
      ∃ s2, invisible_pool_free layout64 FUEL s1 p = some s2 ∧ WF layout64 s2 ∧
        SortedCycle layout64 FUEL s2 ∧ NoAdjacent layout64 FUEL s2 ∧
        freeBlocks layout64 FUEL s2 = [(layout64.pool, 16)] :=
  zero_byte layout64 FUEL layout64_ok layout64_apart (le_refl _) (by decide)

/-- C12 (high-water monotonicity): the code at a request whose size makes the
sum of line 44 wrap. On a fresh pool `invisible_pool_alloc(1)` leaves the
cursor at 512; then `invisible_pool_alloc(2 ^ 64 - 544)` computes
`2 ^ 59 - 16` quanta, `total_req_size = 2 ^ 64 - 512`, the sum
`512 + total_req_size` wraps to 0, the test of line 44 passes, the call
returns the non-null pointer `pool + 512 + Q`, and the cursor is 0: it has
decreased. -/
theorem cursor_decreases :
    INVISIBLE_POOL_SIZE < 2 ^ 64 - 544 ∧ 2 ^ 64 - 544 < wordMod layout64 ∧
    num_quantas_of layout64 (2 ^ 64 - 544) = 2 ^ 59 - 16 ∧
    (invisible_pool_alloc layout64 FUEL zeroState 1).bind
        (fun r => (invisible_pool_alloc layout64 FUEL r.1 (2 ^ 64 - 544)).map
          (fun r2 => (r.1.invisible_pool_free_pos, r2.2, r2.1.invisible_pool_free_pos)))
      = some (512, layout64.pool + 512 + layout64.Q, 0) := by
  decide

/-- C13 (payload alignment): after every sequence of legal calls from the
zero-initialised state, a request of at most `INVISIBLE_POOL_SIZE` bytes
returns, and a non-null returned pointer lies `k * Q` bytes after the start of
`invisible_pool` for some `k ≥ 1`; so every alignment that divides `Q` and the
address of the pool divides the pointer. -/
theorem payload_alignment (L : Layout) (fuel : Nat) (ops : List Op) (s : State) (lv : List Nat)
    (n : Nat) (hL : LayoutOK L) (hA : SentinelApart L) (hfuel : FUEL ≤ fuel)
    (hrun : run L fuel (zeroState, []) ops = some (s, lv)) (hn : n ≤ INVISIBLE_POOL_SIZE) :
    ∃ s2 p, invisible_pool_alloc L fuel s n = some (s2, p) ∧
      (p ≠ 0 → ∃ k, 1 ≤ k ∧ p = L.pool + k * L.Q ∧
        ∀ a, a ∣ L.Q → a ∣ L.pool → a ∣ p) := by
  have I := run_inv hL hA hfuel ops _ _ (zero_inv L) hrun
  obtain ⟨fr, live, N, R, hlv, _, s2, p, hrun2, hout⟩ := inv_alloc hL hA hfuel I hn
  refine ⟨s2, p, hrun2, ?_⟩
  intro hp
  have key : ∀ o, p = addr L o + L.Q → ∃ k, 1 ≤ k ∧ p = L.pool + k * L.Q ∧
      ∀ a, a ∣ L.Q → a ∣ L.pool → a ∣ p := by
    intro o hpo
    have e : p = L.pool + (o + 1) * L.Q := by
      rw [hpo]; unfold addr; ring
    refine ⟨o + 1, Nat.le_add_left _ _, e, ?_⟩
    intro a ha1 ha2
    rw [e]
    exact Dvd.dvd.add ha2 (Dvd.dvd.mul_left ha1 _)
  rcases hout with ⟨h0, _⟩ | ⟨_, o, hpo, _⟩ | ⟨_, o, hpo, _⟩
  · exact absurd h0 hp
  · exact key o hpo
  · exact key o hpo

theorem payload_alignment_witness :
    ∃ s2 p, invisible_pool_alloc layout64 FUEL exState.1 40 = some (s2, p) ∧
      (p ≠ 0 → ∃ k, 1 ≤ k ∧ p = layout64.pool + k * layout64.Q ∧
        ∀ a, a ∣ layout64.Q → a ∣ layout64.pool → a ∣ p) :=
  payload_alignment layout64 FUEL exOps exState.1 exState.2 40 layout64_ok layout64_apart
    (le_refl _) exRun (by decide)

/-- C14 as stated fails: on a fresh pool, after `a`, `b`, `c = alloc(Q)` and
`free(b)`, `free(c)` the free list is the single block at the pool start, and
its size is 14 quanta, not 4: the blocks of `b` and `c` are joined with the 10
quanta left of the 16-quanta block that the first request minted. -/
theorem forward_coalesce_counterexample :
    (run layout64 FUEL (zeroState, [])
        [Op.alloc layout64.Q, Op.alloc layout64.Q, Op.alloc layout64.Q,
          Op.free 8608, Op.free 8544]).map (fun st => (freeBlocks layout64 FUEL st.1, st.2))
      = some ([(8192, 14)], [8672]) ∧ (14 : Nat) ≠ 4 := by
  decide

/-- C14 as amended (forward-coalesce scenario): on a fresh pool the three
requests `a`, `b`, `c = alloc(Q)` return non-null pointers, and after
`free(b)`, `free(c)` the free list contains, besides the sentinel, a single
block; it starts at the pool start, its size is 14 quanta (the 4 quanta of the
blocks of `b` and `c` and the 10 quanta left of the minted block), and it ends
where the block of `a` starts. -/
theorem forward_coalesce (L : Layout) (fuel : Nat) (hL : LayoutOK L) (hA : SentinelApart L)
    (hfuel : FUEL ≤ fuel) (hroom : 16 * L.Q ≤ INVISIBLE_POOL_SIZE) :
    ∃ s1 a s2 b s3 c s4 s5,
      invisible_pool_alloc L fuel zeroState L.Q = some (s1, a) ∧
      invisible_pool_alloc L fuel s1 L.Q = some (s2, b) ∧
      invisible_pool_alloc L fuel s2 L.Q = some (s3, c) ∧
      a ≠ 0 ∧ b ≠ 0 ∧ c ≠ 0 ∧
      invisible_pool_free L fuel s3 b = some s4 ∧
      invisible_pool_free L fuel s4 c = some s5 ∧
      freeBlocks L fuel s5 = [(L.pool, 14)] ∧ L.pool + 14 * L.Q = a - L.Q := by
  have hQ := hL.1
  have hQle : L.Q ≤ INVISIBLE_POOL_SIZE := by omega
  have hnq := nq_Q hL hQle
  have hm : minted (num_quantas_of L L.Q) = 16 := by rw [hnq]; rfl
  obtain ⟨_, hnq1, hnw, _, _⟩ := nq_of_le hL hQle
  have hF : FUEL = 2 * INVISIBLE_POOL_SIZE + 8 := rfl
  obtain ⟨s1, hrun1, R1⟩ := fresh_alloc hL hA hfuel hnq1 hnw (by rw [hm]; exact hroom)
  rw [hm, hnq] at hrun1 R1
  simp only [Nat.reduceSub, Nat.reduceEqDiff, if_false] at hrun1 R1
  obtain ⟨s2, hrun2, R2⟩ := alloc_single_call hL hA hfuel R1 hQle (by rw [hnq]; omega)
  rw [hnq] at hrun2 R2
  simp only [Nat.reduceSub, Nat.reduceEqDiff, if_false, Nat.zero_add] at hrun2 R2
  obtain ⟨s3, hrun3, R3⟩ := alloc_single_call hL hA hfuel R2 hQle (by rw [hnq]; omega)
  rw [hnq] at hrun3 R3
  simp only [Nat.reduceSub, Nat.reduceEqDiff, if_false, Nat.zero_add] at hrun3 R3
  obtain ⟨s4, fr4, hfree4, R4, _, hc4, _⟩ := @rep_free L s3 [(0, 10)]
    [(10, 2), (12, 2), (14, 2)] [(10, 2), (14, 2)] 16 (12, 2) hQ R3 (List.Perm.swap _ _ _)
  have hlen4 := rep_len hQ R4
  obtain ⟨s5, hfree5, R5⟩ := @free_to_single L s4 fr4 [(10, 2), (14, 2)] [(14, 2)] 16 0 14
    (10, 2) hQ R4 (List.Perm.refl _) (by omega) (by
      intro q
      rw [hc4]
      simp only [cov_cons, cov_nil, or_false]
      omega)
  refine ⟨s1, _, s2, _, s3, _, s4, s5, hrun1, hrun2, hrun3, by omega, by omega, by omega,
    hfree4 fuel (by simp; omega), hfree5 fuel (by omega), ?_, ?_⟩
  · rw [freeBlocks_rep hL R5 hfuel]
    simp [addr_zero]
  · rw [Nat.add_sub_cancel]
    unfold addr
    ring

theorem forward_coalesce_witness :
    ∃ s1 a s2 b s3 c s4 s5,
      invisible_pool_alloc layout64 FUEL zeroState layout64.Q = some (s1, a) ∧
      invisible_pool_alloc layout64 FUEL s1 layout64.Q = some (s2, b) ∧
      invisible_pool_alloc layout64 FUEL s2 layout64.Q = some (s3, c) ∧
      a ≠ 0 ∧ b ≠ 0 ∧ c ≠ 0 ∧
      invisible_pool_free layout64 FUEL s3 b = some s4 ∧
      invisible_pool_free layout64 FUEL s4 c = some s5 ∧
      freeBlocks layout64 FUEL s5 = [(layout64.pool, 14)] ∧
      layout64.pool + 14 * layout64.Q = a - layout64.Q :=
  forward_coalesce layout64 FUEL layout64_ok layout64_apart (le_refl _) (by decide)

/-- C15 as stated fails: in the layout `layout48`, where the header size of
48 bytes does not divide the pool size, the request of
`INVISIBLE_POOL_SIZE - Q` bytes needs 2796203 quanta, 16 bytes more than the
pool has, and on a fresh pool `invisible_pool_alloc` returns `nullptr`. -/
theorem single_reuse_counterexample :
    LayoutOK layout48 ∧ SentinelApart layout48 ∧ 16 * layout48.Q ≤ INVISIBLE_POOL_SIZE ∧
    num_quantas_of layout48 (INVISIBLE_POOL_SIZE - layout48.Q) = 2796203 ∧
    2796203 * layout48.Q = INVISIBLE_POOL_SIZE + 16 ∧
    (invisible_pool_alloc layout48 FUEL zeroState (INVISIBLE_POOL_SIZE - layout48.Q)).map
      Prod.snd = some 0 := by
  decide

/-- C15 as amended (single alloc/free reuse): on a fresh pool, for every
request whose block fits in the pool, that is
`max(ceil(n / Q) + 1, 16) * Q ≤ INVISIBLE_POOL_SIZE`, `invisible_pool_alloc`
returns a non-null pointer `p`, `invisible_pool_free(p)` returns, and the next
`invisible_pool_alloc` of the same size returns the same pointer `p`. -/
theorem single_reuse (L : Layout) (fuel n : Nat) (hL : LayoutOK L) (hA : SentinelApart L)
    (hfuel : FUEL ≤ fuel)
    (hfit : max ((n + L.Q - 1) / L.Q + 1) 16 * L.Q ≤ INVISIBLE_POOL_SIZE) :
    ∃ s1 p, invisible_pool_alloc L fuel zeroState n = some (s1, p) ∧ p ≠ 0 ∧
      ∃ s2, invisible_pool_free L fuel s1 p = some s2 ∧
        ∃ s3, invisible_pool_alloc L fuel s2 n = some (s3, p) := by
  have hQ := hL.1
  have hn := le_of_fits hL hfit
  have hnle : n ≤ INVISIBLE_POOL_SIZE := by omega
  obtain ⟨e, hnq1, hnw, _, _⟩ := nq_of_le hL hnle
  have hfit2 : minted (num_quantas_of L n) * L.Q ≤ INVISIBLE_POOL_SIZE := by
    rw [minted_eq_max, e]
    exact hfit
  have hF : FUEL = 2 * INVISIBLE_POOL_SIZE + 8 := rfl
  have hmle : num_quantas_of L n ≤ minted (num_quantas_of L n) := by
    unfold minted; split <;> omega
  obtain ⟨s1, hrun1, R1⟩ := fresh_alloc hL hA hfuel hnq1 hnw hfit2
  have hlen1 := rep_len hQ R1
  obtain ⟨s2, hfree, R2⟩ := @free_to_single L s1 _ _ [] _ 0 (minted (num_quantas_of L n))
    (minted (num_quantas_of L n) - num_quantas_of L n, num_quantas_of L n) hQ R1
    (List.Perm.refl _) (by omega) (by
      intro q
      by_cases h : minted (num_quantas_of L n) = num_quantas_of L n
      · simp only [h, if_true, cov_nil, false_or]
        omega
      · simp only [h, if_false, cov_cons, cov_nil, or_false]
        omega)
  obtain ⟨s3, hrun3, _⟩ := alloc_single_call hL hA hfuel R2 hnle hmle
  simp only [Nat.zero_add] at hrun3
  exact ⟨s1, _, hrun1, by omega, s2, hfree fuel (by omega), s3, hrun3⟩

theorem single_reuse_witness :
    max ((1 + layout64.Q - 1) / layout64.Q + 1) 16 * layout64.Q ≤ INVISIBLE_POOL_SIZE ∧
    ∃ s1 p, invisible_pool_alloc layout64 FUEL zeroState 1 = some (s1, p) ∧ p ≠ 0 ∧
      ∃ s2, invisible_pool_free layout64 FUEL s1 p = some s2 ∧
        ∃ s3, invisible_pool_alloc layout64 FUEL s2 1 = some (s3, p) :=
  ⟨by decide, single_reuse layout64 FUEL 1 layout64_ok layout64_apart (le_refl _) (by decide)⟩

/-- C16 (exhaustion scenario): on a fresh pool of 128 MiB, calling
`invisible_pool_alloc(1 MiB)` again and again with no frees, the first 127
calls return, each with a non-null pointer, the 127 pointers are pairwise
distinct, and a later call returns `nullptr`: after some `k ≥ 127` calls that
all returned non-null pointers, the next call returns `nullptr`. -/
theorem exhaustion_scenario (L : Layout) (fuel : Nat) (hL : LayoutOK L) (hA : SentinelApart L)
    (hfuel : FUEL ≤ fuel) (hQs : L.Q ≤ 4096) :
    (∃ s ps, allocN L fuel (1024 * 1024) 127 zeroState = some (s, ps) ∧ ps.length = 127 ∧
      (∀ p ∈ ps, p ≠ 0) ∧ ps.Nodup) ∧
    (∃ k s ps s2, 127 ≤ k ∧ allocN L fuel (1024 * 1024) k zeroState = some (s, ps) ∧
      ps.length = k ∧ (∀ p ∈ ps, p ≠ 0) ∧
      invisible_pool_alloc L fuel s (1024 * 1024) = some (s2, 0)) := by
  have hQ := hL.1
  have hn : 1024 * 1024 ≤ INVISIBLE_POOL_SIZE := by decide
  obtain ⟨h16, h127, hpos⟩ := mib_quanta hL hQs
  obtain ⟨_, hnq1, hnw, _, _⟩ := nq_of_le hL hn
  have hF : FUEL = 2 * INVISIBLE_POOL_SIZE + 8 := rfl
  have hnz : ∀ live : List Blk, ∀ p ∈ live.map (payload L), p ≠ 0 := by
    intro live p hp
    obtain ⟨b, _, hb⟩ := List.mem_map.1 hp
    rw [← hb]; unfold payload; omega
  constructor
  · obtain ⟨s, ps, live, hrun, R, hps, hlen⟩ := allocN_fresh hL hA hfuel hn h16 127 (by
      have e : L.Q * (127 * num_quantas_of L (1024 * 1024))
          = 127 * (num_quantas_of L (1024 * 1024) * L.Q) := by ring
      rw [e]; exact h127)
    refine ⟨s, ps, hrun, hlen, by rw [hps]; exact hnz live, ?_⟩
    rw [hps]
    unfold List.Nodup
    rw [List.pairwise_map]
    exact live_distinct hQ R.heap
  · obtain ⟨K, hK⟩ : ∃ K, K = INVISIBLE_POOL_SIZE / (num_quantas_of L (1024 * 1024) * L.Q) :=
      ⟨_, rfl⟩
    have hK1 : 127 ≤ K := by
      rw [hK, Nat.le_div_iff_mul_le hpos]
      exact h127
    have hK2 : K * (num_quantas_of L (1024 * 1024) * L.Q) ≤ INVISIBLE_POOL_SIZE := by
      rw [hK]; exact Nat.div_mul_le_self _ _
    have hK3 : INVISIBLE_POOL_SIZE < (K + 1) * (num_quantas_of L (1024 * 1024) * L.Q) := by
      rw [hK, Nat.mul_comm]
      exact Nat.lt_mul_div_succ _ hpos
    have e1 : L.Q * (K * num_quantas_of L (1024 * 1024))
        = K * (num_quantas_of L (1024 * 1024) * L.Q) := by ring
    obtain ⟨s, ps, live, hrun, R, hps, hlen⟩ := allocN_fresh hL hA hfuel hn h16 K (by
      rw [e1]; exact hK2)
    have hlenR := rep_len hQ R
    obtain ⟨s2, p, hal, hout⟩ := rep_alloc_loop hL hA R hnq1 hnw fuel (by simp; omega)
    have hm : minted (num_quantas_of L (1024 * 1024)) = num_quantas_of L (1024 * 1024) := by
      unfold minted MIN_INVISIBLE_POOL_ALLOC_QUANTAS
      rw [if_neg (by omega)]
    have hK4 : (K + 1) * (num_quantas_of L (1024 * 1024) * L.Q)
        = L.Q * (K * num_quantas_of L (1024 * 1024))
          + num_quantas_of L (1024 * 1024) * L.Q := by ring
    have hp0 : p = 0 := by
      rcases hout with ⟨h0, _⟩ | ⟨_, _, _, _, b, hb, _⟩ | ⟨_, _, _, _, _, hfit⟩
      · exact h0
      · simp at hb
      · rw [hm] at hfit; omega
    rw [hp0] at hal
    have hal2 : invisible_pool_alloc L fuel s (1024 * 1024) = some (s2, 0) := hal
    exact ⟨K, s, ps, s2, hK1, hrun, hlen, by rw [hps]; exact hnz live, hal2⟩

theorem exhaustion_scenario_witness :
    (∃ s ps, allocN layout64 FUEL (1024 * 1024) 127 zeroState = some (s, ps) ∧
      ps.length = 127 ∧ (∀ p ∈ ps, p ≠ 0) ∧ ps.Nodup) ∧
    (∃ k s ps s2, 127 ≤ k ∧ allocN layout64 FUEL (1024 * 1024) k zeroState = some (s, ps) ∧
      ps.length = k ∧ (∀ p ∈ ps, p ≠ 0) ∧
      invisible_pool_alloc layout64 FUEL s (1024 * 1024) = some (s2, 0)) :=
  exhaustion_scenario layout64 FUEL layout64_ok layout64_apart (le_refl _) (by decide)

/-- C18 (first fit from the rover with tail split): in every well-formed state
in which some free block has at least `n_quantas` quanta, let the round list
the nodes from `rover->next` around the list, the rover last. The call takes
the first node `cur` of the round that is large enough; `cur` is a free block;
the cursor is unchanged; the rover becomes the node examined just before `cur`,
whose `next` is `cur`. On an exact fit the call returns the payload of `cur`
and the only write is that predecessor's `next`, set to `cur->next`. Otherwise
it returns the payload of the block `size - n_quantas` quanta after `cur`,
whose header gets size `n_quantas`; `cur` keeps its address with its size
reduced by `n_quantas`, no `next` field changes, and no other header
changes. -/
theorem first_fit (L : Layout) (fuel : Nat) (s : State) (n : Nat) (hL : LayoutOK L)
    (hQ2 : 2 ≤ L.Q) (hfuel : FUEL ≤ fuel) (hwf : WF L s)
    (hex : ∃ a ∈ freeNodes L fuel s, num_quantas_of L n ≤ (s.mem a).size) :
    ∃ ys cur zs, roverRound fuel s = ys ++ cur :: zs ∧
      (∀ y ∈ ys, (s.mem y).size < num_quantas_of L n) ∧
      num_quantas_of L n ≤ (s.mem cur).size ∧ cur ∈ freeNodes L fuel s ∧
      (s.mem ((ys.getLast?).getD s.invisible_free_p)).next = cur ∧
      ∃ s2 p, invisible_pool_alloc L fuel s n = some (s2, p) ∧
        s2.invisible_pool_free_pos = s.invisible_pool_free_pos ∧
        s2.invisible_free_p = (ys.getLast?).getD s.invisible_free_p ∧
        ((s.mem cur).size = num_quantas_of L n →
          p = cur + L.Q ∧
          s2.mem = upd s.mem ((ys.getLast?).getD s.invisible_free_p)
            { s.mem ((ys.getLast?).getD s.invisible_free_p) with next := (s.mem cur).next }) ∧
        ((s.mem cur).size ≠ num_quantas_of L n →
          p = cur + ((s.mem cur).size - num_quantas_of L n) * L.Q + L.Q ∧
          (s2.mem cur).size = (s.mem cur).size - num_quantas_of L n ∧
          (s2.mem (cur + ((s.mem cur).size - num_quantas_of L n) * L.Q)).size
            = num_quantas_of L n ∧
          (∀ x, (s2.mem x).next = (s.mem x).next) ∧
          (∀ x, x ≠ cur → x ≠ cur + ((s.mem cur).size - num_quantas_of L n) * L.Q →
            s2.mem x = s.mem x)) := by
  have hQ := hL.1
  rcases hwf with ⟨h0, _⟩ | ⟨fr, live, N, R⟩
  · exfalso
    obtain ⟨a, ha, _⟩ := hex
    simp [freeNodes, h0] at ha
  · obtain ⟨hnq, _⟩ := nq_any hL hQ2 n
    have hfn := freeNodes_rep hL R hfuel
    have hlen := rep_len hQ R
    have hF : FUEL = 2 * INVISIBLE_POOL_SIZE + 8 := rfl
    have hex2 : ∃ b ∈ fr, num_quantas_of L n ≤ b.2 := by
      obtain ⟨a, ha, hle⟩ := hex
      rw [hfn] at ha
      obtain ⟨b, hb, hba⟩ := mem_nodes.1 ha
      rw [← hba, R.heap.sizes b (by simp [hb])] at hle
      exact ⟨b, hb, hle⟩
    obtain ⟨ys, x, zs, hround, hys, hx, hprev, ⟨b, hb, hxb⟩, hrun⟩ :=
      alloc_first R.heap hQ hnq hex2 fuel (by omega)
    have hsm : (s.mem x).size < wordMod L := by
      rw [hxb, R.heap.sizes b (by simp [hb])]
      have := R.heap.small b (by simp [hb])
      omega
    obtain ⟨h1, h2, h3, h4⟩ := alloc_take_spec L hQ (num_quantas_of L n) s
      ((ys.getLast?).getD s.invisible_free_p) x hx hsm
    have hal : invisible_pool_alloc L fuel s n
        = some (alloc_take L (num_quantas_of L n) s
            ((ys.getLast?).getD s.invisible_free_p) x) := by
      unfold invisible_pool_alloc
      simp only [alloc_init_rep hL.2.1 hL.2.2.1 R]
      exact hrun
    refine ⟨ys, x, zs, hround, hys, hx, ?_, hprev, _, _, hal, h1, h2, h3, h4⟩
    rw [hfn, hxb]
    exact mem_nodes.2 ⟨b, hb, rfl⟩

theorem first_fit_witness :
    roverRound FUEL exState.1 = [8544, layout64.base, 8192] ∧
    ∃ ys cur zs, roverRound FUEL exState.1 = ys ++ cur :: zs ∧
      (∀ y ∈ ys, (exState.1.mem y).size < num_quantas_of layout64 40) ∧
      num_quantas_of layout64 40 ≤ (exState.1.mem cur).size ∧
      cur ∈ freeNodes layout64 FUEL exState.1 ∧
      (exState.1.mem ((ys.getLast?).getD exState.1.invisible_free_p)).next = cur ∧
      ∃ s2 p, invisible_pool_alloc layout64 FUEL exState.1 40 = some (s2, p) ∧
        s2.invisible_pool_free_pos = exState.1.invisible_pool_free_pos ∧
        s2.invisible_free_p = (ys.getLast?).getD exState.1.invisible_free_p ∧
        ((exState.1.mem cur).size = num_quantas_of layout64 40 →
          p = cur + layout64.Q ∧
          s2.mem = upd exState.1.mem ((ys.getLast?).getD exState.1.invisible_free_p)
            { exState.1.mem ((ys.getLast?).getD exState.1.invisible_free_p) with
              next := (exState.1.mem cur).next }) ∧
        ((exState.1.mem cur).size ≠ num_quantas_of layout64 40 →
          p = cur + ((exState.1.mem cur).size - num_quantas_of layout64 40) * layout64.Q
            + layout64.Q ∧
          (s2.mem cur).size = (exState.1.mem cur).size - num_quantas_of layout64 40 ∧
          (s2.mem (cur + ((exState.1.mem cur).size - num_quantas_of layout64 40)
              * layout64.Q)).size = num_quantas_of layout64 40 ∧
          (∀ x, (s2.mem x).next = (exState.1.mem x).next) ∧
          (∀ x, x ≠ cur →
            x ≠ cur + ((exState.1.mem cur).size - num_quantas_of layout64 40) * layout64.Q →
            s2.mem x = exState.1.mem x)) :=
  ⟨by decide,
    first_fit layout64 FUEL exState.1 40 layout64_ok (by decide) (le_refl _)
      (inv_wf (run_inv layout64_ok layout64_apart (le_refl _) exOps _ _ (zero_inv _) exRun))
      ⟨8544, by decide, by decide⟩⟩

/-- C19 (no partial success): in every well-formed state, if
`invisible_pool_alloc(n)` returns `nullptr`, for any `n`, then the state after
the call is the state before it apart from the first-call initialisation of
sentinel and rover: the cursor is the same, the free blocks are the same
nodes with the same headers (`size` and `next`), and when the rover was
already set nothing has changed at all. -/
theorem no_partial_success (L : Layout) (fuel : Nat) (s s2 : State) (n : Nat)
    (hL : LayoutOK L) (hA : SentinelApart L) (hQ2 : 2 ≤ L.Q) (hbase : L.base < wordMod L)
    (hfuel : FUEL ≤ fuel) (hwf : WF L s)
    (hal : invisible_pool_alloc L fuel s n = some (s2, 0)) :
    s2 = alloc_init L s ∧ s2.invisible_pool_free_pos = s.invisible_pool_free_pos ∧
      (s.invisible_free_p ≠ 0 → s2 = s) ∧
      freeNodes L fuel s2 = freeNodes L fuel s ∧
      (∀ a ∈ freeNodes L fuel s, s2.mem a = s.mem a) := by
  obtain ⟨lv, I⟩ := wf_inv hwf
  obtain ⟨fr, live, N, R, _, hc⟩ := init_cases hL I
  simp only at R hc
  obtain ⟨hnq, hsm⟩ := nq_any hL hQ2 n
  have hlen := rep_len hL.1 R
  have hF : FUEL = 2 * INVISIBLE_POOL_SIZE + 8 := rfl
  have e : s2 = alloc_init L s :=
    alloc_null hL hA hbase R hnq hsm fuel s2 (by omega) hal
  refine ⟨e, by rw [e]; exact alloc_init_pos L s, ?_, ?_, ?_⟩
  · intro h0
    rw [e]
    simp [alloc_init, h0]
  · rcases hc with ⟨h0, hfr⟩ | he
    · rw [e, freeNodes_rep hL R hfuel, hfr]
      simp [freeNodes, h0]
    · rw [e, he]
  · intro a ha
    rcases hc with ⟨h0, _⟩ | he
    · simp [freeNodes, h0] at ha
    · rw [e, he]

theorem no_partial_success_witness :
    fullState.1.invisible_pool_free_pos = INVISIBLE_POOL_SIZE ∧
    ((invisible_pool_alloc layout64 FUEL fullState.1 1).getD (zeroState, 1)).1
        = alloc_init layout64 fullState.1 ∧
      ((invisible_pool_alloc layout64 FUEL fullState.1 1).getD
          (zeroState, 1)).1.invisible_pool_free_pos
        = fullState.1.invisible_pool_free_pos ∧
      (fullState.1.invisible_free_p ≠ 0 →
        ((invisible_pool_alloc layout64 FUEL fullState.1 1).getD (zeroState, 1)).1
          = fullState.1) ∧
      freeNodes layout64 FUEL
          ((invisible_pool_alloc layout64 FUEL fullState.1 1).getD (zeroState, 1)).1
        = freeNodes layout64 FUEL fullState.1 ∧
      (∀ a ∈ freeNodes layout64 FUEL fullState.1,
        ((invisible_pool_alloc layout64 FUEL fullState.1 1).getD (zeroState, 1)).1.mem a
          = fullState.1.mem a) :=
  ⟨by decide,
    no_partial_success layout64 FUEL fullState.1
      ((invisible_pool_alloc layout64 FUEL fullState.1 1).getD (zeroState, 1)).1 1
      layout64_ok layout64_apart (by decide) (by decide) (le_refl _)
      (inv_wf (run_inv layout64_ok layout64_apart (le_refl _) fullOps _ _ (zero_inv _) fullRun))
      ((getD_of_isSome (invisible_pool_alloc layout64 FUEL fullState.1 1) (zeroState, 1)
          (by decide)).trans (congrArg some (Prod.ext rfl (by decide))))⟩

/-- C20 (termination of the search): in every well-formed state with `k` free
blocks and for every request of at most `INVISIBLE_POOL_SIZE` bytes, the loop
of `invisible_pool_alloc` is left after at most `2 * k + 6` iterations, and by
then `get_invisible_mem_from_pool` has been called at most once; the counting
loop returns what `invisible_pool_alloc` returns. And for every live pointer
the insertion-point loop of `invisible_pool_free` is left after at most
`k + 1` iterations, one round of the list with its sentinel, and the call
returns. -/
theorem search_terminates (L : Layout) (s : State) (lv : List Nat) (n : Nat)
    (hL : LayoutOK L) (hA : SentinelApart L) (I : RunInv L (s, lv))
    (hn : n ≤ INVISIBLE_POOL_SIZE) :
    (∀ fuel, 2 * (freeNodes L FUEL s).length + 6 ≤ fuel →
      ∃ s2 p c, invisible_pool_alloc_calls L fuel s n = some (s2, p, c) ∧ c ≤ 1 ∧
        invisible_pool_alloc L fuel s n = some (s2, p)) ∧
    (∀ p ∈ lv, ∀ fuel, (freeNodes L FUEL s).length + 1 ≤ fuel →
      ∃ q s2, free_find s.mem (p - L.Q) fuel s.invisible_free_p = some q ∧
        invisible_pool_free L fuel s p = some s2) := by
  have hQ := hL.1
  constructor
  · intro fuel hfuel
    obtain ⟨fr, live, N, R, _, hc⟩ := init_cases hL I
    simp only at R hc
    obtain ⟨_, hnq1, hnw, _, _⟩ := nq_of_le hL hn
    have hfn := (freeNodes_init hL (le_refl _) R hc).1
    have hlen : (freeNodes L FUEL s).length = fr.length := by
      rw [hfn]; simp [nodes]
    obtain ⟨s2, p, c, hrun, hc1⟩ := rep_calls hL hA R hnq1 hnw fuel (by omega)
    have hrun2 : invisible_pool_alloc_calls L fuel s n = some (s2, p, c) := hrun
    refine ⟨s2, p, c, hrun2, hc1, ?_⟩
    rw [← alloc_calls_erase, hrun2]
    rfl
  · intro p hp fuel hfuel
    rcases I with ⟨_, _, hlv⟩ | ⟨fr, live, N, R, hlv⟩
    · simp only at hlv
      rw [hlv] at hp
      simp at hp
    · simp only at hlv R
      rw [hlv] at hp
      obtain ⟨B, hB, hBp⟩ := List.mem_map.1 hp
      have hperm := perm_filter_ne (f := payload L) live (live_distinct hQ R.heap) hB
      obtain ⟨s2, _, hrun, _⟩ := rep_free hQ R hperm
      have hlen : (freeNodes L FUEL s).length = fr.length := by
        rw [freeNodes_rep hL R (le_refl _)]; simp [nodes]
      have hfree : invisible_pool_free L fuel s p = some s2 := by
        rw [← hBp]; exact hrun fuel (by omega)
      cases hf : free_find s.mem (p - L.Q) fuel s.invisible_free_p with
      | none =>
        exfalso
        unfold invisible_pool_free at hfree
        simp only [hf] at hfree
        exact absurd hfree (by simp)
      | some q => exact ⟨q, s2, rfl, hfree⟩

theorem search_terminates_witness :
    (freeNodes layout64 FUEL exState.1).length = 2 ∧ exState.2 = [8512] ∧
    ((∀ fuel, 2 * (freeNodes layout64 FUEL exState.1).length + 6 ≤ fuel →
      ∃ s2 p c, invisible_pool_alloc_calls layout64 fuel exState.1 1000 = some (s2, p, c) ∧
        c ≤ 1 ∧ invisible_pool_alloc layout64 fuel exState.1 1000 = some (s2, p)) ∧
    (∀ p ∈ exState.2, ∀ fuel, (freeNodes layout64 FUEL exState.1).length + 1 ≤ fuel →
      ∃ q s2, free_find exState.1.mem (p - layout64.Q) fuel exState.1.invisible_free_p
          = some q ∧
        invisible_pool_free layout64 fuel exState.1 p = some s2)) :=
  ⟨by decide, by decide,
    search_terminates layout64 exState.1 exState.2 1000 layout64_ok layout64_apart
      (run_inv layout64_ok layout64_apart (le_refl _) exOps _ _ (zero_inv _) exRun)
      (by decide)⟩

end InvisiblePool
